import Mathlib

/-!
# Verification of the nvc HDL front-end core (diag.c / simp.c)

A shallow embedding, in Lean 4, of the source-location registry and
diagnostic engine of `src/diag.c` and of the simplification pass of
`src/simp.c`, together with proofs of the specification claims about
them.

Conventions of the embedding:
* C strings are `List Char`; interned identifiers (`ident_t`) are `Nat`
  (interning makes identifier equality pointer equality, which `Nat`
  equality models).
* Machine integers are `Nat`/`Int`; the packed 64-bit location word is a
  `Nat` built with the same shifts and bitwise ors as the C code.
* `fatal`/`assert` paths are modelled by `Option`: `none` is process
  abort.
* Trees are an inductive; each declaration node carries a `Nat` id, and
  the pointer equality the C code uses on declarations is id equality.
-/

namespace Nvc

/-! ## Source locations (diag.c) -/

/-- `LINE_INVALID`: 20-bit all-ones marker for an invalid line. -/
def LINE_INVALID : Nat := 0xfffff

/-- `COLUMN_INVALID`: 12-bit all-ones marker for an invalid column. -/
def COLUMN_INVALID : Nat := 0xfff

/-- `DELTA_INVALID`: 8-bit all-ones marker for an invalid delta. -/
def DELTA_INVALID : Nat := 0xff

/-- `FILE_INVALID`: 16-bit all-ones marker for an invalid file ref. -/
def FILE_INVALID : Nat := 0xffff

/-- `loc_t`: the packed location record
`{first_line:20, first_column:12, line_delta:8, column_delta:8, file_ref:16}`
with each bitfield modelled as a `Nat`. -/
structure Loc where
  first_line : Nat
  first_column : Nat
  line_delta : Nat
  column_delta : Nat
  file_ref : Nat
  deriving DecidableEq, Repr

/-- A location whose fields fit the packed bit ranges. -/
def Loc.fits (l : Loc) : Prop :=
  l.first_line < 2 ^ 20 ∧ l.first_column < 2 ^ 12 ∧
  l.line_delta < 2 ^ 8 ∧ l.column_delta < 2 ^ 8 ∧ l.file_ref < 2 ^ 16

instance (l : Loc) : Decidable l.fits := by
  unfold Loc.fits
  infer_instance

/-- `LOC_INVALID`. -/
def LOC_INVALID : Loc :=
  ⟨LINE_INVALID, COLUMN_INVALID, DELTA_INVALID, DELTA_INVALID, FILE_INVALID⟩

/-- `loc_invalid_p` (on a present location; the NULL case is handled at
call sites by `Option`). -/
def loc_invalid_p (l : Loc) : Bool :=
  l.first_line == LINE_INVALID || l.file_ref == FILE_INVALID

/-- `loc_eq`. -/
def loc_eq (a b : Loc) : Bool :=
  a.first_line == b.first_line && a.first_column == b.first_column &&
  a.line_delta == b.line_delta && a.column_delta == b.column_delta &&
  a.file_ref == b.file_ref

/-- `loc_file_t`: one entry of the interned file registry.  The
memory-mapped line buffer and `tried_open` flag play no part in the
claims under proof and are omitted. -/
structure LocFile where
  ref : Nat
  name_str : List Char
  deriving DecidableEq, Repr

/-- The process-global `loc_files` registry. -/
abbrev FileList := List LocFile

/-- The canonicalisation loop of `loc_file_ref`: copy `*s` unless both
`*s` and `*(s+1)` are `'/'` (collapses consecutive `/` characters). -/
def squashSlashes : List Char → List Char
  | [] => []
  | [c] => [c]
  | c₁ :: c₂ :: rest =>
    if c₁ = '/' ∧ c₂ = '/' then squashSlashes (c₂ :: rest)
    else c₁ :: squashSlashes (c₂ :: rest)

/-- `loc_file_ref(name, linebuf)`: look the raw name up among the
registered canonical names (first match wins, returning its stored
`ref`); otherwise strip consecutive `/` and append a fresh entry whose
`ref` is the current registry length.  `name == NULL` returns
`FILE_INVALID` (modelled `none`).  Returns the updated registry and the
reference. -/
def loc_file_ref (name : Option (List Char)) (files : FileList) : FileList × Option Nat :=
  match name with
  | none => (files, none)
  | some nm =>
    match files.find? (fun f => f.name_str = nm) with
    | some f => (files, some f.ref)
    | none =>
      let canon := squashSlashes nm
      (files ++ [⟨files.length, canon⟩], some files.length)

/-! ## Location persistence (diag.c: loc_write / loc_read)

The `fbuf` byte stream is a collaborator; it is modelled as a list of
typed tokens (`write_u16`/`write_u64`/`fbuf_put_uint`/`write_raw` each
emit one token, and the `read_*` mirrors consume one).  A written name's
length prefix counts the terminating NUL (`strlen + 1`); the reader
reads that many bytes and strips the NUL again, so the token for
`write_raw` carries the logical name. -/

/-- One fbuf token. -/
inductive Tok where
  | u16 (n : Nat)
  | uint (n : Nat)
  | raw (s : List Char)
  | u64 (n : Nat)
  deriving DecidableEq, Repr

/-- `LOC_MAGIC`. -/
def LOC_MAGIC : Nat := 0xf00f

/-- The packed 64-bit word written by `loc_write`. -/
def locMerged (l : Loc) : Nat :=
  (l.first_line <<< 44) ||| (l.first_column <<< 32) ||| (l.line_delta <<< 24) |||
    (l.column_delta <<< 16) ||| l.file_ref

/-- The index block written on the first `loc_write` of a context: magic,
file count, then each file's name with its length prefix. -/
def locIndexToks (files : FileList) : List Tok :=
  Tok.u16 LOC_MAGIC :: Tok.uint files.length ::
    (files.map fun f => [Tok.uint (f.name_str.length + 1), Tok.raw f.name_str]).flatten

/-- `loc_write(loc, ctx)`: emit the index block once (tracked by
`have_index`), then the packed word. -/
def loc_write (l : Loc) (files : FileList) (st : Bool × List Tok) : Bool × List Tok :=
  let st' := if st.1 then st else (true, st.2 ++ locIndexToks files)
  (true, st'.2 ++ [Tok.u64 (locMerged l)])

/-- Writing a whole sequence of locations through one write context. -/
def loc_write_all (files : FileList) (locs : List Loc) : List Tok :=
  (locs.foldl (fun st l => loc_write l files st) (false, [])).2

/-- `struct loc_rd_ctx` (the `fbuf` handle is the token stream threaded
separately).  `ref_map` entries start as `FILE_INVALID` (`none`). -/
structure RdCtx where
  file_map : List (List Char)
  ref_map : List (Option Nat)
  have_index : Bool
  deriving DecidableEq, Repr

/-- Reading `n_files` (length, name) pairs of the index block. -/
def readNames : Nat → List Tok → Option (List (List Char) × List Tok)
  | 0, toks => some ([], toks)
  | n + 1, Tok.uint _len :: Tok.raw s :: toks =>
    (readNames n toks).map fun (ns, ts) => (s :: ns, ts)
  | _ + 1, _ => none

/-- The scan of `loc_read` that fills `ref_map[old_ref]` from the local
registry: every entry whose name matches assigns its `ref`, so the last
match wins. -/
def lastNameMatch (files : FileList) (nm : List Char) : Option Nat :=
  files.foldl (fun acc f => if f.name_str = nm then some f.ref else acc) none

/-- `loc_read(loc, ctx)`: parse the index block on first use (corrupt
magic is `fatal`, modelled `none`), then one packed word; an old file
ref outside the index is `fatal`; otherwise it is remapped to a local
registry entry by canonical name, appending a new entry when no name
matches.  Returns the location, the updated registry, the updated
context and the rest of the stream. -/
def loc_read_one (files : FileList) (ctx : RdCtx) (toks : List Tok) :
    Option (Loc × FileList × RdCtx × List Tok) := do
  let (ctx, toks) ←
    if ctx.have_index then some (ctx, toks)
    else
      match toks with
      | Tok.u16 magic :: Tok.uint n :: rest =>
        if magic ≠ LOC_MAGIC then none
        else do
          let (names, rest') ← readNames n rest
          some (⟨names, names.map fun _ => none, true⟩, rest')
      | _ => none
  match toks with
  | Tok.u64 merged :: rest =>
    let old_ref := merged &&& 0xffff
    let (new_ref, files, ctx) ←
      if old_ref = FILE_INVALID then some (FILE_INVALID, files, ctx)
      else if old_ref ≥ ctx.file_map.length then none
      else
        let nm := (ctx.file_map.get? old_ref).getD []
        match (ctx.ref_map.get? old_ref).getD none with
        | some r => some (r, files, ctx)
        | none =>
          match lastNameMatch files nm with
          | some r => some (r, files, { ctx with ref_map := ctx.ref_map.set old_ref (some r) })
          | none =>
            some (files.length, files ++ [⟨files.length, nm⟩],
              { ctx with ref_map := ctx.ref_map.set old_ref (some files.length) })
    some (⟨(merged >>> 44) &&& 0xfffff, (merged >>> 32) &&& 0xfff,
           (merged >>> 24) &&& 0xff, (merged >>> 16) &&& 0xff, new_ref⟩,
          files, ctx, rest)
  | _ => none

/-- Reading back `n` locations through one read context. -/
def loc_read_all : Nat → FileList → RdCtx → List Tok → Option (List Loc × FileList)
  | 0, files, _, _ => some ([], files)
  | n + 1, files, ctx, toks => do
    let (l, files', ctx', toks') ← loc_read_one files ctx toks
    let (ls, files'') ← loc_read_all n files' ctx' toks'
    some (l :: ls, files'')

/-! ## Diagnostic hints (diag.c) -/

/-- `diag_level_t`. -/
inductive DiagLevel where
  | note | warn | error | fatal
  deriving DecidableEq, Repr

/-- `diag_hint_t`: `{loc, text, priority}`.  A hint seeded by `diag_new`
has no text (`none`). -/
structure DiagHint where
  loc : Loc
  text : Option (List Char)
  priority : Int
  deriving DecidableEq, Repr

/-- `struct _diag` restricted to the fields the hint claims touch. -/
structure Diag where
  level : DiagLevel
  hints : List DiagHint
  trace : List DiagHint
  deriving DecidableEq, Repr

/-- `diag_new(level, loc)`: seed `hints[0]` with a valid location (no
text, priority 0 from `xcalloc`).  The global hint callback is a
collaborator and is not modelled. -/
def diag_new (level : DiagLevel) (loc : Option Loc) : Diag :=
  let hints :=
    match loc with
    | some l => if loc_invalid_p l then [] else [⟨l, none, 0⟩]
    | none => []
  ⟨level, hints, []⟩

/-- The replacement scan of `diag_hint`: if some existing hint has an
equal location, replace that hint's text and stop. -/
def replaceHint (l : Loc) (text : List Char) : List DiagHint → Option (List DiagHint)
  | [] => none
  | h :: rest =>
    if loc_eq l h.loc then some ({ h with text := some text } :: rest)
    else (replaceHint l text rest).map (h :: ·)

/-- `diag_hint(d, loc, fmt, ...)`: with a valid location equal to an
existing hint's, replace that hint's text; otherwise append a new hint
with priority `-(d->hints.count)`. -/
def diag_hint (d : Diag) (loc : Option Loc) (text : List Char) : Diag :=
  let appended : Diag :=
    { d with hints := d.hints ++ [⟨loc.getD LOC_INVALID, some text, -(d.hints.length : Int)⟩] }
  match loc with
  | some l =>
    if loc_invalid_p l then appended
    else
      match replaceHint l text d.hints with
      | some hints => { d with hints := hints }
      | none => appended
  | none => appended

/-- `diag_compar`: the qsort comparator used when emitting hints —
file ref, then first line, then priority, each ascending. -/
def diag_compar (a b : DiagHint) : Int :=
  if a.loc.file_ref ≠ b.loc.file_ref then (a.loc.file_ref : Int) - b.loc.file_ref
  else if a.loc.first_line ≠ b.loc.first_line then (a.loc.first_line : Int) - b.loc.first_line
  else a.priority - b.priority

/-- The registry invariant maintained by `loc_file_ref` and the read-side
remapping: an entry's stored `ref` is its index. -/
def FilesWF (files : FileList) : Prop :=
  ∀ i (h : i < files.length), (files.get ⟨i, h⟩).ref = i

/-- The invariant `diag_new`/`diag_hint` maintain on hint priorities: the
hint at index `i` carries priority `-i` (the seeded primary hint has
priority 0 and each appended hint the negated count at its insertion). -/
def HintPriorityInv (d : Diag) : Prop :=
  ∀ i (h : i < d.hints.length), (d.hints.get ⟨i, h⟩).priority = -(i : Int)

/-! ## The tree IR fragment used by the simplification pass (simp.c)

The heterogeneous tagged node store of tree.c is modelled as one
inductive with a constructor per tree kind, carrying exactly the slots
the simplification rules touch.  Source locations are omitted (they play
no semantic part in any rule).  Declaration nodes carry a `Nat` id; the
pointer equality the pass uses on declarations (`tree_ref(t) == decl`,
hash keys) is id equality.  Interned identifiers are `Nat`. -/

/-- `class_of` results (`C_SIGNAL`, `C_CONSTANT`, ...). -/
inductive Class where
  | signal | constant | variable | default
  deriving DecidableEq, Repr

/-- `port_mode_t`. -/
inductive PortMode where
  | pin | pout | pinout | pbuffer
  deriving DecidableEq, Repr

/-- `param_kind_t` (`P_POS` / `P_NAMED`; `P_RANGE` does not occur in the
rules under proof). -/
inductive PSub where
  | pos | named
  deriving DecidableEq, Repr

/-- `assoc_kind_t`.  `A_POS` carries its position. -/
inductive ASub where
  | pos (p : Nat) | named | range | others
  deriving DecidableEq, Repr

/-- The predefined attributes the modelled rules dispatch on
(`ATTR_DELAYED`, `ATTR_TRANSACTION`, `ATTR_EVENT`, `ATTR_ACTIVE`).  The
remaining `ATTR_*` kinds reach only the `default` arms of the modelled
functions and are not represented. -/
inductive AttrKind where
  | delayed | transaction | event | active
  deriving DecidableEq, Repr

/-- The four subprogram tree kinds collapsed into one constructor. -/
inductive SubprogTK where
  | funcDecl | procDecl | funcBody | procBody
  deriving DecidableEq, Repr

/-- `subprogram_kind_t`: `S_USER`, `S_FOREIGN`, or a predefined builtin
(whose `is_open_coded_builtin` answer, a fixed property of the builtin
table in common.c outside src/, is carried as a flag). -/
inductive SubprogKind where
  | user | foreign | predef (openCoded : Bool)
  deriving DecidableEq, Repr

/-- `range_kind_t` for plain ranges (`RANGE_EXPR` is a separate tree
constructor). -/
inductive RangeKind where
  | upto | downto
  deriving DecidableEq, Repr

/-- Types.  Modelled from the spec: the type store (type.c) is outside
src/; the rules need `type_is_scalar`, `type_is_unconstrained`, one
dimension's literal bounds (`range_of` + `range_bounds`) and record
field names (`type_field`).  `arrayTy bounds = none` is an unconstrained
array; `some (k, lo, hi)` a constrained one with literal bounds `lo ≤ hi`
stored low-to-high and direction `k`. -/
inductive Ty where
  | scalar (n : Nat)
  | arrayTy (n : Nat) (bounds : Option (RangeKind × Int × Int))
  | composite (n : Nat) (fields : List Nat)
  deriving DecidableEq, Repr

/-- The scalar type of `STD.STANDARD.BOOLEAN`. -/
def boolTy : Ty := Ty.scalar 0

/-- `type_is_scalar`. -/
def type_is_scalar : Ty → Bool
  | Ty.scalar _ => true
  | _ => false

/-- `type_is_unconstrained`. -/
def type_is_unconstrained : Ty → Bool
  | Ty.arrayTy _ none => true
  | _ => false

/-- The subset of `tree_flags_t` the modelled rules read or write. -/
structure TFlags where
  locallyStatic : Bool
  globallyStatic : Bool
  staticWait : Bool
  postponed : Bool
  impure : Bool
  predefined : Bool
  hiddenFlag : Bool
  formalName : Bool
  deriving DecidableEq, Repr

/-- The empty flag set. -/
def noFlags : TFlags := ⟨false, false, false, false, false, false, false, false⟩

/-- `tree_flags(t) & mask` as a non-emptiness test of the
intersection. -/
def flagsIntersect (f m : TFlags) : Bool :=
  (f.locallyStatic && m.locallyStatic) || (f.globallyStatic && m.globallyStatic) ||
  (f.staticWait && m.staticWait) || (f.postponed && m.postponed) ||
  (f.impure && m.impure) || (f.predefined && m.predefined) ||
  (f.hiddenFlag && m.hiddenFlag) || (f.formalName && m.formalName)

/-- `eval_flags_t` (`EVAL_FCALL`, `EVAL_WARN`). -/
structure EvalFlags where
  fcall : Bool
  warn : Bool
  deriving DecidableEq, Repr

/-- Tree nodes.  One constructor per `tree_kind_t` used by the modelled
rules; fields are the slots those rules access. -/
inductive Tree where
  -- declarations (targets of `tree_ref`); `id` models pointer identity
  | enumLit (id : Nat) (ty : Ty) (pos : Nat)
  | constDecl (id : Nat) (ident : Nat) (ty : Ty) (value : Option Tree)
  | unitDecl (id : Nat) (ident : Nat) (value : Tree)
  | portDecl (id : Nat) (ident : Nat) (ty : Ty) (cls : Class) (mode : PortMode)
      (value : Option Tree)
  | signalDecl (id : Nat) (ident : Nat) (ty : Ty) (value : Option Tree)
  | varDecl (id : Nat) (ident : Nat) (ty : Ty)
  | aliasDecl (id : Nat) (ident : Nat) (value : Tree)
  | typeDecl (id : Nat) (ident : Nat) (ty : Ty)
  | subprogDecl (id : Nat) (ident : Nat) (ident2 : Nat) (tk : SubprogTK)
      (sk : SubprogKind) (flags : TFlags) (ports : List Tree) (stmts : List Tree)
  -- expressions
  | litInt (ty : Ty) (v : Int)
  | litStr (ty : Ty) (chars : List Tree)
  | ref (ident : Nat) (decl : Tree) (flags : TFlags)
  | openK
  | allK
  | paramT (sub : PSub) (name : Option Tree) (value : Tree)
  | assocT (sub : ASub) (name : Option Tree) (value : Option Tree)
  | fcall (ident : Nat) (decl : Tree) (ty : Ty) (flags : TFlags) (params : List Tree)
  | pcall (ident : Nat) (ident2 : Nat) (decl : Tree) (params : List Tree)
  | cpcall (ident : Nat) (ident2 : Nat) (decl : Tree) (params : List Tree)
  | arrayRef (value : Tree) (params : List Tree)
  | arraySlice (value : Tree) (ranges : List Tree)
  | recordRef (ident : Nat) (value : Tree)
  | qualified (ty : Ty) (value : Tree)
  | typeConv (ty : Ty) (value : Tree)
  | aggregate (ty : Ty) (assocs : List Tree)
  | attrRef (ident : Nat) (predef : AttrKind) (ty : Ty) (name : Tree)
      (params : List Tree) (value : Option Tree)
  | rangeT (sub : RangeKind) (left right : Tree)
  | rangeExpr (value : Tree)
  | waveform (value : Option Tree) (delay : Option Tree)
  -- statements and concurrent statements
  | ifT (ident : Nat) (value : Tree) (stmts elses : List Tree)
  | whileT (ident : Nat) (value : Option Tree) (stmts : List Tree)
  | forT (ident : Nat) (ranges : List Tree) (stmts : List Tree)
  | caseT (ident : Nat) (value : Tree) (assocs : List Tree)
  | blockT (ident : Nat) (generics genmaps ports decls stmts : List Tree)
  | processT (ident : Nat) (flags : TFlags) (triggers decls stmts : List Tree)
  | waitT (ident : Nat) (flags : TFlags) (value : Option Tree) (triggers : List Tree)
  | assertT (ident : Nat) (value : Option Tree) (severity : Tree) (message : Option Tree)
  | cassert (ident : Nat) (flags : TFlags) (value : Tree) (severity : Tree)
      (message : Option Tree)
  | signalAssign (ident : Nat) (target : Tree) (reject : Option Tree)
      (waveforms : List Tree)
  | varAssign (ident : Nat) (target : Tree) (value : Tree)
  | cassign (ident : Nat) (target : Tree) (guard : Option Tree) (conds : List Tree)
  | condT (value : Option Tree) (reject : Option Tree) (waveforms : List Tree)
  | selectT (ident : Nat) (value : Tree) (guard : Option Tree) (assocs : List Tree)
  | nullT (ident : Nat)
  -- top-level unit (entity / architecture / package / elaborated design)
  | archT (ident : Nat) (decls stmts : List Tree)
  deriving Repr

instance : Inhabited Tree := ⟨Tree.openK⟩

/-- The pointer identity of a declaration node (`none` for
non-declarations). -/
def treeDeclId : Tree → Option Nat
  | Tree.enumLit i _ _ => some i
  | Tree.constDecl i _ _ _ => some i
  | Tree.unitDecl i _ _ => some i
  | Tree.portDecl i _ _ _ _ _ => some i
  | Tree.signalDecl i _ _ _ => some i
  | Tree.varDecl i _ _ => some i
  | Tree.aliasDecl i _ _ => some i
  | Tree.typeDecl i _ _ => some i
  | Tree.subprogDecl i _ _ _ _ _ _ _ => some i
  | _ => none

/-- `tree_ident` on the node kinds that have one. -/
def treeIdent : Tree → Option Nat
  | Tree.constDecl _ i _ _ => some i
  | Tree.unitDecl _ i _ => some i
  | Tree.portDecl _ i _ _ _ _ => some i
  | Tree.signalDecl _ i _ _ => some i
  | Tree.varDecl _ i _ => some i
  | Tree.aliasDecl _ i _ => some i
  | Tree.typeDecl _ i _ => some i
  | Tree.subprogDecl _ i _ _ _ _ _ _ => some i
  | Tree.ref i _ _ => some i
  | Tree.fcall i _ _ _ _ => some i
  | Tree.pcall i _ _ _ => some i
  | Tree.cpcall i _ _ _ => some i
  | Tree.recordRef i _ => some i
  | Tree.attrRef i _ _ _ _ _ => some i
  | Tree.ifT i _ _ _ => some i
  | Tree.whileT i _ _ => some i
  | Tree.forT i _ _ => some i
  | Tree.caseT i _ _ => some i
  | Tree.blockT i _ _ _ _ _ => some i
  | Tree.processT i _ _ _ _ => some i
  | Tree.waitT i _ _ _ => some i
  | Tree.assertT i _ _ _ => some i
  | Tree.cassert i _ _ _ _ => some i
  | Tree.signalAssign i _ _ _ => some i
  | Tree.varAssign i _ _ => some i
  | Tree.cassign i _ _ _ => some i
  | Tree.selectT i _ _ _ => some i
  | Tree.nullT i => some i
  | Tree.archT i _ _ => some i
  | _ => none

/-- `tree_type` on the node kinds that carry a type. -/
def treeTypeOf : Tree → Option Ty
  | Tree.enumLit _ ty _ => some ty
  | Tree.constDecl _ _ ty _ => some ty
  | Tree.portDecl _ _ ty _ _ _ => some ty
  | Tree.signalDecl _ _ ty _ => some ty
  | Tree.varDecl _ _ ty => some ty
  | Tree.typeDecl _ _ ty => some ty
  | Tree.litInt ty _ => some ty
  | Tree.litStr ty _ => some ty
  | Tree.ref _ d _ => treeTypeOf d
  | Tree.fcall _ _ ty _ _ => some ty
  | Tree.qualified ty _ => some ty
  | Tree.typeConv ty _ => some ty
  | Tree.aggregate ty _ => some ty
  | Tree.attrRef _ _ ty _ _ _ => some ty
  | _ => none

/-- Modelled from the spec: `class_of` (common.c, not under src/) — the
object class of a name, following references, aliases and prefixes down
to the declaration. -/
def class_of : Tree → Class
  | Tree.signalDecl _ _ _ _ => Class.signal
  | Tree.portDecl _ _ _ c _ _ => c
  | Tree.constDecl _ _ _ _ => Class.constant
  | Tree.varDecl _ _ _ => Class.variable
  | Tree.ref _ d _ => class_of d
  | Tree.aliasDecl _ _ v => class_of v
  | Tree.arrayRef v _ => class_of v
  | Tree.arraySlice v _ => class_of v
  | Tree.recordRef _ v => class_of v
  | _ => Class.default

/-- Modelled from the spec: `folded_bool` (common.c, not under src/) —
a condition "folds to a boolean constant" when it is a reference to one
of the two boolean enumeration literals (`pos` 0 = FALSE, 1 = TRUE). -/
def folded_bool : Tree → Option Bool
  | Tree.ref _ (Tree.enumLit _ ty pos) _ =>
    if ty = boolTy then some (pos == 1) else none
  | _ => none

/-- Modelled from the spec: `folded_int` (common.c, not under src/) —
an expression "folds to an integer" when it is an integer literal. -/
def folded_int : Tree → Option Int
  | Tree.litInt _ v => some v
  | _ => none

/-- Modelled from the spec: `assume_int` (common.c, not under src/) —
like `folded_int` but an assertion failure (`none`) when the expression
is not constant. -/
def assume_int (t : Tree) : Option Int := folded_int t

/-- Modelled from the spec: `make_ref` (common.c, not under src/) — a
new `T_REF` to the given declaration. -/
def make_ref (d : Tree) : Tree :=
  Tree.ref ((treeIdent d).getD 0) d noFlags

/-- Modelled from the spec: `make_default_value` (common.c, not under
src/) — the default initial value for a type; its shape is irrelevant to
the claims and a zero literal stands in. -/
def make_default_value (ty : Ty) : Tree := Tree.litInt ty 0

/-- `simp_is_static`: an expression composed of constant refs,
enum/unit literals, constant-class port refs, or aliases to same. -/
def simp_is_static : Tree → Bool
  | Tree.ref _ decl _ =>
    match decl with
    | Tree.constDecl _ _ _ _ => true
    | Tree.unitDecl _ _ _ => true
    | Tree.enumLit _ _ _ => true
    | Tree.portDecl _ _ _ c _ _ => c = Class.constant
    | Tree.aliasDecl _ _ v => simp_is_static v
    | _ => false
  | Tree.litInt _ _ => true
  | Tree.litStr _ _ => true
  | _ => false

/-- Whether a range of an array slice has static bounds (`tree_left` /
`tree_right` of `simp_longest_static_prefix`; an expression range has
neither bound and cannot occur on a slice). -/
def rangeBoundsStatic : Tree → Bool
  | Tree.rangeT _ le ri => simp_is_static le && simp_is_static ri
  | _ => false

/-- Whether a positional parameter's value is static (`tree_value` of a
`T_PARAM`). -/
def paramValueStatic : Tree → Bool
  | Tree.paramT _ _ v => simp_is_static v
  | _ => false

/-- `simp_longest_static_prefix(e) == e`: the recursion of
`simp_longest_static_prefix` returns its argument unchanged (pointer
equality in the C code) exactly when every index and slice bound along
the spine is static. -/
def lspSelf : Tree → Bool
  | Tree.arrayRef v ps => lspSelf v && ps.all paramValueStatic
  | Tree.arraySlice v rs => lspSelf v && rs.all rangeBoundsStatic
  | _ => true

/-- `simp_longest_static_prefix`: the outermost indexed/sliced
expression whose indices are all static.  The pointer test
`prefix != value` of the C code is `lspSelf value`. -/
def simp_longest_static_pfx : Tree → Tree
  | Tree.arrayRef v ps =>
    if lspSelf v then
      if ps.all paramValueStatic then Tree.arrayRef v ps else v
    else simp_longest_static_pfx v
  | Tree.arraySlice v rs =>
    if lspSelf v then
      if rs.all rangeBoundsStatic then Tree.arraySlice v rs else v
    else simp_longest_static_pfx v
  | e => e

/-- The duplicate test of `simp_build_wait`'s `T_REF` case:
`tree_kind(t) == T_REF && tree_ref(t) == decl`. -/
def isRefToSameDecl (decl : Tree) (t : Tree) : Bool :=
  match t, treeDeclId decl with
  | Tree.ref _ d _, some i => treeDeclId d == some i
  | _, _ => false

mutual

/-- `simp_build_wait(wait, expr, all)`: collect the trigger expressions
of `expr` onto the wait statement's trigger list (threaded here as the
accumulator `w`; `tree_add_trigger` appends).  `none` is the
`fatal_trace` of the `default` arm, and of the slot accessors that
assert (a missing while/for condition or range, a call whose callee is
not a subprogram, an association without a value). -/
def simp_build_wait (all : Bool) (w : List Tree) (expr : Tree) : Option (List Tree) :=
  match expr with
  | Tree.ref i decl f =>
    if class_of decl = Class.signal then
      if w.any (isRefToSameDecl decl) then some w
      else some (w ++ [Tree.ref i decl f])
    else some w
  | Tree.arraySlice v rs =>
    if class_of (Tree.arraySlice v rs) = Class.signal then
      if lspSelf (Tree.arraySlice v rs) then some (w ++ [Tree.arraySlice v rs])
      else do
        let w1 ← simp_build_wait all w v
        simp_build_wait_for_target all w1 (Tree.arraySlice v rs)
    else some w
  | Tree.waveform v _ =>
    match v with
    | some vv => simp_build_wait all w vv
    | none => some w
  | Tree.recordRef _ v => simp_build_wait all w v
  | Tree.qualified _ v => simp_build_wait all w v
  | Tree.typeConv _ v => simp_build_wait all w v
  | Tree.assertT _ v _ _ =>
    match v with
    | some vv => simp_build_wait all w vv
    | none => some w
  | Tree.arrayRef v ps =>
    if class_of (Tree.arrayRef v ps) = Class.signal then
      if lspSelf (Tree.arrayRef v ps) then some (w ++ [Tree.arrayRef v ps])
      else do
        let w1 ← simp_build_wait all w v
        simp_build_wait_for_target all w1 (Tree.arrayRef v ps)
    else some w
  | Tree.fcall _ decl _ _ ps =>
    match decl with
    | Tree.subprogDecl di i i2 tk sk fl ports stmts => do
      let w1 ← sbwParamsPorts all w ports ps
      if all ∧ tk = SubprogTK.procBody then
        simp_build_wait all w1 (Tree.subprogDecl di i i2 tk sk fl ports stmts)
      else some w1
    | _ => none
  | Tree.pcall _ _ decl ps =>
    match decl with
    | Tree.subprogDecl di i i2 tk sk fl ports stmts => do
      let w1 ← sbwParamsPorts all w ports ps
      if all ∧ tk = SubprogTK.procBody then
        simp_build_wait all w1 (Tree.subprogDecl di i i2 tk sk fl ports stmts)
      else some w1
    | _ => none
  | Tree.aggregate _ asl => sbwAssocValues all w asl
  | Tree.attrRef _ predef _ nm ps _ => do
    let w1 ←
      if predef = AttrKind.event ∨ predef = AttrKind.active then
        simp_build_wait all w nm
      else some w
    sbwParamValues all w1 ps
  | Tree.litInt _ _ => some w
  | Tree.litStr _ _ => some w
  | Tree.ifT _ c ss es => do
    let w1 ← simp_build_wait all w c
    let w2 ← sbwList all w1 ss
    sbwList all w2 es
  | Tree.processT _ _ _ _ ss => sbwList all w ss
  | Tree.blockT _ _ _ _ _ ss => sbwList all w ss
  | Tree.subprogDecl _ _ _ tk _ _ _ ss =>
    if tk = SubprogTK.procBody then sbwList all w ss else none
  | Tree.signalAssign _ target _ waves => do
    let w1 ← simp_build_wait_for_target all w target
    sbwList all w1 waves
  | Tree.varAssign _ target v => do
    let w1 ← simp_build_wait_for_target all w target
    simp_build_wait all w1 v
  | Tree.caseT _ v asl => do
    let w1 ← simp_build_wait all w v
    sbwAssocValues all w1 asl
  | Tree.forT _ rs ss =>
    match rs with
    | r :: _ => do
      let w1 ← simp_build_wait all w r
      sbwList all w1 ss
    | [] => none
  | Tree.whileT _ v ss =>
    match v with
    | some vv => do
      let w1 ← simp_build_wait all w vv
      sbwList all w1 ss
    | none => none
  | Tree.rangeT _ le ri => do
    let w1 ← simp_build_wait all w le
    simp_build_wait all w1 ri
  | Tree.rangeExpr v => simp_build_wait all w v
  | _ => none
termination_by (sizeOf expr, 1)

/-- Sequential `simp_build_wait` over the statements of a body. -/
def sbwList (all : Bool) (w : List Tree) (es : List Tree) : Option (List Tree) :=
  match es with
  | [] => some w
  | e :: rest => do
    let w1 ← simp_build_wait all w e
    sbwList all w1 rest
termination_by (sizeOf es, 0)

/-- `simp_build_wait` over `tree_value(tree_param(...))` of every
parameter. -/
def sbwParamValues (all : Bool) (w : List Tree) (ps : List Tree) : Option (List Tree) :=
  match ps with
  | [] => some w
  | Tree.paramT _ _ v :: rest => do
    let w1 ← simp_build_wait all w v
    sbwParamValues all w1 rest
  | _ => none
termination_by (sizeOf ps, 0)

/-- The indexed parameter walk of the `T_FCALL`/`T_PCALL` case: the
mode comes from the port at the same index (`PORT_IN` past the end),
and only `IN`/`INOUT` values contribute triggers. -/
def sbwParamsPorts (all : Bool) (w : List Tree) (ports ps : List Tree) : Option (List Tree) :=
  match ps with
  | [] => some w
  | Tree.paramT _ _ v :: rest =>
    let mode :=
      match ports with
      | Tree.portDecl _ _ _ _ m _ :: _ => m
      | _ => PortMode.pin
    do
      let w1 ←
        if mode = PortMode.pin ∨ mode = PortMode.pinout then simp_build_wait all w v
        else some w
      sbwParamsPorts all w1 ports.tail rest
  | _ => none
termination_by (sizeOf ps, 0)

/-- `simp_build_wait` over `tree_value(tree_assoc(...))` of every
association. -/
def sbwAssocValues (all : Bool) (w : List Tree) (asl : List Tree) : Option (List Tree) :=
  match asl with
  | [] => some w
  | Tree.assocT _ _ (some v) :: rest => do
    let w1 ← simp_build_wait all w v
    sbwAssocValues all w1 rest
  | _ => none
termination_by (sizeOf asl, 0)

/-- `simp_build_wait_for_target`: for a slice target the first range
contributes triggers, for an indexed target the index expressions do;
the prefix itself is written, not read. -/
def simp_build_wait_for_target (all : Bool) (w : List Tree) (expr : Tree) :
    Option (List Tree) :=
  match expr with
  | Tree.arraySlice _ rs =>
    match rs with
    | r :: _ => simp_build_wait all w r
    | [] => none
  | Tree.arrayRef _ ps => sbwParamValues all w ps
  | _ => some w
termination_by (sizeOf expr, 0)

end

/-- `simp_if`: a condition folded to true replaces the statement by its
then-part (the single statement, or a block holding the statements); a
condition folded to false replaces it by the else-part the same way,
deleting the statement (`none`) when there is no else-part; a condition
that does not fold leaves the statement alone. -/
def simp_if : Tree → Option Tree
  | Tree.ifT i c ss es =>
    match folded_bool c with
    | some b =>
      if b then
        if ss.length = 1 then some (ss.headI)
        else some (Tree.blockT i [] [] [] [] ss)
      else
        if es.length = 1 then some (es.headI)
        else if es.length = 0 then none
        else some (Tree.blockT i [] [] [] [] es)
    | none => some (Tree.ifT i c ss es)
  | t => some t

/-- `simp_while`: a constant-false condition deletes the loop. -/
def simp_while : Tree → Option Tree
  | Tree.whileT i v ss =>
    match v with
    | none => some (Tree.whileT i none ss)
    | some c =>
      match folded_bool c with
      | some b => if b then some (Tree.whileT i (some c) ss) else none
      | none => some (Tree.whileT i (some c) ss)
  | t => some t

/-- `simp_assert`: a constant-true assertion is deleted. -/
def simp_assert : Tree → Option Tree
  | Tree.assertT i v sev msg =>
    match v with
    | none => some (Tree.assertT i none sev msg)
    | some c =>
      match folded_bool c with
      | some b =>
        if b then none else some (Tree.assertT i (some c) sev msg)
      | none => some (Tree.assertT i (some c) sev msg)
  | t => some t

/-- The choice scan of `simp_case` over the associations once the
scrutinee has folded to `ival`: the first named choice folding to the
same value, or an `others` choice, decides (its value, or deletion when
it has none); positional and range choices are passed over (`A_RANGE`
is an explicit TODO in the source).  `none`: no choice decided. -/
def simp_case_choose (ival : Int) : List Tree → Option (Option Tree)
  | [] => none
  | Tree.assocT sub nm val :: rest =>
    match sub with
    | ASub.named =>
      match nm.bind folded_int with
      | some aval =>
        if ival = aval then some val else simp_case_choose ival rest
      | none => simp_case_choose ival rest
    | ASub.others => some val
    | _ => simp_case_choose ival rest
  | _ :: rest => simp_case_choose ival rest

/-- `simp_case`: no reachable choices deletes the statement; a folded
scrutinee selects the matching named or `others` arm (its value, or
deletion when the arm is empty). -/
def simp_case : Tree → Option Tree
  | Tree.caseT i v asl =>
    if asl.length = 0 then none
    else
      match folded_int v with
      | some ival =>
        match simp_case_choose ival asl with
        | some r => r
        | none => some (Tree.caseT i v asl)
      | none => some (Tree.caseT i v asl)
  | t => some t

/-- `simp_wait`: a wait with a condition clause but no sensitivity list
gets one generated from the condition (LRM 93 §8.1).  `none` is the
`fatal_trace` of `simp_build_wait`. -/
def simp_wait : Tree → Option Tree
  | Tree.waitT i f v trigs =>
    match v with
    | some c =>
      if trigs.length = 0 then do
        let trigs' ← simp_build_wait false [] c
        some (Tree.waitT i f (some c) trigs')
      else some (Tree.waitT i f (some c) trigs)
    | none => some (Tree.waitT i f none trigs)
  | t => some t

/-- `simp_process`: a process with a sensitivity list whose body
remains non-empty is rebuilt with a trailing `wait` statement carrying
`static_wait` (built by `simp_build_wait` in the `all` case); one whose
body was optimised away is deleted, as is a process without sensitivity
list whose body is just a single wait statement.  Outer `none` is the
`fatal_trace` of `simp_build_wait`. -/
def simp_process : Tree → Option (Option Tree)
  | Tree.processT i f trigs decls stmts =>
    if 0 < trigs.length then
      if stmts.length = 0 then some none
      else do
        let trigs' ←
          if trigs.length = 1 && (match trigs.headI with | Tree.allK => true | _ => false) then
            simp_build_wait true [] (Tree.processT i f trigs decls stmts)
          else some trigs
        let w := Tree.waitT i { noFlags with staticWait := true } none trigs'
        some (some (Tree.processT i noFlags [] decls (stmts ++ [w])))
    else
      if stmts.length = 1 && (match stmts.headI with | Tree.waitT _ _ _ _ => true | _ => false) then
        some none
      else some (some (Tree.processT i f trigs decls stmts))
  | t => some (some t)

/-- `simp_signal_assign`: an assignment to an `open` target is
deleted. -/
def simp_signal_assign : Tree → Option Tree
  | Tree.signalAssign i target rej waves =>
    match target with
    | Tree.openK => none
    | _ => some (Tree.signalAssign i target rej waves)
  | t => some t

/-- `simp_assoc`: an association whose value was deleted is itself
deleted. -/
def simp_assoc : Tree → Option Tree
  | Tree.assocT sub nm val =>
    match val with
    | none => none
    | some v => some (Tree.assocT sub nm (some v))
  | t => some t

/-- `simp_array_slice`: a slice of an `open` value is replaced by the
`open`. -/
def simp_array_slice : Tree → Tree
  | Tree.arraySlice v rs =>
    match v with
    | Tree.openK => Tree.openK
    | _ => Tree.arraySlice v rs
  | t => t

/-- `simp_literal`: only physical literals are rewritten (to the base
unit); the modelled integer and string literals take the `default`
arm. -/
def simp_literal (t : Tree) : Tree := t

/-- `simp_range`: a `RANGE_EXPR` carries a `'RANGE`/`'REVERSE_RANGE`
attribute reference, which the modelled attribute kinds exclude, so the
assert fires (`none`); other ranges are left alone. -/
def simp_range : Tree → Option Tree
  | Tree.rangeExpr _ => none
  | t => some t

/-- `range_of(type, 0)` on a constrained array type: its single
dimension as `(direction, left, right)`.  `none` is the assert of
`range_of` on any other type. -/
def range_of_dim0 : Ty → Option (RangeKind × Int × Int)
  | Ty.arrayTy _ (some b) => some b
  | _ => none

/-- `range_bounds`: the (low, high) pair of a range by direction. -/
def range_bounds : RangeKind × Int × Int → Int × Int
  | (RangeKind.upto, le, ri) => (le, ri)
  | (RangeKind.downto, le, ri) => (ri, le)

/-- The association scan of `simp_record_ref`: the first positional
association whose field (by the record type's field list) or named
association whose name matches yields its value.  Outer `none` models
the asserts (`type_field` out of range, a missing association value or
name); inner `none`: no association matched. -/
def simp_record_ref_scan (field : Nat) (ty : Ty) : List Tree → Option (Option Tree)
  | [] => some none
  | Tree.assocT sub nm val :: rest =>
    match sub with
    | ASub.pos p =>
      match ty with
      | Ty.composite _ fields =>
        match fields.get? p with
        | some fid =>
          if fid = field then
            match val with
            | some v => some (some v)
            | none => none
          else simp_record_ref_scan field ty rest
        | none => none
      | _ => none
    | ASub.named =>
      match nm with
      | some nmt =>
        match treeIdent nmt with
        | some nid =>
          if nid = field then
            match val with
            | some v => some (some v)
            | none => none
          else simp_record_ref_scan field ty rest
        | none => none
      | none => none
    | _ => simp_record_ref_scan field ty rest
  | _ :: _ => none

/-- `simp_record_ref`: a field selection over an aggregate (directly, or
through a constant whose initializer is an aggregate) is replaced by the
matching element's value; a selection over `open` collapses to the
`open`; anything else is left alone.  `none` models the asserts. -/
def simp_record_ref (t : Tree) : Option Tree :=
  match t with
  | Tree.recordRef field value =>
    let scan : Tree → Option Tree := fun agg =>
      match agg with
      | Tree.aggregate ty asl =>
        match simp_record_ref_scan field ty asl with
        | some (some v) => some v
        | some none => some (Tree.recordRef field value)
        | none => none
      | _ => none
    match value with
    | Tree.aggregate ty asl => scan (Tree.aggregate ty asl)
    | Tree.ref _ decl _ =>
      match decl with
      | Tree.constDecl _ _ _ (some dv) =>
        match dv with
        | Tree.aggregate ty asl => scan (Tree.aggregate ty asl)
        | _ => some t
      | _ => some t
    | Tree.openK => some Tree.openK
    | _ => some t
  | t => some t

/-- `simp_extract_string_literal`: index a character out of a
constrained string literal; out-of-range positions return the default
(the unfolded node).  `none` models the asserts (`tree_chars` on a
non-string literal, `tree_char` past the end). -/
def simp_extract_string_literal (literal : Tree) (index : Int) (dflt : Tree) : Option Tree :=
  match literal with
  | Tree.litStr ty chars =>
    if type_is_unconstrained ty then some dflt
    else do
      let b ← range_of_dim0 ty
      let (low, high) := range_bounds b
      let asc := b.1 = RangeKind.upto
      let pos : Int := if asc then index + low else high - index
      if pos < 0 ∨ pos > (chars.length : Int) then some dflt
      else
        match chars.get? pos.toNat with
        | some c => some c
        | none => none
  | _ => none

/-- The association scan of `simp_extract_aggregate`. -/
def simp_extract_agg_scan (asc : Bool) (low high index : Int) : List Tree → Option (Option Tree)
  | [] => some none
  | Tree.assocT sub nm val :: rest =>
    match sub with
    | ASub.pos p =>
      if (asc ∧ (p : Int) + low = index) ∨ (¬asc ∧ high - (p : Int) = index) then
        match val with
        | some v => some (some v)
        | none => none
      else simp_extract_agg_scan asc low high index rest
    | ASub.others =>
      match val with
      | some v => some (some v)
      | none => none
    | ASub.range =>
      match nm with
      | some (Tree.rangeT _ le ri) => do
        let left ← assume_int le
        let right ← assume_int ri
        if (asc ∧ index ≥ left ∧ index ≤ right) ∨ (¬asc ∧ index ≤ left ∧ index ≥ right) then
          match val with
          | some v => some (some v)
          | none => none
        else simp_extract_agg_scan asc low high index rest
      | _ => none
    | ASub.named =>
      match nm with
      | some n => do
        let nv ← assume_int n
        if nv = index then
          match val with
          | some v => some (some v)
          | none => none
        else simp_extract_agg_scan asc low high index rest
      | none => none
  | _ :: _ => none

/-- `simp_extract_aggregate`: index an element out of a constrained
aggregate by positional, `others`, range or named choice; no matching
choice returns the default.  `none` models the asserts. -/
def simp_extract_aggregate (agg : Tree) (index : Int) (dflt : Tree) : Option Tree :=
  match agg with
  | Tree.aggregate ty asl =>
    if type_is_unconstrained ty then some dflt
    else do
      let b ← range_of_dim0 ty
      let (low, high) := range_bounds b
      let asc := b.1 = RangeKind.upto
      match ← simp_extract_agg_scan asc low high index asl with
      | some v => some v
      | none => some dflt
  | _ => none

/-- Fold the positional index parameters of an array reference; `none`
(outer) models the `P_POS` assert, the inner `none` a non-foldable
index. -/
def foldIndexes : List Tree → Option (Option (List Int))
  | [] => some (some [])
  | Tree.paramT PSub.pos _ v :: rest => do
    let restR ← foldIndexes rest
    match folded_int v, restR with
    | some i, some is => some (some (i :: is))
    | _, _ => some none
  | _ :: _ => none

/-- `simp_array_ref`: an indexed `open` collapses to the `open`; with
all indices folded, indexing into an aggregate, a string literal, or a
constant whose initializer is an aggregate extracts the element;
anything else (non-constant indices, nested or multi-dimensional
references) is left alone.  `none` models the asserts. -/
def simp_array_ref (t : Tree) : Option Tree :=
  match t with
  | Tree.arrayRef value ps =>
    match value with
    | Tree.openK => some Tree.openK
    | _ => do
      let folded ← foldIndexes ps
      match folded with
      | none => some t
      | some indexes =>
        match indexes.head? with
        | none => some t
        | some idx0 =>
          if (treeTypeOf value).isNone then some t
          else
            match value with
            | Tree.aggregate ty asl => simp_extract_aggregate (Tree.aggregate ty asl) idx0 t
            | Tree.litStr ty cs => simp_extract_string_literal (Tree.litStr ty cs) idx0 t
            | Tree.litInt _ _ => none
            | Tree.ref _ decl _ =>
              if ps.length > 1 then some t
              else
                match decl with
                | Tree.constDecl _ _ _ (some dv) =>
                  match dv with
                  | Tree.aggregate ty asl => simp_extract_aggregate (Tree.aggregate ty asl) idx0 t
                  | _ => some t
                | Tree.constDecl _ _ _ none => some t
                | _ => some t
            | _ => some t
  | t => some t

/-- The index of the last positional argument (-1 when none), as in the
first loop of `simp_call_args`. -/
def lastPos (ps : List Tree) : Int :=
  (ps.enum.foldl
    (fun acc pr =>
      match pr.2 with
      | Tree.paramT PSub.pos _ _ => (pr.1 : Int)
      | _ => acc)
    (-1))

/-- `tree_value(tree_port(...))`: the default value of a port
declaration, when it has one. -/
def portDefault : Tree → Option Tree
  | Tree.portDecl _ _ _ _ _ d => d
  | _ => none

/-- `tree_ident` of a port declaration. -/
def portIdentOf : Tree → Option Nat
  | Tree.portDecl _ i _ _ _ _ => some i
  | _ => none

/-- The `T_OPEN` handling of `simp_call_args`: an `open` actual is
replaced by the port's default value (`none` is the assert when there
is none); any other actual stands. -/
def resolveOpen (port v : Tree) : Option Tree :=
  match v with
  | Tree.openK => portDefault port
  | _ => some v

/-- Resolve the first `n` (positional) arguments of a call against the
callee's ports: an `open` value is replaced by the port's default.
`none` models the asserts (a port without default for an `open`, fewer
ports than positional arguments). -/
def resolvePosArgs : List Tree → List Tree → Nat → Option (List Tree)
  | _, _, 0 => some []
  | port :: qs, Tree.paramT _ _ v :: rs, n + 1 => do
    let v' ← resolveOpen port v
    let rest ← resolvePosArgs qs rs n
    some (Tree.paramT PSub.pos none v' :: rest)
  | _, _, _ + 1 => none

/-- The named-argument search of `simp_call_args`: scan the remaining
arguments for a named one whose formal name matches the port; `open` is
replaced by the port's default.  `none` models the asserts (an argument
that is not named, a formal that is not a reference, no match found, a
port without default for an `open`). -/
def findNamedArg (portIdent : Nat) (port : Tree) : List Tree → Option Tree
  | [] => none
  | Tree.paramT PSub.named (some (Tree.ref nid _ _)) v :: rest =>
    if portIdent = nid then resolveOpen port v
    else findNamedArg portIdent port rest
  | _ :: _ => none

/-- Resolve the ports after the last positional argument against the
named arguments. -/
def resolveNamedArgs (namedArgs : List Tree) : List Tree → Option (List Tree)
  | [] => some []
  | port :: qs => do
    let pid ← portIdentOf port
    let v ← findNamedArg pid port namedArgs
    let rest ← resolveNamedArgs namedArgs qs
    some (Tree.paramT PSub.pos none v :: rest)

/-- `simp_call_args`: when a named argument follows the last positional
one, rebuild the call with every parameter positional and in the
callee's port declaration order — positional arguments stay in place,
`open` arguments take the port's default, and each remaining port takes
the matching named argument's value.  A call whose arguments are already
all positional is returned unchanged.  `none` models the asserts (an
unsupplied port among them). -/
def simp_call_args_core (decl : Tree) (ps : List Tree) :
    Option (Option (List Tree)) :=
  -- `some none`: no rewrite needed; `some (some ps')`: the new
  -- positional parameter list; `none`: assert
  if lastPos ps < (ps.length : Int) - 1 then do
    let ports ←
      match decl with
      | Tree.subprogDecl _ _ _ _ _ _ ports _ => some ports
      | _ => none
    let npos := (lastPos ps + 1).toNat
    let posPart ← resolvePosArgs ports ps npos
    let namedPart ← resolveNamedArgs (ps.drop npos) (ports.drop npos)
    some (some (posPart ++ namedPart))
  else some none

/-- `simp_call_args`: when a named argument follows the last positional
one, rebuild the call with every parameter positional and in the
callee's port declaration order. -/
def simp_call_args (t : Tree) : Option Tree :=
  let core := simp_call_args_core
  match t with
  | Tree.fcall i decl ty fl ps => do
    match ← core decl ps with
    | some ps' => some (Tree.fcall i decl ty fl ps')
    | none => some (Tree.fcall i decl ty fl ps)
  | Tree.pcall i i2 decl ps => do
    match ← core decl ps with
    | some ps' => some (Tree.pcall i i2 decl ps')
    | none => some (Tree.pcall i i2 decl ps)
  | Tree.cpcall i i2 decl ps => do
    match ← core decl ps with
    | some ps' => some (Tree.cpcall i i2 decl ps')
    | none => some (Tree.cpcall i i2 decl ps)
  | t => some t

/-- `simp_pcall`. -/
def simp_pcall (t : Tree) : Option Tree := simp_call_args t

/-- `simp_ctx_t`.  The evaluator and lowerer collaborators appear as
functions: `execFold` is `lower_thunk` + `exec_fold` (`none`: lowering
failed, keep the node), `vcodeHas` is `vcode_find_unit(...) != NULL`,
and `uniq` is the interner's fresh-identity counter backing `tree_new`'s
allocation of new declaration identities. -/
structure SimpCtx where
  imp_signals : List (Tree × Tree)
  evalFlags : EvalFlags
  execFold : Tree → Option Tree
  vcodeHas : Nat → Bool
  eval_mask : TFlags
  generics : Option (List (Nat × Tree))
  subprograms : Option (List (Nat × Tree))
  uniq : Nat

/-- Modelled from the spec: `is_open_coded_builtin` (common.c, not
under src/) — a fixed property of each predefined builtin, carried on
the `SubprogKind`. -/
def is_open_coded_builtin : SubprogKind → Bool
  | SubprogKind.predef oc => oc
  | _ => false

mutual

/-- `fold_possible`: the recursive foldability predicate.  The `warn`
diagnostics of `fold_not_possible` are emission-only and dropped. -/
def fold_possible (flags : EvalFlags) (vh : Nat → Bool) (t : Tree) : Bool :=
  match t with
  | Tree.fcall _ decl _ tflags ps =>
    match decl with
    | Tree.subprogDecl _ _ i2 _ sk dflags _ _ =>
      if sk = SubprogKind.user ∧ ¬flags.fcall then false
      else if sk = SubprogKind.foreign then false
      else if dflags.impure then false
      else if ¬tflags.globallyStatic then false
      else if sk ≠ SubprogKind.user ∧ ¬is_open_coded_builtin sk ∧ ¬vh i2 then false
      else fold_possible_params flags vh ps
    | _ => false
  | Tree.litInt _ _ => true
  | Tree.litStr _ _ => true
  | Tree.typeConv _ v => fold_possible flags vh v
  | Tree.qualified _ v => fold_possible flags vh v
  | Tree.ref _ decl _ =>
    match decl with
    | Tree.unitDecl _ _ _ => true
    | Tree.enumLit _ _ _ => true
    | Tree.constDecl _ _ _ (some v) => fold_possible flags vh v
    | Tree.constDecl _ _ _ none => flags.fcall
    | _ => false
  | Tree.recordRef _ v => fold_possible flags vh v
  | Tree.aggregate _ asl => fold_possible_assocs flags vh asl
  | _ => false
termination_by (sizeOf t, 1)

/-- The argument loop of `fold_possible`'s `T_FCALL` case: every value
foldable and no value a scalar-typed function call (it would already
have been folded). -/
def fold_possible_params (flags : EvalFlags) (vh : Nat → Bool) (ps : List Tree) : Bool :=
  match ps with
  | [] => true
  | Tree.paramT _ _ v :: rest =>
    if ¬fold_possible flags vh v then false
    else if (match v with
             | Tree.fcall _ _ ty _ _ => type_is_scalar ty
             | _ => false) then false
    else fold_possible_params flags vh rest
  | _ :: _ => false
termination_by (sizeOf ps, 0)

/-- The element loop of `fold_possible`'s `T_AGGREGATE` case. -/
def fold_possible_assocs (flags : EvalFlags) (vh : Nat → Bool) (asl : List Tree) : Bool :=
  match asl with
  | [] => true
  | Tree.assocT _ _ (some v) :: rest =>
    fold_possible flags vh v && fold_possible_assocs flags vh rest
  | _ :: _ => false
termination_by (sizeOf asl, 0)

end

/-- `simp_fold`: scalar-typed foldable expressions are sent through the
lowerer and evaluator; everything else (including failed lowering) is
preserved. -/
def simp_fold (t : Tree) (ctx : SimpCtx) : Tree :=
  match treeTypeOf t with
  | some ty =>
    if ¬type_is_scalar ty then t
    else if ¬fold_possible ctx.evalFlags ctx.vcodeHas t then t
    else
      match ctx.execFold t with
      | some folded => folded
      | none => t
  | none => t

/-- `simp_fcall`: normalize the arguments, then fold when the node's
static flags meet the pass's eval mask. -/
def simp_fcall (t : Tree) (ctx : SimpCtx) : Option Tree := do
  let t' ← simp_call_args t
  match t' with
  | Tree.fcall i decl ty fl ps =>
    if flagsIntersect fl ctx.eval_mask then some (simp_fold (Tree.fcall i decl ty fl ps) ctx)
    else some (Tree.fcall i decl ty fl ps)
  | other => some other

/-- `simp_type_conv`. -/
def simp_type_conv (t : Tree) (ctx : SimpCtx) : Tree := simp_fold t ctx

/-- `hash_get` on the generic substitution map (id-keyed; a later
`hash_put` shadows an earlier one by sitting in front). -/
def genericsGet (gmap : List (Nat × Tree)) (id? : Option Nat) : Option Tree :=
  match id? with
  | some i => (gmap.find? (fun e => e.1 = i)).map (·.2)
  | none => none

/-- `simp_ref`: a reference carrying the formal-name flag is returned
unchanged; a reference to a scalar constant with a literal or
enum-literal initializer becomes the initializer; a unit declaration
becomes its value; a port declaration mapped by the active generic
substitution becomes the mapped value (the inner formal-name re-check is
unreachable after the early return but mirrored from the source).
`none` is the `fatal_trace` on an unsupported mapping kind. -/
def simp_ref (t : Tree) (ctx : SimpCtx) : Option Tree :=
  match t with
  | Tree.ref i decl fl =>
    if fl.formalName then some (Tree.ref i decl fl)
    else
      match decl with
      | Tree.constDecl _ _ ty val =>
        if ¬type_is_scalar ty then some t
        else
          match val with
          | some v =>
            match v with
            | Tree.litInt _ _ => some v
            | Tree.litStr _ _ => some v
            | Tree.ref _ d2 _ =>
              match d2 with
              | Tree.enumLit _ _ _ => some v
              | _ => some t
            | _ => some t
          | none => some t
      | Tree.unitDecl _ _ v => some v
      | Tree.portDecl _ _ _ _ _ _ =>
        match ctx.generics with
        | some gmap =>
          match genericsGet gmap (treeDeclId decl) with
          | some m =>
            match m with
            | Tree.litInt _ _ => if fl.formalName then some t else some m
            | Tree.litStr _ _ => if fl.formalName then some t else some m
            | Tree.aggregate _ _ => if fl.formalName then some t else some m
            | Tree.arraySlice _ _ => if fl.formalName then some t else some m
            | Tree.arrayRef _ _ => if fl.formalName then some t else some m
            | Tree.fcall _ _ _ _ _ => if fl.formalName then some t else some m
            | Tree.recordRef _ _ => if fl.formalName then some t else some m
            | Tree.openK => if fl.formalName then some t else some m
            | Tree.qualified _ _ => if fl.formalName then some t else some m
            | Tree.ref _ _ _ => some m
            | _ => none
          | none => some t
        | none => some t
      | _ => some t
  | t => some t

/-! Interned identifiers produced with `ident_new` in simp.c.  The
interner is a collaborator; each literal name is a fixed `Nat`, and
`ident_uniq`/`ident_prefix` are modelled as injections (their only job —
making names unique — does not affect any claim, which identify nodes by
their ids). -/

/-- `ident_new("assign")`. -/
def identAssign : Nat := 9001

/-- `ident_new("wait")`. -/
def identWait : Nat := 9002

/-- `ident_new("cassign")`. -/
def identCassign : Nat := 9003

/-- `ident_new("pcall_wait")`. -/
def identPcallWait : Nat := 9004

/-- `ident_new("pcall")`. -/
def identPcall : Nat := 9005

/-- `ident_new("assert_wait")`. -/
def identAssertWait : Nat := 9006

/-- `ident_new("assert_wrap")`. -/
def identAssertWrap : Nat := 9007

/-- `ident_new("select_wait")`. -/
def identSelectWait : Nat := 9008

/-- `ident_new("select_case")`. -/
def identSelectCase : Nat := 9009

/-- `ident_new("guard_if")`. -/
def identGuardIf : Nat := 9010

/-- `ident_uniq("cond")`. -/
def identCond : Nat := 9011

/-- `ident_new("\"not\"")`. -/
def identNot : Nat := 9012

/-- `ident_uniq("delayed_<name>")`. -/
def identDelayed (prefixIdent : Nat) : Nat := 500000 + prefixIdent

/-- `ident_uniq("transaction_<name>")`. -/
def identTransaction (prefixIdent : Nat) : Nat := 600000 + prefixIdent

/-- `ident_prefix(sig, "p", '_')`. -/
def identProcSuffix (sigIdent : Nat) : Nat := 700000 + sigIdent

/-- Modelled from the spec: `std_func("STD.STANDARD.\"not\"(B)B")`
(common.c, not under src/) — the predefined boolean `not` function. -/
def std_not_decl : Tree :=
  Tree.subprogDecl 999001 identNot 990002 SubprogTK.funcDecl (SubprogKind.predef true)
    noFlags [Tree.portDecl 999002 990003 boolTy Class.constant PortMode.pin none] []

/-- `type_result(tree_type(std_not_decl))`: boolean. -/
def std_not_result_ty : Ty := boolTy

/-- `simp_attr_delayed_transaction`: for `'DELAYED`/`'TRANSACTION` on a
signal or port, synthesize an implicit signal (with the prefix's type
and the prefix's default — or the type's default — as initial value) and
a driver process `new <= prefix after T` resp. `new <= not new`,
followed by `wait on prefix` with `static_wait`; push the pair onto the
pending list and return a reference to the new signal.  A prefix that is
not a signal or port leaves the node alone.  `none` models the asserts
(a prefix that is not a reference, a missing delay parameter). -/
def simp_attr_delayed_transaction (t : Tree) (ctx : SimpCtx) : Option (SimpCtx × Tree) :=
  match t with
  | Tree.attrRef i predef ty nm ps val =>
    match nm with
    | Tree.ref nident ndecl nfl =>
      let declOk :=
        match ndecl with
        | Tree.signalDecl _ _ _ _ => true
        | Tree.portDecl _ _ _ _ _ _ => true
        | _ => false
      if !declOk then some (ctx, Tree.attrRef i predef ty nm ps val)
      else
        let sIdent :=
          if predef = AttrKind.delayed then identDelayed nident else identTransaction nident
        match predef with
        | AttrKind.delayed => do
          let sValue :=
            match ndecl with
            | Tree.signalDecl _ _ _ (some dv) => dv
            | Tree.portDecl _ _ _ _ _ (some dv) => dv
            | _ => make_default_value ty
          let s := Tree.signalDecl ctx.uniq sIdent ty (some sValue)
          let r := make_ref s
          let delay ←
            match ps with
            | Tree.paramT _ _ dv :: _ => some dv
            | _ => none
          let wave := Tree.waveform (some (Tree.ref nident ndecl nfl)) (some delay)
          let a := Tree.signalAssign identAssign r none [wave]
          let w := Tree.waitT identWait { noFlags with staticWait := true } none
            [Tree.ref nident ndecl nfl]
          let p := Tree.processT (identProcSuffix sIdent) noFlags [] [] [a, w]
          some ({ ctx with imp_signals := (s, p) :: ctx.imp_signals, uniq := ctx.uniq + 1 }, r)
        | AttrKind.transaction => do
          let s := Tree.signalDecl ctx.uniq sIdent ty (some (make_default_value ty))
          let r := make_ref s
          let notCall := Tree.fcall identNot std_not_decl std_not_result_ty noFlags
            [Tree.paramT PSub.pos none r]
          let wave := Tree.waveform (some notCall) none
          let a := Tree.signalAssign identAssign r none [wave]
          let w := Tree.waitT identWait { noFlags with staticWait := true } none
            [Tree.ref nident ndecl nfl]
          let p := Tree.processT (identProcSuffix sIdent) noFlags [] [] [a, w]
          some ({ ctx with imp_signals := (s, p) :: ctx.imp_signals, uniq := ctx.uniq + 1 }, r)
        | _ => some (ctx, Tree.attrRef i predef ty nm ps val)
    | _ => none
  | t => some (ctx, t)

/-- `simp_attr_ref`: a user attribute with a value becomes the value;
`'DELAYED`/`'TRANSACTION` synthesize an implicit signal; the remaining
modelled attribute kinds (`'EVENT`, `'ACTIVE`) reach the `default` arm
and are left alone. -/
def simp_attr_ref (t : Tree) (ctx : SimpCtx) : Option (SimpCtx × Tree) :=
  match t with
  | Tree.attrRef i predef ty nm ps val =>
    match val with
    | some v => some (ctx, v)
    | none =>
      match predef with
      | AttrKind.delayed => simp_attr_delayed_transaction (Tree.attrRef i predef ty nm ps none) ctx
      | AttrKind.transaction =>
        simp_attr_delayed_transaction (Tree.attrRef i predef ty nm ps none) ctx
      | _ => some (ctx, Tree.attrRef i predef ty nm ps none)
  | t => some (ctx, t)

/-- The conditional-waveform loop of `simp_cassign`: each condition with
a value becomes an `if` whose else-part holds the later conditions
(mirroring the `container`/`add_stmt` pointer juggling of the source);
triggers of the condition and of each waveform accumulate onto the wait
statement.  Returns the statements of the current container and the
trigger list.  `none` models `simp_build_wait`'s `fatal_trace` and a
list element that is not a `T_COND`. -/
def cassignConds (ident0 : Nat) (target : Tree) (w : List Tree) :
    List Tree → Option (List Tree × List Tree)
  | [] => some ([], w)
  | Tree.condT cval crej cwaves :: rest =>
    let s := Tree.signalAssign ident0 target crej cwaves
    (match cval with
     | some cv => do
       let w1 ← simp_build_wait false w cv
       let w2 ← sbwList false w1 cwaves
       let (restStmts, w3) ← cassignConds ident0 target w2 rest
       some ([Tree.ifT identCond cv [s] restStmts], w3)
     | none => do
       let w2 ← sbwList false w cwaves
       let (restStmts, w3) ← cassignConds ident0 target w2 rest
       some (s :: restStmts, w3))
  | _ :: _ => none

/-- `simp_cassign`: replace a concurrent (conditional) signal assignment
by a process holding the conditional chain and a trailing `wait` with
`static_wait`; a guard wraps the chain in a generated `if` and joins the
wait's triggers. -/
def simp_cassign (t : Tree) : Option Tree :=
  match t with
  | Tree.cassign i target guard conds =>
    match guard with
    | some g => do
      let (condStmts, trigs) ← cassignConds i target [g] conds
      let gIf := Tree.ifT identGuardIf g condStmts []
      let w := Tree.waitT identCassign { noFlags with staticWait := true } none trigs
      some (Tree.processT i noFlags [] [] [gIf, w])
    | none => do
      let (condStmts, trigs) ← cassignConds i target [] conds
      let w := Tree.waitT identCassign { noFlags with staticWait := true } none trigs
      some (Tree.processT i noFlags [] [] (condStmts ++ [w]))
  | t => some t

/-- The per-choice trigger collection of `simp_select`: a named choice's
name and every waveform of the choice's assignment contribute
triggers. -/
def selectAssocTrigs (w : List Tree) : List Tree → Option (List Tree)
  | [] => some w
  | Tree.assocT sub nm val :: rest => do
    let w1 ←
      if sub = ASub.named then
        match nm with
        | some n => simp_build_wait false w n
        | none => none
      else some w
    let w2 ←
      match val with
      | some (Tree.signalAssign si starget srej swaves) =>
        let _ := (si, starget, srej)
        sbwList false w1 swaves
      | _ => none
    selectAssocTrigs w2 rest
  | _ :: _ => none

/-- `simp_select`: replace a selected signal assignment by a process
holding a `case` over the selector and a trailing `wait` with
`static_wait`; a guard wraps the case in a generated `if` and joins the
wait's triggers. -/
def simp_select (t : Tree) : Option Tree :=
  match t with
  | Tree.selectT i v guard asl =>
    let c := Tree.caseT identSelectCase v asl
    match guard with
    | some g => do
      let w1 ← simp_build_wait false [g] v
      let trigs ← selectAssocTrigs w1 asl
      let gIf := Tree.ifT identGuardIf g [c] []
      let w := Tree.waitT identSelectWait { noFlags with staticWait := true } none trigs
      some (Tree.processT i noFlags [] [] [gIf, w])
    | none => do
      let w1 ← simp_build_wait false [] v
      let trigs ← selectAssocTrigs w1 asl
      let w := Tree.waitT identSelectWait { noFlags with staticWait := true } none trigs
      some (Tree.processT i noFlags [] [] [c, w])
  | t => some t

/-- The parameter walk of `simp_cpcall`: every parameter must be
positional; only `IN` and `INOUT` parameters contribute triggers (the
port at the same index provides the mode, and running past the ports is
the `tree_port` assert). -/
def cpcallTrigs (w : List Tree) : List Tree → List Tree → Option (List Tree)
  | _, [] => some w
  | ports, Tree.paramT PSub.pos _ v :: rest =>
    match ports with
    | Tree.portDecl pid pi pty pcls m pval :: qs => do
      let _ := (pid, pi, pty, pcls, pval)
      let w1 ←
        if m = PortMode.pin ∨ m = PortMode.pinout then simp_build_wait false w v
        else some w
      cpcallTrigs w1 qs rest
    | _ => none
  | _, _ :: _ => none

/-- `simp_cpcall`: normalize the arguments, then replace the concurrent
procedure call by a process holding the sequential call and a trailing
`wait` (the wait statement is created without the `static_wait`
flag). -/
def simp_cpcall (t : Tree) : Option Tree := do
  let t' ← simp_call_args t
  match t' with
  | Tree.cpcall i i2 decl ps => do
    let ports ←
      match decl with
      | Tree.subprogDecl _ _ _ _ _ _ ports _ => some ports
      | _ => none
    let trigs ← cpcallTrigs [] ports ps
    let wait := Tree.waitT identPcallWait noFlags none trigs
    let pc := Tree.pcall identPcall i2 decl ps
    some (Tree.processT i noFlags [] [] [pc, wait])
  | other => some other

/-- `simp_cassert`: a concurrent assertion folded to constant true is
deleted; otherwise it becomes a process (carrying over `postponed`)
holding the sequential assertion and a trailing `wait` with
`static_wait` whose triggers come from the condition. -/
def simp_cassert (t : Tree) : Option (Option Tree) :=
  match t with
  | Tree.cassert i fl v sev msg =>
    match folded_bool v with
    | some true => some none
    | _ => do
      let trigs ← simp_build_wait false [] v
      let a := Tree.assertT identAssertWrap (some v) sev msg
      let w := Tree.waitT identAssertWait { noFlags with staticWait := true } none trigs
      let pf := if fl.postponed then { noFlags with postponed := true } else noFlags
      some (some (Tree.processT i pf [] [] [a, w]))
  | t => some (some t)

/-- `simp_subprogram_decl`: a predefined operator hidden by an explicit
one in the same region is deleted; non-user subprograms are recorded in
the lowering table when one is installed. -/
def simp_subprogram_decl (decl : Tree) (ctx : SimpCtx) : SimpCtx × Option Tree :=
  match decl with
  | Tree.subprogDecl id i i2 tk sk fl ports stmts =>
    if fl.predefined ∧ fl.hiddenFlag then (ctx, none)
    else
      let d := Tree.subprogDecl id i i2 tk sk fl ports stmts
      match ctx.subprograms with
      | some table =>
        if sk ≠ SubprogKind.user then
          ({ ctx with subprograms := some ((i2, d) :: table) }, some d)
        else (ctx, some d)
      | none => (ctx, some d)
  | t => (ctx, some t)

/-- `simp_subprogram_body`: record the body in the lowering table when
one is installed. -/
def simp_subprogram_body (body : Tree) (ctx : SimpCtx) : SimpCtx × Option Tree :=
  match body with
  | Tree.subprogDecl id i i2 tk sk fl ports stmts =>
    let d := Tree.subprogDecl id i i2 tk sk fl ports stmts
    match ctx.subprograms with
    | some table => ({ ctx with subprograms := some ((i2, d) :: table) }, some d)
    | none => (ctx, some d)
  | t => (ctx, some t)

/-- The count of leading positional entries in a generic map. -/
def leadingPosCount : List Tree → Nat
  | Tree.paramT PSub.pos _ _ :: rest => 1 + leadingPosCount rest
  | _ => 0

/-- The named search of `simp_generic_map` over the generic map entries
past the last positional: exactly one match is allowed (a second one is
the `assert(value == NULL)`), every entry must be named and its formal a
reference.  `none` models those failures; `some none`: no match. -/
def findNamedGenmap (ident : Nat) (acc : Option Tree) : List Tree → Option (Option Tree)
  | [] => some acc
  | Tree.paramT PSub.named (some (Tree.ref nid _ _)) v :: rest =>
    if nid = ident then
      match acc with
      | some _ => none
      | none => findNamedGenmap ident (some v) rest
    else findNamedGenmap ident acc rest
  | _ :: _ => none

/-- The per-generic resolution loop of `simp_generic_map` (for a
`T_BLOCK`, where a still-missing value is `fatal_trace`). -/
def resolveGenerics (gmapsAfter : List Tree) : List Tree → Option (List Tree)
  | [] => some []
  | g :: gs => do
    let gid ← treeIdent g
    let found ← findNamedGenmap gid none gmapsAfter
    let value ←
      match found with
      | some v => some v
      | none =>
        match g with
        | Tree.portDecl _ _ _ _ _ (some dv) => some dv
        | _ => none
    let rest ← resolveGenerics gmapsAfter gs
    some (Tree.paramT PSub.pos none value :: rest)

/-- `simp_generic_map` on a `T_BLOCK` (instances and bindings are not
part of the modelled fragment): when the generic map is not entirely
positional and complete, rebuild the block with a fully positional
generic map in declaration order, missing actuals taking the generic's
default. -/
def simp_generic_map (t : Tree) : Option Tree :=
  match t with
  | Tree.blockT i gens gmaps ports decls stmts =>
    let ngenmaps := gmaps.length
    let ngenerics := gens.length
    let last_pos := leadingPosCount gmaps
    if last_pos = ngenmaps ∧ ngenmaps = ngenerics then
      some (Tree.blockT i gens gmaps ports decls stmts)
    else do
      let resolved ← resolveGenerics (gmaps.drop last_pos) (gens.drop last_pos)
      some (Tree.blockT i gens (gmaps.take last_pos ++ resolved) ports decls stmts)
  | t => some t

/-- The first-match named search of `simp_generics` (non-named entries
are passed over; a named entry whose formal is not a reference is the
assert). -/
def findNamedGenmapFirst (ident : Nat) : List Tree → Option (Option Tree)
  | [] => some none
  | Tree.paramT PSub.named (some (Tree.ref nid _ _)) v :: rest =>
    if nid = ident then some (some v) else findNamedGenmapFirst ident rest
  | Tree.paramT PSub.named _ _ :: _ => none
  | Tree.paramT PSub.pos _ _ :: rest => findNamedGenmapFirst ident rest
  | _ :: _ => none

/-- The per-generic loop of `simp_generics`: positional map entry at the
same index, else first named match, else declared default, else skip;
each hit is recorded under the generic's identity. -/
def simp_generics_loop (gmaps : List Tree) (idx : Nat) (table : List (Nat × Tree)) :
    List Tree → Option (List (Nat × Tree))
  | [] => some table
  | g :: gs => do
    let posMap :=
      match gmaps.get? idx with
      | some (Tree.paramT PSub.pos _ v) => some v
      | _ => none
    let map1 ←
      match posMap with
      | some v => some (some v)
      | none => do
        let gid ← treeIdent g
        findNamedGenmapFirst gid gmaps
    let map2 :=
      match map1 with
      | some v => some v
      | none =>
        match g with
        | Tree.portDecl _ _ _ _ _ (some dv) => some dv
        | _ => none
    match map2 with
    | some v =>
      match treeDeclId g with
      | some gid => simp_generics_loop gmaps (idx + 1) ((gid, v) :: table) gs
      | none => none
    | none => simp_generics_loop gmaps (idx + 1) table gs

/-- `simp_generics`: harvest the generic substitution map of a block on
descent. -/
def simp_generics (t : Tree) (ctx : SimpCtx) : Option SimpCtx :=
  match t with
  | Tree.blockT _ gens gmaps _ _ _ => do
    let table ← simp_generics_loop gmaps 0 (ctx.generics.getD []) gens
    some { ctx with generics := some table }
  | _ => some ctx

/-- `simp_pre_cb`: the descent hook installs generic substitutions for
blocks with generic maps. -/
def simp_pre_cb (t : Tree) (ctx : SimpCtx) : Option SimpCtx :=
  match t with
  | Tree.blockT i gens gmaps ports decls stmts =>
    if 0 < gmaps.length then
      simp_generics (Tree.blockT i gens gmaps ports decls stmts) ctx
    else some ctx
  | _ => some ctx

/-- `simp_tree`: the per-kind dispatch of the simplification pass.
Result: `none` for `fatal`; `some (ctx, none)` deletes the node;
`some (ctx, some t)` replaces it. -/
def simp_tree (ctx : SimpCtx) (t : Tree) : Option (SimpCtx × Option Tree) :=
  match t with
  | Tree.processT _ _ _ _ _ => (simp_process t).map (fun r => (ctx, r))
  | Tree.arrayRef _ _ => (simp_array_ref t).map (fun r => (ctx, some r))
  | Tree.arraySlice _ _ => some (ctx, some (simp_array_slice t))
  | Tree.attrRef _ _ _ _ _ _ => (simp_attr_ref t ctx).map (fun p => (p.1, some p.2))
  | Tree.fcall _ _ _ _ _ => (simp_fcall t ctx).map (fun r => (ctx, some r))
  | Tree.pcall _ _ _ _ => (simp_pcall t).map (fun r => (ctx, some r))
  | Tree.ref _ _ _ => (simp_ref t ctx).map (fun r => (ctx, some r))
  | Tree.ifT _ _ _ _ => some (ctx, simp_if t)
  | Tree.caseT _ _ _ => some (ctx, simp_case t)
  | Tree.whileT _ _ _ => some (ctx, simp_while t)
  | Tree.cassign _ _ _ _ => (simp_cassign t).map (fun r => (ctx, some r))
  | Tree.selectT _ _ _ _ => (simp_select t).map (fun r => (ctx, some r))
  | Tree.waitT _ _ _ _ => (simp_wait t).map (fun r => (ctx, some r))
  | Tree.nullT _ => some (ctx, none)
  | Tree.cpcall _ _ _ _ => (simp_cpcall t).map (fun r => (ctx, some r))
  | Tree.cassert _ _ _ _ _ => (simp_cassert t).map (fun r => (ctx, r))
  | Tree.recordRef _ _ => (simp_record_ref t).map (fun r => (ctx, some r))
  | Tree.assertT _ _ _ _ => some (ctx, simp_assert t)
  | Tree.signalAssign _ _ _ _ => some (ctx, simp_signal_assign t)
  | Tree.assocT _ _ _ => some (ctx, simp_assoc t)
  | Tree.typeConv _ _ => some (ctx, some (simp_type_conv t ctx))
  | Tree.litInt _ _ => some (ctx, some (simp_literal t))
  | Tree.litStr _ _ => some (ctx, some (simp_literal t))
  | Tree.rangeT _ _ _ => (simp_range t).map (fun r => (ctx, some r))
  | Tree.rangeExpr _ => (simp_range t).map (fun r => (ctx, some r))
  | Tree.subprogDecl _ _ _ tk _ _ _ _ =>
    match tk with
    | SubprogTK.funcDecl => some (simp_subprogram_decl t ctx)
    | SubprogTK.procDecl => some (simp_subprogram_decl t ctx)
    | SubprogTK.funcBody => some (simp_subprogram_body t ctx)
    | SubprogTK.procBody => some (simp_subprogram_body t ctx)
  | Tree.blockT _ _ _ _ _ _ => (simp_generic_map t).map (fun r => (ctx, some r))
  | t => some (ctx, some t)

mutual

/-- Modelled from the spec: the four-argument `tree_rewrite` with a
descent callback that simp.c drives the pass with is not under src/
(src's tree.c carries an older three-argument variant); §4.1.6 of the
spec describes it.  Post-order: every child-bearing slot is rewritten
first (an element of a sequence slot rewritten to null is removed, a
cleared mandatory slot is a contract violation, `none`), then the
callback replaces the node; the pre-callback runs on descent. -/
def simp_rw (ctx : SimpCtx) (t : Tree) : Option (SimpCtx × Option Tree) := do
  let ctx ← simp_pre_cb t ctx
  match t with
  | Tree.constDecl id i ty val => do
    let (ctx, val') ← simp_rw_opt ctx val
    simp_tree ctx (Tree.constDecl id i ty val')
  | Tree.unitDecl id i v => do
    let (ctx, v') ← simp_rw_single ctx v
    simp_tree ctx (Tree.unitDecl id i v')
  | Tree.portDecl id i ty c m val => do
    let (ctx, val') ← simp_rw_opt ctx val
    simp_tree ctx (Tree.portDecl id i ty c m val')
  | Tree.signalDecl id i ty val => do
    let (ctx, val') ← simp_rw_opt ctx val
    simp_tree ctx (Tree.signalDecl id i ty val')
  | Tree.aliasDecl id i v => do
    let (ctx, v') ← simp_rw_single ctx v
    simp_tree ctx (Tree.aliasDecl id i v')
  | Tree.subprogDecl id i i2 tk sk fl ports stmts => do
    let (ctx, ports') ← simp_rw_list ctx ports
    let (ctx, stmts') ← simp_rw_list ctx stmts
    simp_tree ctx (Tree.subprogDecl id i i2 tk sk fl ports' stmts')
  | Tree.paramT sub nm v => do
    let (ctx, v') ← simp_rw_single ctx v
    simp_tree ctx (Tree.paramT sub nm v')
  | Tree.assocT sub nm val => do
    let (ctx, nm') ← simp_rw_opt ctx nm
    let (ctx, val') ← simp_rw_opt ctx val
    simp_tree ctx (Tree.assocT sub nm' val')
  | Tree.fcall i d ty fl ps => do
    let (ctx, ps') ← simp_rw_params ctx ps
    simp_tree ctx (Tree.fcall i d ty fl ps')
  | Tree.pcall i i2 d ps => do
    let (ctx, ps') ← simp_rw_params ctx ps
    simp_tree ctx (Tree.pcall i i2 d ps')
  | Tree.cpcall i i2 d ps => do
    let (ctx, ps') ← simp_rw_params ctx ps
    simp_tree ctx (Tree.cpcall i i2 d ps')
  | Tree.arrayRef v ps => do
    let (ctx, v') ← simp_rw_single ctx v
    let (ctx, ps') ← simp_rw_params ctx ps
    simp_tree ctx (Tree.arrayRef v' ps')
  | Tree.arraySlice v rs => do
    let (ctx, v') ← simp_rw_single ctx v
    let (ctx, rs') ← simp_rw_list ctx rs
    simp_tree ctx (Tree.arraySlice v' rs')
  | Tree.recordRef i v => do
    let (ctx, v') ← simp_rw_single ctx v
    simp_tree ctx (Tree.recordRef i v')
  | Tree.qualified ty v => do
    let (ctx, v') ← simp_rw_single ctx v
    simp_tree ctx (Tree.qualified ty v')
  | Tree.typeConv ty v => do
    let (ctx, v') ← simp_rw_single ctx v
    simp_tree ctx (Tree.typeConv ty v')
  | Tree.aggregate ty asl => do
    let (ctx, asl') ← simp_rw_list ctx asl
    simp_tree ctx (Tree.aggregate ty asl')
  | Tree.attrRef i pk ty nm ps val => do
    let (ctx, nm') ← simp_rw_single ctx nm
    let (ctx, ps') ← simp_rw_params ctx ps
    let (ctx, val') ← simp_rw_opt ctx val
    simp_tree ctx (Tree.attrRef i pk ty nm' ps' val')
  | Tree.rangeT s le ri => do
    let (ctx, le') ← simp_rw_single ctx le
    let (ctx, ri') ← simp_rw_single ctx ri
    simp_tree ctx (Tree.rangeT s le' ri')
  | Tree.rangeExpr v => do
    let (ctx, v') ← simp_rw_single ctx v
    simp_tree ctx (Tree.rangeExpr v')
  | Tree.waveform v d => do
    let (ctx, v') ← simp_rw_opt ctx v
    let (ctx, d') ← simp_rw_opt ctx d
    simp_tree ctx (Tree.waveform v' d')
  | Tree.ifT i v ss es => do
    let (ctx, v') ← simp_rw_single ctx v
    let (ctx, ss') ← simp_rw_list ctx ss
    let (ctx, es') ← simp_rw_list ctx es
    simp_tree ctx (Tree.ifT i v' ss' es')
  | Tree.whileT i v ss => do
    let (ctx, v') ← simp_rw_opt ctx v
    let (ctx, ss') ← simp_rw_list ctx ss
    simp_tree ctx (Tree.whileT i v' ss')
  | Tree.forT i rs ss => do
    let (ctx, rs') ← simp_rw_list ctx rs
    let (ctx, ss') ← simp_rw_list ctx ss
    simp_tree ctx (Tree.forT i rs' ss')
  | Tree.caseT i v asl => do
    let (ctx, v') ← simp_rw_single ctx v
    let (ctx, asl') ← simp_rw_list ctx asl
    simp_tree ctx (Tree.caseT i v' asl')
  | Tree.blockT i gens gmaps ports decls stmts => do
    let (ctx, gens') ← simp_rw_list ctx gens
    let (ctx, gmaps') ← simp_rw_params ctx gmaps
    let (ctx, ports') ← simp_rw_list ctx ports
    let (ctx, decls') ← simp_rw_list ctx decls
    let (ctx, stmts') ← simp_rw_list ctx stmts
    simp_tree ctx (Tree.blockT i gens' gmaps' ports' decls' stmts')
  | Tree.processT i fl trigs decls stmts => do
    let (ctx, trigs') ← simp_rw_list ctx trigs
    let (ctx, decls') ← simp_rw_list ctx decls
    let (ctx, stmts') ← simp_rw_list ctx stmts
    simp_tree ctx (Tree.processT i fl trigs' decls' stmts')
  | Tree.waitT i fl v trigs => do
    let (ctx, v') ← simp_rw_opt ctx v
    let (ctx, trigs') ← simp_rw_list ctx trigs
    simp_tree ctx (Tree.waitT i fl v' trigs')
  | Tree.assertT i v sev msg => do
    let (ctx, v') ← simp_rw_opt ctx v
    let (ctx, sev') ← simp_rw_single ctx sev
    let (ctx, msg') ← simp_rw_opt ctx msg
    simp_tree ctx (Tree.assertT i v' sev' msg')
  | Tree.cassert i fl v sev msg => do
    let (ctx, v') ← simp_rw_single ctx v
    let (ctx, sev') ← simp_rw_single ctx sev
    let (ctx, msg') ← simp_rw_opt ctx msg
    simp_tree ctx (Tree.cassert i fl v' sev' msg')
  | Tree.signalAssign i target rej waves => do
    let (ctx, target') ← simp_rw_single ctx target
    let (ctx, rej') ← simp_rw_opt ctx rej
    let (ctx, waves') ← simp_rw_list ctx waves
    simp_tree ctx (Tree.signalAssign i target' rej' waves')
  | Tree.varAssign i target v => do
    let (ctx, target') ← simp_rw_single ctx target
    let (ctx, v') ← simp_rw_single ctx v
    simp_tree ctx (Tree.varAssign i target' v')
  | Tree.cassign i target g conds => do
    let (ctx, target') ← simp_rw_single ctx target
    let (ctx, g') ← simp_rw_opt ctx g
    let (ctx, conds') ← simp_rw_list ctx conds
    simp_tree ctx (Tree.cassign i target' g' conds')
  | Tree.condT v rej waves => do
    let (ctx, v') ← simp_rw_opt ctx v
    let (ctx, rej') ← simp_rw_opt ctx rej
    let (ctx, waves') ← simp_rw_list ctx waves
    simp_tree ctx (Tree.condT v' rej' waves')
  | Tree.selectT i v g asl => do
    let (ctx, v') ← simp_rw_single ctx v
    let (ctx, g') ← simp_rw_opt ctx g
    let (ctx, asl') ← simp_rw_list ctx asl
    simp_tree ctx (Tree.selectT i v' g' asl')
  | Tree.archT i decls stmts => do
    let (ctx, decls') ← simp_rw_list ctx decls
    let (ctx, stmts') ← simp_rw_list ctx stmts
    simp_tree ctx (Tree.archT i decls' stmts')
  | leaf => simp_tree ctx leaf
termination_by (sizeOf t, 1)

/-- Rewrite of a sequence slot: elements rewritten to null are
removed. -/
def simp_rw_list (ctx : SimpCtx) (ts : List Tree) : Option (SimpCtx × List Tree) :=
  match ts with
  | [] => some (ctx, [])
  | t :: rest => do
    let (ctx, r) ← simp_rw ctx t
    let (ctx, rest') ← simp_rw_list ctx rest
    match r with
    | some t' => some (ctx, t' :: rest')
    | none => some (ctx, rest')
termination_by (sizeOf ts, 0)

/-- Rewrite of an optional single slot. -/
def simp_rw_opt (ctx : SimpCtx) (t? : Option Tree) : Option (SimpCtx × Option Tree) :=
  match t? with
  | none => some (ctx, none)
  | some t => simp_rw ctx t
termination_by (sizeOf t?, 0)

/-- Rewrite of a mandatory single slot: deleting it is a contract
violation. -/
def simp_rw_single (ctx : SimpCtx) (t : Tree) : Option (SimpCtx × Tree) := do
  let (ctx, r) ← simp_rw ctx t
  match r with
  | some t' => some (ctx, t')
  | none => none
termination_by (sizeOf t, 2)

/-- Rewrite of a parameter list: each parameter's value is rewritten in
place (its formal name is not). -/
def simp_rw_params (ctx : SimpCtx) (ps : List Tree) : Option (SimpCtx × List Tree) :=
  match ps with
  | [] => some (ctx, [])
  | Tree.paramT sub nm v :: rest => do
    let (ctx, v') ← simp_rw_single ctx v
    let (ctx, rest') ← simp_rw_params ctx rest
    some (ctx, Tree.paramT sub nm v' :: rest')
  | _ :: _ => none
termination_by (sizeOf ps, 0)

end

/-- `tree_add_decl` on the unit kinds that have declarations. -/
def tree_add_decl (u d : Tree) : Option Tree :=
  match u with
  | Tree.archT i ds ss => some (Tree.archT i (ds ++ [d]) ss)
  | Tree.blockT i g gm p ds ss => some (Tree.blockT i g gm p (ds ++ [d]) ss)
  | _ => none

/-- `tree_add_stmt` on the unit kinds that have statements. -/
def tree_add_stmt (u s : Tree) : Option Tree :=
  match u with
  | Tree.archT i ds ss => some (Tree.archT i ds (ss ++ [s]))
  | Tree.blockT i g gm p ds ss => some (Tree.blockT i g gm p ds (ss ++ [s]))
  | _ => none

/-- The drain loop of `simplify_local`: each pending implicit signal is
appended to the top unit's declarations and its driver process to the
top unit's statements, in list order (most recently synthesized
first). -/
def drainImpSignals : Tree → List (Tree × Tree) → Option Tree
  | u, [] => some u
  | u, (s, p) :: rest => do
    let u1 ← tree_add_decl u s
    let u2 ← tree_add_stmt u1 p
    drainImpSignals u2 rest

/-- `simplify_local(top)`: run the rewrite with the locally-static eval
mask and no lowerer callback, then append the pending implicit signals
and their driver processes to the top unit.  The evaluator and
identity-counter collaborators are passed in. -/
def simplify_local (top : Tree) (fold : Tree → Option Tree) (vh : Nat → Bool)
    (u0 : Nat) : Option Tree := do
  let ctx : SimpCtx :=
    ⟨[], ⟨false, false⟩, fold, vh, { noFlags with locallyStatic := true }, none, none, u0⟩
  let (ctx', t?) ← simp_rw ctx top
  let t' ← t?
  drainImpSignals t' ctx'.imp_signals

/-- `simplify_global(top, generics)`: run the rewrite with both static
flags in the eval mask, `EVAL_FCALL` set, and a subprogram table
installed; afterwards assert that no implicit signals were synthesized
(`none` on violation). -/
def simplify_global (top : Tree) (generics : Option (List (Nat × Tree)))
    (fold : Tree → Option Tree) (vh : Nat → Bool) (u0 : Nat) : Option Tree := do
  let ctx : SimpCtx :=
    ⟨[], ⟨true, false⟩, fold, vh,
      { noFlags with locallyStatic := true, globallyStatic := true },
      generics, some [], u0⟩
  let (ctx', t?) ← simp_rw ctx top
  let t' ← t?
  if ctx'.imp_signals.isEmpty then some t' else none

/-- The declaration at the bottom of an indexed/sliced/selected name
spine: the signal a trigger expression refers to. -/
def baseDeclId : Tree → Option Nat
  | Tree.ref _ d _ => treeDeclId d
  | Tree.arrayRef v _ => baseDeclId v
  | Tree.arraySlice v _ => baseDeclId v
  | Tree.recordRef _ v => baseDeclId v
  | _ => none

/-- The declarations referenced by the plain `T_REF` triggers of a wait
list — the only triggers the duplicate test of `simp_build_wait`'s
`T_REF` case inspects. -/
def refDeclIds (w : List Tree) : List Nat :=
  w.filterMap fun t =>
    match t with
    | Tree.ref _ d _ => treeDeclId d
    | _ => none

/-- Whether a name's prefix spine reaches a plain reference. -/
def spineOk : Tree → Bool
  | Tree.ref _ _ _ => true
  | Tree.arrayRef v _ => spineOk v
  | Tree.arraySlice v _ => spineOk v
  | _ => false

mutual

/-- Modelled from the spec: the statically visible signal reads of an
expression or process body — the declarations of the signals whose
values the code reads when it executes, as far as they are visible
without evaluating anything.  A statically indexed or sliced signal
name reads its base signal and its (constant) indices read nothing; a
dynamically indexed name reads its base's reads and its index
expressions' reads; assignment targets read only their indices;
parameters of a call read only where the formal is of mode `in` or
`inout`. -/
def specSignalReads (e : Tree) : List Nat :=
  match e with
  | Tree.ref _ d _ =>
    if class_of d = Class.signal then (treeDeclId d).toList else []
  | Tree.arraySlice v rs =>
    if lspSelf (Tree.arraySlice v rs) then
      if class_of (Tree.arraySlice v rs) = Class.signal then (baseDeclId v).toList
      else []
    else specSignalReads v ++ ssrTarget (Tree.arraySlice v rs)
  | Tree.arrayRef v ps =>
    if lspSelf (Tree.arrayRef v ps) then
      if class_of (Tree.arrayRef v ps) = Class.signal then (baseDeclId v).toList
      else []
    else specSignalReads v ++ ssrTarget (Tree.arrayRef v ps)
  | Tree.waveform v d =>
    (match v with | some vv => specSignalReads vv | none => []) ++
    (match d with | some dl => specSignalReads dl | none => [])
  | Tree.recordRef _ v => specSignalReads v
  | Tree.qualified _ v => specSignalReads v
  | Tree.typeConv _ v => specSignalReads v
  | Tree.assertT _ v sev msg =>
    (match v with | some vv => specSignalReads vv | none => []) ++
    specSignalReads sev ++
    (match msg with | some m => specSignalReads m | none => [])
  | Tree.fcall _ decl _ _ ps =>
    match decl with
    | Tree.subprogDecl _ _ _ _ _ _ ports _ => ssrParamsPorts ports ps
    | _ => []
  | Tree.pcall _ _ decl ps =>
    match decl with
    | Tree.subprogDecl _ _ _ _ _ _ ports _ => ssrParamsPorts ports ps
    | _ => []
  | Tree.aggregate _ asl => ssrAssocValues asl
  | Tree.attrRef _ predef _ nm ps value =>
    (if predef = AttrKind.event ∨ predef = AttrKind.active then
      specSignalReads nm
    else []) ++
    ssrParamValues ps ++
    (match value with | some x => specSignalReads x | none => [])
  | Tree.litInt _ _ => []
  | Tree.litStr _ _ => []
  | Tree.ifT _ c ss es => specSignalReads c ++ ssrList ss ++ ssrList es
  | Tree.processT _ _ _ _ ss => ssrList ss
  | Tree.blockT _ _ _ _ _ ss => ssrList ss
  | Tree.subprogDecl _ _ _ tk _ _ _ ss =>
    if tk = SubprogTK.procBody then ssrList ss else []
  | Tree.signalAssign _ target reject waves =>
    ssrTarget target ++
    (match reject with | some r => specSignalReads r | none => []) ++
    ssrList waves
  | Tree.varAssign _ target v => ssrTarget target ++ specSignalReads v
  | Tree.caseT _ v asl => specSignalReads v ++ ssrAssocValues asl
  | Tree.forT _ rs ss =>
    (match rs with | r :: _ => specSignalReads r | [] => []) ++ ssrList ss
  | Tree.whileT _ v ss =>
    (match v with | some vv => specSignalReads vv | none => []) ++ ssrList ss
  | Tree.rangeT _ le ri => specSignalReads le ++ specSignalReads ri
  | Tree.rangeExpr v => specSignalReads v
  | _ => []
termination_by (sizeOf e, 1)

/-- Reads of a statement list, in order. -/
def ssrList (es : List Tree) : List Nat :=
  match es with
  | [] => []
  | e :: rest => specSignalReads e ++ ssrList rest
termination_by (sizeOf es, 0)

/-- Reads of the values of a parameter list. -/
def ssrParamValues (ps : List Tree) : List Nat :=
  match ps with
  | [] => []
  | Tree.paramT _ _ v :: rest => specSignalReads v ++ ssrParamValues rest
  | _ => []
termination_by (sizeOf ps, 0)

/-- Reads of the values of a call's parameters: only actuals whose
formal port (by position; `in` past the end) has mode `in` or `inout`
are read. -/
def ssrParamsPorts (ports ps : List Tree) : List Nat :=
  match ps with
  | [] => []
  | Tree.paramT _ _ v :: rest =>
    let mode :=
      match ports with
      | Tree.portDecl _ _ _ _ m _ :: _ => m
      | _ => PortMode.pin
    (if mode = PortMode.pin ∨ mode = PortMode.pinout then specSignalReads v
     else []) ++
    ssrParamsPorts ports.tail rest
  | _ => []
termination_by (sizeOf ps, 0)

/-- Reads of the values of an association list. -/
def ssrAssocValues (asl : List Tree) : List Nat :=
  match asl with
  | [] => []
  | Tree.assocT _ _ (some v) :: rest => specSignalReads v ++ ssrAssocValues rest
  | _ => []
termination_by (sizeOf asl, 0)

/-- Reads of an assignment target (or of the indices of a non-static
name): the written prefix itself reads nothing, the first slice range
or the index expressions do. -/
def ssrTarget (e : Tree) : List Nat :=
  match e with
  | Tree.arraySlice _ rs =>
    match rs with
    | r :: _ => specSignalReads r
    | [] => []
  | Tree.arrayRef _ ps => ssrParamValues ps
  | _ => []
termination_by (sizeOf e, 0)

end

/-- Modelled from the spec: the shapes of assignment targets whose
unscanned part reads nothing — a plain reference, or a single indexed,
sliced or selected level over a statically indexed reference spine. -/
def targetShapeOk : Tree → Bool
  | Tree.ref _ _ _ => true
  | Tree.arrayRef v _ => spineOk v && lspSelf v
  | Tree.arraySlice v rs => spineOk v && lspSelf v && rs.length == 1
  | Tree.recordRef _ v => spineOk v && lspSelf v
  | _ => false

mutual

/-- Modelled from the spec: the well-formedness condition under which
the trigger collection of `simp_build_wait` is complete for
`specSignalReads` — slices carry exactly one range, indexed and sliced
names are signal-class with reference-rooted prefixes, callees are
subprogram declarations with parameter associations in shape, and the
positions the walk never visits (waveform delays, assertion severity
and message, rejection limits, non-`in` actuals, attribute prefixes
other than `'EVENT`/`'ACTIVE`) read no signals. -/
def bwWf (e : Tree) : Bool :=
  match e with
  | Tree.ref _ _ _ => true
  | Tree.arraySlice v rs =>
    if lspSelf (Tree.arraySlice v rs) then spineOk v
    else if class_of (Tree.arraySlice v rs) = Class.signal then
      spineOk v && rs.length == 1 && bwWf v && bwWfTarget (Tree.arraySlice v rs)
    else false
  | Tree.arrayRef v ps =>
    if lspSelf (Tree.arrayRef v ps) then spineOk v
    else if class_of (Tree.arrayRef v ps) = Class.signal then
      spineOk v && bwWf v && bwWfTarget (Tree.arrayRef v ps)
    else false
  | Tree.waveform v d =>
    (match v with | some vv => bwWf vv | none => true) &&
    (match d with | some dl => (specSignalReads dl).isEmpty | none => true)
  | Tree.recordRef _ v => bwWf v
  | Tree.qualified _ v => bwWf v
  | Tree.typeConv _ v => bwWf v
  | Tree.assertT _ v sev msg =>
    (match v with | some vv => bwWf vv | none => true) &&
    (specSignalReads sev).isEmpty &&
    (match msg with | some m => (specSignalReads m).isEmpty | none => true)
  | Tree.fcall _ decl _ _ ps =>
    match decl with
    | Tree.subprogDecl _ _ _ _ _ _ ports _ => bwWfParamsPorts ports ps
    | _ => false
  | Tree.pcall _ _ decl ps =>
    match decl with
    | Tree.subprogDecl _ _ _ _ _ _ ports _ => bwWfParamsPorts ports ps
    | _ => false
  | Tree.aggregate _ asl => bwWfAssocValues asl
  | Tree.attrRef _ predef _ nm ps value =>
    (if predef = AttrKind.event ∨ predef = AttrKind.active then bwWf nm
     else (specSignalReads nm).isEmpty) &&
    bwWfParamValues ps &&
    (match value with | some x => (specSignalReads x).isEmpty | none => true)
  | Tree.litInt _ _ => true
  | Tree.litStr _ _ => true
  | Tree.ifT _ c ss es => bwWf c && bwWfList ss && bwWfList es
  | Tree.processT _ _ _ _ ss => bwWfList ss
  | Tree.blockT _ _ _ _ _ ss => bwWfList ss
  | Tree.subprogDecl _ _ _ tk _ _ _ ss =>
    if tk = SubprogTK.procBody then bwWfList ss else false
  | Tree.signalAssign _ target reject waves =>
    targetShapeOk target && bwWfTarget target &&
    (match reject with | some r => (specSignalReads r).isEmpty | none => true) &&
    bwWfList waves
  | Tree.varAssign _ target v =>
    targetShapeOk target && bwWfTarget target && bwWf v
  | Tree.caseT _ v asl => bwWf v && bwWfAssocValues asl
  | Tree.forT _ rs ss =>
    (rs.length == 1) &&
    (match rs with | r :: _ => bwWf r | [] => false) && bwWfList ss
  | Tree.whileT _ v ss =>
    (match v with | some vv => bwWf vv | none => false) && bwWfList ss
  | Tree.rangeT _ le ri => bwWf le && bwWf ri
  | Tree.rangeExpr v => bwWf v
  | _ => false
termination_by (sizeOf e, 1)

/-- Well-formedness of a statement list. -/
def bwWfList (es : List Tree) : Bool :=
  match es with
  | [] => true
  | e :: rest => bwWf e && bwWfList rest
termination_by (sizeOf es, 0)

/-- Well-formedness of a parameter list: every element is a `T_PARAM`
with a well-formed value. -/
def bwWfParamValues (ps : List Tree) : Bool :=
  match ps with
  | [] => true
  | Tree.paramT _ _ v :: rest => bwWf v && bwWfParamValues rest
  | _ => false
termination_by (sizeOf ps, 0)

/-- Well-formedness of a call's parameters against its ports: `in` and
`inout` actuals are well formed, other actuals read nothing. -/
def bwWfParamsPorts (ports ps : List Tree) : Bool :=
  match ps with
  | [] => true
  | Tree.paramT _ _ v :: rest =>
    let mode :=
      match ports with
      | Tree.portDecl _ _ _ _ m _ :: _ => m
      | _ => PortMode.pin
    (if mode = PortMode.pin ∨ mode = PortMode.pinout then bwWf v
     else (specSignalReads v).isEmpty) &&
    bwWfParamsPorts ports.tail rest
  | _ => false
termination_by (sizeOf ps, 0)

/-- Well-formedness of an association list: every element is an
association with a well-formed value. -/
def bwWfAssocValues (asl : List Tree) : Bool :=
  match asl with
  | [] => true
  | Tree.assocT _ _ (some v) :: rest => bwWf v && bwWfAssocValues rest
  | _ => false
termination_by (sizeOf asl, 0)

/-- Well-formedness of the scanned part of an assignment target: the
first slice range or every index value. -/
def bwWfTarget (e : Tree) : Bool :=
  match e with
  | Tree.arraySlice _ rs =>
    match rs with
    | r :: _ => bwWf r
    | [] => false
  | Tree.arrayRef _ ps => bwWfParamValues ps
  | _ => true
termination_by (sizeOf e, 0)

end

/-- What one `simp_build_wait` step guarantees about its output trigger
list: the input is kept as a prefix (`tree_add_trigger` only appends);
freedom from duplicate `T_REF` triggers is preserved; and when the
scanned node is well formed every one of its statically visible signal
reads is covered by some trigger referring to that declaration. -/
def bwStep (w out : List Tree) (wf : Bool) (ds : List Nat) : Prop :=
  w <+: out ∧
  ((refDeclIds w).Nodup → (refDeclIds out).Nodup) ∧
  (wf = true → ∀ d ∈ ds, ∃ t ∈ out, baseDeclId t = some d)

/-- The induction motive for `simp_build_wait`. -/
def BwP (all : Bool) (w : List Tree) (e : Tree) : Prop :=
  ∀ out, simp_build_wait all w e = some out →
    bwStep w out (bwWf e) (specSignalReads e)

/-- The induction motive for `sbwList`. -/
def BwPList (all : Bool) (w es : List Tree) : Prop :=
  ∀ out, sbwList all w es = some out →
    bwStep w out (bwWfList es) (ssrList es)

/-- The induction motive for `sbwParamValues`. -/
def BwPParams (all : Bool) (w ps : List Tree) : Prop :=
  ∀ out, sbwParamValues all w ps = some out →
    bwStep w out (bwWfParamValues ps) (ssrParamValues ps)

/-- The induction motive for `sbwAssocValues`. -/
def BwPAssocs (all : Bool) (w asl : List Tree) : Prop :=
  ∀ out, sbwAssocValues all w asl = some out →
    bwStep w out (bwWfAssocValues asl) (ssrAssocValues asl)

/-- The induction motive for `sbwParamsPorts`. -/
def BwPPorts (all : Bool) (w ports ps : List Tree) : Prop :=
  ∀ out, sbwParamsPorts all w ports ps = some out →
    bwStep w out (bwWfParamsPorts ports ps) (ssrParamsPorts ports ps)

/-- The induction motive for `simp_build_wait_for_target`. -/
def BwPTarget (all : Bool) (w : List Tree) (e : Tree) : Prop :=
  ∀ out, simp_build_wait_for_target all w e = some out →
    bwStep w out (bwWfTarget e) (ssrTarget e)

/-- A reference to the TRUE enumeration literal: a condition that folds
to the boolean constant true. -/
def cbTrue : Tree := Tree.ref 90 (Tree.enumLit 21 boolTy 1) noFlags

/-- A reference to the FALSE enumeration literal: a condition that
folds to the boolean constant false. -/
def cbFalse : Tree := Tree.ref 91 (Tree.enumLit 20 boolTy 0) noFlags

/-- A scalar constant declaration with a literal initializer (pointer
identity 3). -/
def cD : Tree := Tree.constDecl 3 30 boolTy (some (Tree.litInt boolTy 1))

/-- A simplification context whose generic substitution maps
declaration 3 to a literal. -/
def ctx0 : SimpCtx :=
  ⟨[], ⟨false, false⟩, fun _ => none, fun _ => false, noFlags,
    some [(3, Tree.litInt boolTy 42)], none, 0⟩

/-- An array signal declaration (pointer identity 7). -/
def sCE : Tree := Tree.signalDecl 7 100 (Ty.arrayTy 1 none) none

/-- The statically indexed signal name `sCE(0)`. -/
def tCE : Tree :=
  Tree.arrayRef (Tree.ref 100 sCE noFlags)
    [Tree.paramT PSub.pos none (Tree.litInt boolTy 0)]

/-- An aggregate reading the statically indexed name `sCE(0)` twice. -/
def eCE : Tree :=
  Tree.aggregate boolTy
    [Tree.assocT (ASub.pos 0) none (some tCE),
     Tree.assocT (ASub.pos 1) none (some tCE)]

/-- A scalar signal declaration (pointer identity 11) used as an
assignment target. -/
def sWa : Tree := Tree.signalDecl 11 201 boolTy none

/-- A scalar signal declaration (pointer identity 12) that is read. -/
def sWb : Tree := Tree.signalDecl 12 202 boolTy none

/-- A process assigning the value of `sWb` to `sWa`. -/
def eW : Tree :=
  Tree.processT 1 noFlags [] []
    [Tree.signalAssign 2 (Tree.ref 201 sWa noFlags) none
      [Tree.waveform (some (Tree.ref 202 sWb noFlags)) none]]

/-- Modelled from the spec: a call's parameter list `ps2` is the
normalization of the original arguments `ps` against the callee's
`ports` — one parameter per port, every parameter positional and in
port declaration order; the positional prefix keeps the original
values; each later port takes the value of a named argument whose
formal references that port; an `open` actual is replaced by the
port's default value. -/
def CallNormalized (ports ps ps2 : List Tree) : Prop :=
  ps2.length = ports.length ∧
  (∀ p ∈ ps2, ∃ v, p = Tree.paramT PSub.pos none v) ∧
  (∀ k, k < (lastPos ps + 1).toNat →
    ∃ sub nm v v2, ps[k]? = some (Tree.paramT sub nm v) ∧
      ps2[k]? = some (Tree.paramT PSub.pos none v2) ∧
      ((¬v = Tree.openK ∧ v2 = v) ∨
       (v = Tree.openK ∧ ∃ pd, ports[k]? = some pd ∧
          portDefault pd = some v2))) ∧
  (∀ k pd, (lastPos ps + 1).toNat ≤ k → ports[k]? = some pd →
    ∃ pid v2, portIdentOf pd = some pid ∧
      ps2[k]? = some (Tree.paramT PSub.pos none v2) ∧
      ∃ nd nf val,
        Tree.paramT PSub.named (some (Tree.ref pid nd nf)) val ∈
          ps.drop (lastPos ps + 1).toNat ∧
        ((¬val = Tree.openK ∧ v2 = val) ∨
         (val = Tree.openK ∧ portDefault pd = some v2)))

/-- A port (identity 41, name 301) without a default value. -/
def pce1 : Tree := Tree.portDecl 41 301 boolTy Class.constant PortMode.pin none

/-- A port (identity 42, name 302) with a literal default value. -/
def pce2 : Tree :=
  Tree.portDecl 42 302 boolTy Class.constant PortMode.pin
    (some (Tree.litInt boolTy 9))

/-- A procedure with the two ports `pce1` and `pce2`. -/
def dCE : Tree :=
  Tree.subprogDecl 40 400 400 SubprogTK.procBody SubprogKind.user noFlags
    [pce1, pce2] []

/-- A call to `dCE` supplying only `pce1`, by name: port `pce2` is
unsupplied although it has a default value. -/
def callCE : Tree :=
  Tree.pcall 1 2 dCE
    [Tree.paramT PSub.named (some (Tree.ref 301 pce1 noFlags))
      (Tree.litInt boolTy 5)]

/-- A call to `dCE` with a positional argument for `pce1` and a named
`open` for `pce2`. -/
def callW : Tree :=
  Tree.pcall 3 4 dCE
    [Tree.paramT PSub.pos none (Tree.litInt boolTy 1),
     Tree.paramT PSub.named (some (Tree.ref 302 pce2 noFlags)) Tree.openK]

/-- The normalized parameter list of `callW`. -/
def psW : List Tree :=
  [Tree.paramT PSub.pos none (Tree.litInt boolTy 1),
   Tree.paramT PSub.pos none (Tree.litInt boolTy 9)]

/-- A concurrent signal assignment of `sWb` to `sWa` with a single
unconditional waveform. -/
def caW : Tree :=
  Tree.cassign 21 (Tree.ref 201 sWa noFlags) none
    [Tree.condT none none
      [Tree.waveform (some (Tree.ref 202 sWb noFlags)) none]]

/-- The process `simp_cassign` builds from `caW`. -/
def outA : Tree :=
  Tree.processT 21 noFlags [] []
    [Tree.signalAssign 21 (Tree.ref 201 sWa noFlags) none
      [Tree.waveform (some (Tree.ref 202 sWb noFlags)) none],
     Tree.waitT identCassign { noFlags with staticWait := true } none
       [Tree.ref 202 sWb noFlags]]

/-- A concurrent call of the procedure `dCE` with no arguments. -/
def cpW : Tree := Tree.cpcall 7 8 dCE []

/-- The process `simp_cpcall` builds from `cpW`: its wait statement
carries no flags. -/
def outD : Tree :=
  Tree.processT 7 noFlags [] []
    [Tree.pcall identPcall 8 dCE [],
     Tree.waitT identPcallWait noFlags none []]

/-- The declaration list of a top-level unit. -/
def topDecls : Tree → Option (List Tree)
  | Tree.archT _ ds _ => some ds
  | Tree.blockT _ _ _ _ ds _ => some ds
  | _ => none

/-- The statement list of a top-level unit. -/
def topStmts : Tree → Option (List Tree)
  | Tree.archT _ _ ss => some ss
  | Tree.blockT _ _ _ _ _ ss => some ss
  | _ => none

/-- A `'DELAYED` attribute reference on the signal `sWb` with a zero
delay. -/
def attrCE : Tree :=
  Tree.attrRef 60 AttrKind.delayed boolTy (Tree.ref 202 sWb noFlags)
    [Tree.paramT PSub.pos none (Tree.litInt boolTy 0)] none

/-- A signal assignment whose waveform reads `sWb'DELAYED(0)`. -/
def saCE : Tree :=
  Tree.signalAssign 23 (Tree.ref 201 sWa noFlags) none
    [Tree.waveform (some attrCE) none]

/-- An architecture whose single statement is `saCE`. -/
def archCE : Tree := Tree.archT 50 [] [saCE]

/-- The implicit signal synthesized for `attrCE` (identity 1000 is the
identity counter's start value). -/
def sImp : Tree :=
  Tree.signalDecl 1000 (identDelayed 202) boolTy (some (Tree.litInt boolTy 0))

/-- The driver process synthesized for `attrCE`. -/
def pImp : Tree :=
  Tree.processT (identProcSuffix (identDelayed 202)) noFlags [] []
    [Tree.signalAssign identAssign
      (Tree.ref (identDelayed 202) sImp noFlags) none
      [Tree.waveform (some (Tree.ref 202 sWb noFlags))
        (some (Tree.litInt boolTy 0))],
     Tree.waitT identWait { noFlags with staticWait := true } none
       [Tree.ref 202 sWb noFlags]]

/-- The assignment `saCE` after the rewrite: the attribute reference is
replaced by a reference to the implicit signal. -/
def saOut : Tree :=
  Tree.signalAssign 23 (Tree.ref 201 sWa noFlags) none
    [Tree.waveform (some (Tree.ref (identDelayed 202) sImp noFlags)) none]

/-- The architecture produced by `simplify_local` on `archCE`: the
implicit signal is appended to its declarations and the driver process
to its statements. -/
def archOut : Tree := Tree.archT 50 [sImp] [saOut, pImp]

/-- Invariant of the read side while a location stream is consumed:
the index has been parsed into `file_map` (the writer registry's
canonical names), the local registry keeps `ref = index`, and every
resolved `ref_map` entry points at a local entry whose name equals the
corresponding written name. -/
def RdInv (wfiles files : FileList) (ctx : RdCtx) : Prop :=
  ctx.have_index = true ∧
  ctx.file_map = wfiles.map (·.name_str) ∧
  FilesWF files ∧
  ∀ i r, ctx.ref_map.get? i = some (some r) →
    ∃ e, files.get? r = some e ∧
      (wfiles.get? i).map (·.name_str) = some e.name_str

/-! ## Theorems -/

/-- `b < 2^n → (2^n*a) ||| b = 2^n*a + b`: a high field shifted past a
low field combines with bitwise or exactly as with addition.  Used to
reason about the packed location word of `loc_write`. -/
theorem lor_high_low (n : Nat) : ∀ (a b : Nat), b < 2 ^ n → (2 ^ n * a) ||| b = 2 ^ n * a + b := by
  induction n with
  | zero =>
    intro a b hb
    have : b = 0 := by omega
    subst this
    simp
  | succ n ih =>
    intro a b hb
    have hdec : Nat.bit (decide (b % 2 = 1)) (b >>> 1) = b :=
      Nat.bit_decide_mod_two_eq_one_shiftRight_one b
    have h2 : 2 ^ (n + 1) * a = Nat.bit false (2 ^ n * a) := by
      simp [Nat.bit_val]
      ring
    rw [← hdec, h2, Nat.lor_bit]
    have hb2 : b >>> 1 < 2 ^ n := by
      simp [Nat.shiftRight_one]
      omega
    rw [ih a (b >>> 1) hb2]
    simp [Nat.bit_val, Nat.shiftRight_one]
    ring_nf

/-- With all fields in range, the packed word is the weighted sum of the
fields. -/
theorem locMerged_eq_sum (l : Loc) (h : l.fits) :
    locMerged l = 2 ^ 44 * l.first_line + 2 ^ 32 * l.first_column +
      2 ^ 24 * l.line_delta + 2 ^ 16 * l.column_delta + l.file_ref := by
  obtain ⟨h1, h2, h3, h4, h5⟩ := h
  unfold locMerged
  rw [Nat.shiftLeft_eq, Nat.shiftLeft_eq, Nat.shiftLeft_eq, Nat.shiftLeft_eq]
  rw [Nat.lor_assoc, Nat.lor_assoc, Nat.lor_assoc]
  have b16 : l.column_delta * 2 ^ 16 ||| l.file_ref =
      2 ^ 16 * l.column_delta + l.file_ref := by
    rw [Nat.mul_comm]
    exact lor_high_low 16 _ _ (by omega)
  have lt16 : 2 ^ 16 * l.column_delta + l.file_ref < 2 ^ 24 := by omega
  have b24 : l.line_delta * 2 ^ 24 ||| (2 ^ 16 * l.column_delta + l.file_ref) =
      2 ^ 24 * l.line_delta + (2 ^ 16 * l.column_delta + l.file_ref) := by
    rw [Nat.mul_comm]
    exact lor_high_low 24 _ _ lt16
  have lt24 : 2 ^ 24 * l.line_delta + (2 ^ 16 * l.column_delta + l.file_ref) < 2 ^ 32 := by
    omega
  have b32 : l.first_column * 2 ^ 32 |||
      (2 ^ 24 * l.line_delta + (2 ^ 16 * l.column_delta + l.file_ref)) =
      2 ^ 32 * l.first_column +
        (2 ^ 24 * l.line_delta + (2 ^ 16 * l.column_delta + l.file_ref)) := by
    rw [Nat.mul_comm]
    exact lor_high_low 32 _ _ lt24
  have lt32 : 2 ^ 32 * l.first_column +
      (2 ^ 24 * l.line_delta + (2 ^ 16 * l.column_delta + l.file_ref)) < 2 ^ 44 := by
    omega
  have b44 : l.first_line * 2 ^ 44 |||
      (2 ^ 32 * l.first_column +
        (2 ^ 24 * l.line_delta + (2 ^ 16 * l.column_delta + l.file_ref))) =
      2 ^ 44 * l.first_line +
        (2 ^ 32 * l.first_column +
          (2 ^ 24 * l.line_delta + (2 ^ 16 * l.column_delta + l.file_ref))) := by
    rw [Nat.mul_comm]
    exact lor_high_low 44 _ _ lt32
  rw [b16, b24, b32, b44]
  ring

/-- The five field extractions of `loc_read` invert the packing of
`loc_write` when the fields fit their bit ranges. -/
theorem locMerged_fields (l : Loc) (h : l.fits) :
    (locMerged l >>> 44) &&& 0xfffff = l.first_line ∧
    (locMerged l >>> 32) &&& 0xfff = l.first_column ∧
    (locMerged l >>> 24) &&& 0xff = l.line_delta ∧
    (locMerged l >>> 16) &&& 0xff = l.column_delta ∧
    locMerged l &&& 0xffff = l.file_ref := by
  obtain ⟨h1, h2, h3, h4, h5⟩ := h
  rw [locMerged_eq_sum l ⟨h1, h2, h3, h4, h5⟩]
  have e20 : (0xfffff : Nat) = 2 ^ 20 - 1 := by norm_num
  have e12 : (0xfff : Nat) = 2 ^ 12 - 1 := by norm_num
  have e8 : (0xff : Nat) = 2 ^ 8 - 1 := by norm_num
  have e16 : (0xffff : Nat) = 2 ^ 16 - 1 := by norm_num
  rw [e20, e12, e8, e16, Nat.shiftRight_eq_div_pow, Nat.shiftRight_eq_div_pow,
    Nat.shiftRight_eq_div_pow, Nat.shiftRight_eq_div_pow,
    Nat.and_pow_two_sub_one_eq_mod, Nat.and_pow_two_sub_one_eq_mod,
    Nat.and_pow_two_sub_one_eq_mod, Nat.and_pow_two_sub_one_eq_mod,
    Nat.and_pow_two_sub_one_eq_mod]
  norm_num
  omega

/-- The stream produced for a non-empty sequence of locations: the index
block followed by one packed word per location. -/
theorem loc_write_all_shape (files : FileList) (l : Loc) (ls : List Loc) :
    loc_write_all files (l :: ls) =
      locIndexToks files ++ Tok.u64 (locMerged l) :: ls.map (fun x => Tok.u64 (locMerged x)) := by
  have step : ∀ (ls : List Loc) (acc : List Tok),
      (ls.foldl (fun st x => loc_write x files st) (true, acc)).2 =
        acc ++ ls.map (fun x => Tok.u64 (locMerged x)) := by
    intro ls
    induction ls with
    | nil => intro acc; simp
    | cons x xs ih =>
      intro acc
      simp only [List.foldl_cons, List.map_cons]
      rw [show loc_write x files (true, acc) = (true, acc ++ [Tok.u64 (locMerged x)]) from rfl]
      rw [ih]
      simp
  unfold loc_write_all
  simp only [List.foldl_cons]
  rw [show loc_write l files (false, []) =
    (true, locIndexToks files ++ [Tok.u64 (locMerged l)]) by simp [loc_write]]
  rw [step]
  simp

/-- `readNames` parses back exactly the names written in the index
block. -/
theorem readNames_index (files : FileList) (rest : List Tok) :
    readNames files.length
        ((files.map fun f => [Tok.uint (f.name_str.length + 1), Tok.raw f.name_str]).flatten
          ++ rest) =
      some (files.map (·.name_str), rest) := by
  induction files with
  | nil => simp [readNames]
  | cons f fs ih =>
    simp only [List.map_cons, List.flatten_cons, List.length_cons, List.cons_append,
      List.append_assoc]
    simp only [readNames, List.cons_append, List.nil_append]
    rw [ih]
    rfl

/-- A successful `lastNameMatch` found an entry with the wanted name. -/
theorem lastNameMatch_mem (nm : List Char) :
    ∀ (files : FileList) (acc : Option Nat) (r : Nat),
      files.foldl (fun acc f => if f.name_str = nm then some f.ref else acc) acc = some r →
      (∃ f ∈ files, f.ref = r ∧ f.name_str = nm) ∨ acc = some r := by
  intro files
  induction files with
  | nil => intro acc r h; exact Or.inr h
  | cons f fs ih =>
    intro acc r h
    simp only [List.foldl_cons] at h
    rcases ih _ r h with ⟨f', hmem, href, hname⟩ | hacc
    · exact Or.inl ⟨f', List.mem_cons_of_mem f hmem, href, hname⟩
    · by_cases hn : f.name_str = nm
      · rw [if_pos hn] at hacc
        cases hacc
        exact Or.inl ⟨f, List.mem_cons_self f fs, rfl, hn⟩
      · rw [if_neg hn] at hacc
        exact Or.inr hacc

/-- With the `ref = index` registry invariant, `lastNameMatch` returns a
valid index whose entry carries the wanted name. -/
theorem lastNameMatch_spec (files : FileList) (nm : List Char) (hwf : FilesWF files)
    (r : Nat) (h : lastNameMatch files nm = some r) :
    ∃ e, files.get? r = some e ∧ e.name_str = nm := by
  rcases lastNameMatch_mem nm files none r h with ⟨f, hmem, href, hname⟩ | habs
  · obtain ⟨i, hi⟩ := List.get_of_mem hmem
    have := hwf i.1 i.2
    rw [hi] at this
    refine ⟨f, ?_, hname⟩
    rw [← href, this]
    rw [List.get?_eq_getElem?]
    rw [List.getElem?_eq_getElem i.2]
    rw [← List.get_eq_getElem, hi]
  · cases habs

/-- `get?` results survive extension of a list on the right. -/
theorem get?_of_prefix {α : Type} {l₁ l₂ : List α} (hp : l₁ <+: l₂) {i : Nat} {a : α}
    (h : l₁.get? i = some a) : l₂.get? i = some a := by
  obtain ⟨t, rfl⟩ := hp
  have hi : i < l₁.length := by
    by_contra hge
    rw [List.get?_eq_getElem?, List.getElem?_eq_none (by omega)] at h
    cases h
  rw [List.get?_eq_getElem?] at *
  rw [List.getElem?_append_left hi]
  exact h

/-- Reading one packed word under the read invariant: the four
line/column fields come back unchanged and the remapped file ref points
at a local registry entry named like the written file. -/
theorem loc_read_one_step (wfiles files : FileList) (ctx : RdCtx) (l : Loc) (rest : List Tok)
    (hw : wfiles.length ≤ FILE_INVALID) (hinv : RdInv wfiles files ctx)
    (hfits : l.fits) (href : l.file_ref < wfiles.length) :
    ∃ fr files' ctx',
      loc_read_one files ctx (Tok.u64 (locMerged l) :: rest) =
        some (⟨l.first_line, l.first_column, l.line_delta, l.column_delta, fr⟩,
          files', ctx', rest) ∧
      (∃ e w, files'.get? fr = some e ∧ wfiles.get? l.file_ref = some w ∧
        e.name_str = w.name_str) ∧
      RdInv wfiles files' ctx' ∧ files <+: files' := by
  obtain ⟨hidx, hmap, hwf, hrefmap⟩ := hinv
  obtain ⟨f1, f2, f3, f4, f5⟩ := locMerged_fields l hfits
  have hne : ¬(l.file_ref = FILE_INVALID) := by
    unfold FILE_INVALID at *
    omega
  have hlenmap : ctx.file_map.length = wfiles.length := by
    rw [hmap]
    simp
  obtain ⟨w, hwget⟩ : ∃ w, wfiles.get? l.file_ref = some w := by
    rw [List.get?_eq_getElem?]
    exact ⟨_, List.getElem?_eq_getElem href⟩
  have hnm : (ctx.file_map.get? l.file_ref).getD [] = w.name_str := by
    rw [hmap, List.get?_eq_getElem?, List.getElem?_map]
    rw [List.get?_eq_getElem?] at hwget
    rw [hwget]
    rfl
  have hnotge : ¬(ctx.file_map.length ≤ l.file_ref) := by omega
  simp only [loc_read_one, hidx, if_true, Option.bind_eq_bind, Option.some_bind]
  rw [f1, f2, f3, f4, f5, if_neg hne, if_neg hnotge, hnm]
  cases hr : (ctx.ref_map.get? l.file_ref).getD none with
  | some r =>
    have hr' : ctx.ref_map.get? l.file_ref = some (some r) := by
      cases hx : ctx.ref_map.get? l.file_ref with
      | none => rw [hx] at hr; simp at hr
      | some o => rw [hx] at hr; simp at hr; rw [hr]
    obtain ⟨e, heget, hename⟩ := hrefmap l.file_ref r hr'
    rw [hwget] at hename
    refine ⟨r, files, ctx, ?_, ⟨e, w, heget, hwget, ?_⟩, ⟨hidx, hmap, hwf, hrefmap⟩,
      List.prefix_refl _⟩
    · rfl
    · simp only [Option.map_some', Option.some.injEq] at hename
      exact hename.symm
  | none =>
    cases hm : lastNameMatch files w.name_str with
    | some r =>
      obtain ⟨e, heget, hename⟩ := lastNameMatch_spec files w.name_str hwf r hm
      refine ⟨r, files, { ctx with ref_map := ctx.ref_map.set l.file_ref (some r) },
        ?_, ⟨e, w, heget, hwget, hename⟩, ⟨hidx, hmap, hwf, ?_⟩, List.prefix_refl _⟩
      · rw [hidx]
      · intro i r' hget
        rw [List.get?_eq_getElem?] at hget
        by_cases hii : l.file_ref = i
        · subst hii
          rw [List.getElem?_set_self'] at hget
          simp only [Option.map_eq_map, Option.map_eq_some'] at hget
          obtain ⟨o, ho1, ho2⟩ := hget
          cases ho2
          refine ⟨e, heget, ?_⟩
          rw [hwget, Option.map_some', hename]
        · rw [List.getElem?_set_ne hii] at hget
          exact hrefmap i r' (by rw [List.get?_eq_getElem?]; exact hget)
    | none =>
      refine ⟨files.length, files ++ [⟨files.length, w.name_str⟩],
        { ctx with ref_map := ctx.ref_map.set l.file_ref (some files.length) },
        ?_, ?_, ⟨hidx, hmap, ?_, ?_⟩, ⟨_, rfl⟩⟩
      · rw [hidx]
      · refine ⟨⟨files.length, w.name_str⟩, w, ?_, hwget, rfl⟩
        rw [List.get?_eq_getElem?, List.getElem?_append_right (Nat.le_refl _)]
        simp
      · intro i h
        simp only [List.length_append, List.length_cons, List.length_nil] at h
        rcases Nat.lt_or_ge i files.length with hi | hi
        · rw [List.get_eq_getElem, List.getElem_append_left hi]
          exact hwf i hi
        · have : i = files.length := by omega
          subst this
          simp
      · intro i r' hget
        rw [List.get?_eq_getElem?] at hget
        by_cases hii : l.file_ref = i
        · subst hii
          rw [List.getElem?_set_self'] at hget
          simp only [Option.map_eq_map, Option.map_eq_some'] at hget
          obtain ⟨o, ho1, ho2⟩ := hget
          cases ho2
          refine ⟨⟨files.length, w.name_str⟩, ?_, ?_⟩
          · rw [List.get?_eq_getElem?, List.getElem?_append_right (Nat.le_refl _)]
            simp
          · rw [hwget, Option.map_some']
        · rw [List.getElem?_set_ne hii] at hget
          obtain ⟨e, he1, he2⟩ := hrefmap i r' (by rw [List.get?_eq_getElem?]; exact hget)
          exact ⟨e, get?_of_prefix ⟨_, rfl⟩ he1, he2⟩

/-- Reading a stream of packed words under the read invariant: all four
line/column fields of every location come back unchanged and every file
ref resolves, in the final registry, to an entry named like the written
file. -/
theorem loc_read_all_locs (wfiles : FileList) (hw : wfiles.length ≤ FILE_INVALID) :
    ∀ (locs : List Loc) (files : FileList) (ctx : RdCtx) (rest : List Tok),
      RdInv wfiles files ctx →
      (∀ l ∈ locs, l.fits ∧ l.file_ref < wfiles.length) →
      ∃ locs' files',
        loc_read_all locs.length files ctx
          (locs.map (fun x => Tok.u64 (locMerged x)) ++ rest) = some (locs', files') ∧
        locs'.length = locs.length ∧
        files <+: files' ∧
        ∀ k (hk : k < locs.length) (hk' : k < locs'.length),
          (locs'.get ⟨k, hk'⟩).first_line = (locs.get ⟨k, hk⟩).first_line ∧
          (locs'.get ⟨k, hk'⟩).first_column = (locs.get ⟨k, hk⟩).first_column ∧
          (locs'.get ⟨k, hk'⟩).line_delta = (locs.get ⟨k, hk⟩).line_delta ∧
          (locs'.get ⟨k, hk'⟩).column_delta = (locs.get ⟨k, hk⟩).column_delta ∧
          ∃ e v, files'.get? ((locs'.get ⟨k, hk'⟩).file_ref) = some e ∧
            wfiles.get? ((locs.get ⟨k, hk⟩).file_ref) = some v ∧
            e.name_str = v.name_str := by
  intro locs
  induction locs with
  | nil =>
    intro files ctx rest hinv hall
    exact ⟨[], files, rfl, rfl, List.prefix_refl _, fun k hk => by simp at hk⟩
  | cons l ls ih =>
    intro files ctx rest hinv hall
    obtain ⟨hfits, href⟩ := hall l (List.mem_cons_self l ls)
    obtain ⟨fr, files₁, ctx₁, hone, ⟨e, v, hee, hvv, hnames⟩, hinv₁, hpre₁⟩ :=
      loc_read_one_step wfiles files ctx l
        (ls.map (fun x => Tok.u64 (locMerged x)) ++ rest) hw hinv hfits href
    obtain ⟨locs', files₂, hrec, hlen, hpre₂, hfields⟩ :=
      ih files₁ ctx₁ rest hinv₁ (fun x hx => hall x (List.mem_cons_of_mem l hx))
    refine ⟨⟨l.first_line, l.first_column, l.line_delta, l.column_delta, fr⟩ :: locs',
      files₂, ?_, by simp [hlen], hpre₁.trans hpre₂, ?_⟩
    · simp only [List.length_cons, loc_read_all, List.map_cons, List.cons_append]
      rw [hone]
      simp only [Option.bind_eq_bind, Option.some_bind]
      rw [hrec]
      rfl
    · intro k hk hk'
      cases k with
      | zero =>
        refine ⟨rfl, rfl, rfl, rfl, e, v, ?_, hvv, hnames⟩
        exact get?_of_prefix hpre₂ hee
      | succ k =>
        simp only [List.length_cons] at hk hk'
        exact hfields k (Nat.lt_of_succ_lt_succ hk) (Nat.lt_of_succ_lt_succ hk')

/-- Parsing the index block written by `loc_write` turns the virgin read
context into one whose `file_map` holds the written names, with every
`ref_map` entry still unresolved. -/
theorem loc_read_one_skip_index (wfiles files : FileList) (toks : List Tok) :
    loc_read_one files ⟨[], [], false⟩ (locIndexToks wfiles ++ toks) =
      loc_read_one files ⟨wfiles.map (·.name_str), wfiles.map (fun _ => none), true⟩ toks := by
  simp only [loc_read_one, locIndexToks, List.cons_append, ne_eq, Option.bind_eq_bind,
    if_true, if_false, Bool.false_eq_true, not_true_eq_false, ite_false, Option.some_bind]
  rw [readNames_index]
  simp [List.map_map, Function.comp]

/-- C1: writing locations whose fields fit the packed ranges and whose
file refs index the writer's registry, then reading them back (into an
arbitrary well-formed local registry), returns locations with identical
`first_line`, `first_column`, `line_delta` and `column_delta`, whose
`file_ref` resolves to a local registry entry named like the original
file. -/
theorem loc_write_read_roundtrip (wfiles : FileList) (locs : List Loc) (rfiles : FileList)
    (hw : wfiles.length ≤ FILE_INVALID) (hrwf : FilesWF rfiles)
    (hall : ∀ l ∈ locs, l.fits ∧ l.file_ref < wfiles.length) :
    ∃ locs' rfiles',
      loc_read_all locs.length rfiles ⟨[], [], false⟩ (loc_write_all wfiles locs) =
        some (locs', rfiles') ∧
      locs'.length = locs.length ∧
      ∀ k (hk : k < locs.length) (hk' : k < locs'.length),
        (locs'.get ⟨k, hk'⟩).first_line = (locs.get ⟨k, hk⟩).first_line ∧
        (locs'.get ⟨k, hk'⟩).first_column = (locs.get ⟨k, hk⟩).first_column ∧
        (locs'.get ⟨k, hk'⟩).line_delta = (locs.get ⟨k, hk⟩).line_delta ∧
        (locs'.get ⟨k, hk'⟩).column_delta = (locs.get ⟨k, hk⟩).column_delta ∧
        ∃ e v, rfiles'.get? ((locs'.get ⟨k, hk'⟩).file_ref) = some e ∧
          wfiles.get? ((locs.get ⟨k, hk⟩).file_ref) = some v ∧
          e.name_str = v.name_str := by
  cases locs with
  | nil => exact ⟨[], rfiles, rfl, rfl, fun k hk => by simp at hk⟩
  | cons l ls =>
    have hinv₁ : RdInv wfiles rfiles
        ⟨wfiles.map (·.name_str), wfiles.map (fun _ => none), true⟩ := by
      refine ⟨rfl, rfl, hrwf, ?_⟩
      intro i r hget
      rw [List.get?_eq_getElem?, List.getElem?_map] at hget
      cases hx : wfiles[i]? with
      | none => rw [hx] at hget; cases hget
      | some u => rw [hx] at hget; simp at hget
    obtain ⟨locs', files', heq, hlen, hpre, hfields⟩ :=
      loc_read_all_locs wfiles hw (l :: ls) rfiles
        ⟨wfiles.map (·.name_str), wfiles.map (fun _ => none), true⟩ [] hinv₁ hall
    refine ⟨locs', files', ?_, hlen, hfields⟩
    rw [loc_write_all_shape]
    simp only [List.length_cons, loc_read_all]
    rw [loc_read_one_skip_index]
    simp only [List.map_cons, List.append_nil, List.cons_append, List.length_cons,
      loc_read_all] at heq
    exact heq

/-- C1 witness: two files and two in-range locations referencing them
round-trip through `loc_write`/`loc_read` into an empty local
registry. -/
theorem loc_write_read_roundtrip_witness :
    ([⟨0, ['a']⟩, ⟨1, ['b']⟩] : FileList).length ≤ FILE_INVALID ∧
    FilesWF [] ∧
    (∀ l ∈ [(⟨3, 4, 0, 2, 0⟩ : Loc), ⟨7, 1, 1, 5, 1⟩], l.fits ∧ l.file_ref < 2) ∧
    ∃ locs' rfiles',
      loc_read_all 2 [] ⟨[], [], false⟩
          (loc_write_all [⟨0, ['a']⟩, ⟨1, ['b']⟩] [⟨3, 4, 0, 2, 0⟩, ⟨7, 1, 1, 5, 1⟩]) =
        some (locs', rfiles') ∧
      locs'.length = 2 ∧
      ∀ k (hk : k < ([(⟨3, 4, 0, 2, 0⟩ : Loc), ⟨7, 1, 1, 5, 1⟩] : List Loc).length)
        (hk' : k < locs'.length),
        (locs'.get ⟨k, hk'⟩).first_line =
          (([(⟨3, 4, 0, 2, 0⟩ : Loc), ⟨7, 1, 1, 5, 1⟩] : List Loc).get ⟨k, hk⟩).first_line ∧
        (locs'.get ⟨k, hk'⟩).first_column =
          (([(⟨3, 4, 0, 2, 0⟩ : Loc), ⟨7, 1, 1, 5, 1⟩] : List Loc).get ⟨k, hk⟩).first_column ∧
        (locs'.get ⟨k, hk'⟩).line_delta =
          (([(⟨3, 4, 0, 2, 0⟩ : Loc), ⟨7, 1, 1, 5, 1⟩] : List Loc).get ⟨k, hk⟩).line_delta ∧
        (locs'.get ⟨k, hk'⟩).column_delta =
          (([(⟨3, 4, 0, 2, 0⟩ : Loc), ⟨7, 1, 1, 5, 1⟩] : List Loc).get ⟨k, hk⟩).column_delta ∧
        ∃ e v, rfiles'.get? ((locs'.get ⟨k, hk'⟩).file_ref) = some e ∧
          ([⟨0, ['a']⟩, ⟨1, ['b']⟩] : FileList).get?
            ((([(⟨3, 4, 0, 2, 0⟩ : Loc), ⟨7, 1, 1, 5, 1⟩] : List Loc).get ⟨k, hk⟩).file_ref) =
              some v ∧
          e.name_str = v.name_str :=
  ⟨by decide, fun i h => by simp at h, by decide,
    loc_write_read_roundtrip [⟨0, ['a']⟩, ⟨1, ['b']⟩] [⟨3, 4, 0, 2, 0⟩, ⟨7, 1, 1, 5, 1⟩] []
      (by decide) (fun i h => by simp at h) (by decide)⟩

/-- Registration only ever appends to the registry. -/
theorem loc_file_ref_prefix (name : Option (List Char)) (files : FileList) :
    files <+: (loc_file_ref name files).1 := by
  cases name with
  | none => exact List.prefix_refl _
  | some nm =>
    cases hf : files.find? (fun f => f.name_str = nm) with
    | some f => simp [loc_file_ref, hf]
    | none =>
      simp only [loc_file_ref, hf]
      exact ⟨_, rfl⟩

/-- Registration preserves the registry invariant. -/
theorem loc_file_ref_wf (name : Option (List Char)) (files : FileList)
    (hwf : FilesWF files) : FilesWF (loc_file_ref name files).1 := by
  cases name with
  | none => exact hwf
  | some nm =>
    cases hf : files.find? (fun f => f.name_str = nm) with
    | some f => simpa [loc_file_ref, hf] using hwf
    | none =>
      simp only [loc_file_ref, hf]
      intro i h
      simp only [List.length_append, List.length_cons, List.length_nil] at h
      rcases Nat.lt_or_ge i files.length with hi | hi
      · rw [List.get_eq_getElem, List.getElem_append_left hi]
        exact hwf i hi
      · have : i = files.length := by omega
        subst this
        simp

/-- C7 counterexample: registering the name `a//b` twice yields two
different file references (0, then 1), although the two names are equal
— and in particular equal after collapsing consecutive `/` — because the
second lookup compares the raw name `a//b` against the stored canonical
name `a/b` and misses. -/
theorem loc_file_ref_double_slash_ce :
    (loc_file_ref (some ['a', '/', '/', 'b']) []).2 = some 0 ∧
    (loc_file_ref (some ['a', '/', '/', 'b'])
        (loc_file_ref (some ['a', '/', '/', 'b']) []).1).2 = some 1 := by
  decide

/-- C7 amended: registration de-duplicates names that are *already
canonical* (no consecutive `/`): registering such a name twice returns
the same reference; and references are stable for the process lifetime —
the registry is append-only and keeps `ref = index` for every entry. -/
theorem loc_file_ref_dedup_canonical (nm : List Char) (files : FileList)
    (hcanon : squashSlashes nm = nm) (hwf : FilesWF files) :
    (loc_file_ref (some nm) ((loc_file_ref (some nm) files).1)).2 =
      (loc_file_ref (some nm) files).2 ∧
    files <+: (loc_file_ref (some nm) files).1 ∧
    FilesWF (loc_file_ref (some nm) files).1 := by
  refine ⟨?_, loc_file_ref_prefix _ _, loc_file_ref_wf _ _ hwf⟩
  cases hf : files.find? (fun f => f.name_str = nm) with
  | some f => simp [loc_file_ref, hf]
  | none =>
    simp only [loc_file_ref, hf, hcanon]
    rw [List.find?_append, hf]
    simp

/-- C7 witness: the amended dedup theorem applied to the canonical name
`a/b` and the empty registry. -/
theorem loc_file_ref_dedup_canonical_witness :
    squashSlashes ['a', '/', 'b'] = ['a', '/', 'b'] ∧ FilesWF [] ∧
    (loc_file_ref (some ['a', '/', 'b'])
        ((loc_file_ref (some ['a', '/', 'b']) []).1)).2 =
      (loc_file_ref (some ['a', '/', 'b']) []).2 :=
  ⟨by decide, fun i h => by simp at h,
    (loc_file_ref_dedup_canonical ['a', '/', 'b'] [] (by decide)
      (fun i h => by simp at h)).1⟩

/-- `replaceHint` returns `none` exactly when no hint's location equals
the given one. -/
theorem replaceHint_eq_none (l : Loc) (txt : List Char) (hs : List DiagHint) :
    replaceHint l txt hs = none ↔ ∀ h ∈ hs, loc_eq l h.loc = false := by
  induction hs with
  | nil => simp [replaceHint]
  | cons h rest ih =>
    simp only [replaceHint]
    cases hl : loc_eq l h.loc with
    | true => simp [hl]
    | false => simp [hl, Option.map_eq_none', ih]

/-- `replaceHint` replaces the text of the first hint whose location
matches, leaving everything else in place. -/
theorem replaceHint_eq_set (l : Loc) (txt : List Char) :
    ∀ (hs : List DiagHint) (i : Nat) (hi : i < hs.length),
      (∀ k (hk : k < i), loc_eq l (hs.get ⟨k, Nat.lt_trans hk hi⟩).loc = false) →
      loc_eq l (hs.get ⟨i, hi⟩).loc = true →
      replaceHint l txt hs = some (hs.set i { hs.get ⟨i, hi⟩ with text := some txt }) := by
  intro hs
  induction hs with
  | nil => intro i hi; simp at hi
  | cons h rest ih =>
    intro i hi hbefore hmatch
    cases i with
    | zero =>
      simp only [List.get] at hmatch
      simp [replaceHint, hmatch]
    | succ i =>
      have h0 : loc_eq l h.loc = false := hbefore 0 (Nat.succ_pos i)
      simp only [replaceHint, h0, Bool.false_eq_true, if_false]
      rw [ih i (Nat.lt_of_succ_lt_succ hi)
        (fun k hk => hbefore (k + 1) (Nat.succ_lt_succ hk)) hmatch]
      rfl

/-- Replacement keeps the number of hints. -/
theorem replaceHint_length (l : Loc) (txt : List Char) :
    ∀ (hs hs' : List DiagHint), replaceHint l txt hs = some hs' → hs'.length = hs.length := by
  intro hs
  induction hs with
  | nil => intro hs' h; simp [replaceHint] at h
  | cons h rest ih =>
    intro hs' hrep
    simp only [replaceHint] at hrep
    by_cases hl : loc_eq l h.loc = true
    · rw [if_pos hl] at hrep
      cases hrep
      simp
    · rw [if_neg hl] at hrep
      rw [Option.map_eq_some'] at hrep
      obtain ⟨hs'', hrep', rfl⟩ := hrep
      simp [ih hs'' hrep']

/-- Replacement keeps every hint's priority. -/
theorem replaceHint_priority (l : Loc) (txt : List Char) :
    ∀ (hs hs' : List DiagHint), replaceHint l txt hs = some hs' →
      ∀ i (h1 : i < hs'.length) (h2 : i < hs.length),
        (hs'.get ⟨i, h1⟩).priority = (hs.get ⟨i, h2⟩).priority := by
  intro hs
  induction hs with
  | nil => intro hs' h; simp [replaceHint] at h
  | cons h rest ih =>
    intro hs' hrep
    simp only [replaceHint] at hrep
    by_cases hl : loc_eq l h.loc = true
    · rw [if_pos hl] at hrep
      cases hrep
      intro i h1 h2
      cases i with
      | zero => rfl
      | succ i => rfl
    · rw [if_neg hl] at hrep
      rw [Option.map_eq_some'] at hrep
      obtain ⟨hs'', hrep', rfl⟩ := hrep
      intro i h1 h2
      cases i with
      | zero => rfl
      | succ i =>
        simp only [List.length_cons] at h1 h2
        exact ih hs'' hrep' i (Nat.lt_of_succ_lt_succ h1) (Nat.lt_of_succ_lt_succ h2)

/-- C8 counterexample: seed a diagnostic at file 0 line 1, then add two
hints at file 0 line 2 (different columns).  They get priorities -1 and
-2 by insertion order, so under the ascending `diag_compar` sort the
*later*-added hint comes first: the claim that earlier-added hints sort
first is false. -/
theorem diag_hint_order_ce :
    (diag_hint (diag_hint (diag_new .error (some ⟨1, 0, 0, 0, 0⟩))
        (some ⟨2, 0, 0, 0, 0⟩) ['x']) (some ⟨2, 5, 0, 0, 0⟩) ['y']).hints =
      [⟨⟨1, 0, 0, 0, 0⟩, none, 0⟩,
       ⟨⟨2, 0, 0, 0, 0⟩, some ['x'], -1⟩,
       ⟨⟨2, 5, 0, 0, 0⟩, some ['y'], -2⟩] ∧
    0 < diag_compar ⟨⟨2, 0, 0, 0, 0⟩, some ['x'], -1⟩
        ⟨⟨2, 5, 0, 0, 0⟩, some ['y'], -2⟩ := by
  constructor
  · rfl
  · decide

/-- C8 amended: `diag_hint` with a valid location equal to an existing
hint's location replaces that (first such) hint's text in place;
otherwise it appends a new hint whose priority is the negated current
hint count (hence non-positive, and equal to the negated index), so
that, when hints on the same file and line are sorted for emission
(lower priority first), *later*-added hints sort first. -/
theorem diag_hint_behaviour (d : Diag) (l : Loc) (txt : List Char)
    (hval : loc_invalid_p l = false) (hinv : HintPriorityInv d) :
    ((∀ h ∈ d.hints, loc_eq l h.loc = false) →
      (diag_hint d (some l) txt).hints =
        d.hints ++ [⟨l, some txt, -(d.hints.length : Int)⟩] ∧
      -(d.hints.length : Int) ≤ 0) ∧
    (∀ i (hi : i < d.hints.length),
      (∀ k (hk : k < i), loc_eq l (d.hints.get ⟨k, Nat.lt_trans hk hi⟩).loc = false) →
      loc_eq l (d.hints.get ⟨i, hi⟩).loc = true →
      (diag_hint d (some l) txt).hints =
        d.hints.set i { d.hints.get ⟨i, hi⟩ with text := some txt }) ∧
    HintPriorityInv (diag_hint d (some l) txt) ∧
    (∀ i j (hi : i < d.hints.length) (hj : j < d.hints.length), i < j →
      (d.hints.get ⟨i, hi⟩).loc.file_ref = (d.hints.get ⟨j, hj⟩).loc.file_ref →
      (d.hints.get ⟨i, hi⟩).loc.first_line = (d.hints.get ⟨j, hj⟩).loc.first_line →
      0 < diag_compar (d.hints.get ⟨i, hi⟩) (d.hints.get ⟨j, hj⟩)) := by
  refine ⟨?_, ?_, ?_, ?_⟩
  · intro hnone
    have hrep : replaceHint l txt d.hints = none := (replaceHint_eq_none l txt d.hints).mpr hnone
    simp [diag_hint, hval, hrep]
  · intro i hi hbefore hmatch
    have hrep := replaceHint_eq_set l txt d.hints i hi hbefore hmatch
    simp [diag_hint, hval, hrep]
  · cases hrep : replaceHint l txt d.hints with
    | none =>
      simp only [diag_hint, hval, hrep, Bool.false_eq_true, if_false]
      intro i h
      have h' : i < (d.hints ++ [(⟨l, some txt, -(d.hints.length : Int)⟩ : DiagHint)]).length := h
      have hlen2 : i < d.hints.length + 1 := by simpa using h'
      show ((d.hints ++ [(⟨l, some txt, -(d.hints.length : Int)⟩ : DiagHint)]).get
        ⟨i, h'⟩).priority = -(i : Int)
      rcases Nat.lt_or_ge i d.hints.length with hlt | hge
      · rw [List.get_eq_getElem, List.getElem_append_left hlt]
        exact hinv i hlt
      · have : i = d.hints.length := by omega
        subst this
        simp
    | some hs =>
      have hlen : hs.length = d.hints.length := replaceHint_length l txt d.hints hs hrep
      simp only [diag_hint, hval, hrep, Bool.false_eq_true, if_false]
      intro i h
      have h' : i < hs.length := h
      show (hs.get ⟨i, h'⟩).priority = -(i : Int)
      rw [replaceHint_priority l txt d.hints hs hrep i h' (by omega)]
      exact hinv i (by omega)
  · intro i j hi hj hij hfile hline
    have pi := hinv i hi
    have pj := hinv j hj
    simp only [diag_compar, hfile, hline]
    simp only [ne_eq, not_true_eq_false, if_false, pi, pj]
    omega

/-- C8 witness: the amended behaviour theorem applied to a concrete
diagnostic with one seeded hint, showing the append case produces
priority -1. -/
theorem diag_hint_behaviour_witness :
    loc_invalid_p ⟨2, 0, 0, 0, 0⟩ = false ∧
    (diag_hint (diag_new .error (some ⟨1, 0, 0, 0, 0⟩))
        (some ⟨2, 0, 0, 0, 0⟩) ['x']).hints =
      [⟨⟨1, 0, 0, 0, 0⟩, none, 0⟩, ⟨⟨2, 0, 0, 0, 0⟩, some ['x'], -1⟩] := by
  have hinv : HintPriorityInv (diag_new .error (some ⟨1, 0, 0, 0, 0⟩)) := by
    have hh : (diag_new .error (some ⟨1, 0, 0, 0, 0⟩)).hints =
        [⟨⟨1, 0, 0, 0, 0⟩, none, 0⟩] := by decide
    intro i h
    rw [hh] at h
    simp only [List.length_cons, List.length_nil] at h
    have : i = 0 := by omega
    subst this
    rfl
  have :=
    (diag_hint_behaviour (diag_new .error (some ⟨1, 0, 0, 0, 0⟩))
      ⟨2, 0, 0, 0, 0⟩ ['x'] (by decide) hinv).1
  refine ⟨by decide, ?_⟩
  have happ := this (by decide)
  rw [happ.1]
  rfl

/-- A step that returns its accumulator unchanged satisfies `bwStep`
whenever well-formedness forces the read list empty. -/
theorem bwStep_self {w : List Tree} {wf : Bool} {ds : List Nat}
    (h : wf = true → ds = []) : bwStep w w wf ds := by
  refine ⟨List.prefix_refl w, id, fun hwf d hd => ?_⟩
  rw [h hwf] at hd
  exact absurd hd (List.not_mem_nil d)

/-- Two `bwStep`s compose, concatenating the covered reads. -/
theorem bwStep_seq {w w1 out : List Tree} {wf : Bool} {ds1 ds2 : List Nat}
    (h1 : bwStep w w1 wf ds1) (h2 : bwStep w1 out wf ds2) :
    bwStep w out wf (ds1 ++ ds2) := by
  obtain ⟨p1, n1, c1⟩ := h1
  obtain ⟨p2, n2, c2⟩ := h2
  refine ⟨p1.trans p2, fun h => n2 (n1 h), fun hwf d hd => ?_⟩
  rcases List.mem_append.1 hd with hd | hd
  · obtain ⟨t, ht, hb⟩ := c1 hwf d hd
    exact ⟨t, p2.subset ht, hb⟩
  · exact c2 hwf d hd

/-- Well-formedness of a `bwStep` can be strengthened. -/
theorem bwStep_weaken {w out : List Tree} {wf wf2 : Bool} {ds : List Nat}
    (h : bwStep w out wf ds) (hw : wf2 = true → wf = true) :
    bwStep w out wf2 ds :=
  ⟨h.1, h.2.1, fun hwf => h.2.2 (hw hwf)⟩

/-- The covered reads of a `bwStep` may shrink. -/
theorem bwStep_sub {w out : List Tree} {wf : Bool} {ds ds2 : List Nat}
    (h : bwStep w out wf ds) (hs : wf = true → ds2 ⊆ ds) :
    bwStep w out wf ds2 :=
  ⟨h.1, h.2.1, fun hwf d hd => h.2.2 hwf d (hs hwf hd)⟩

/-- The structural half of a `bwStep` holds for any well-formedness
flag with no covered reads. -/
theorem bwStep_forget {w out : List Tree} {wf wf2 : Bool} {ds : List Nat}
    (h : bwStep w out wf ds) : bwStep w out wf2 [] :=
  ⟨h.1, h.2.1, fun _ d hd => absurd hd (List.not_mem_nil d)⟩

/-- Transport of a `bwStep` along an equality of read lists. -/
theorem bwStep_ds_eq {w out : List Tree} {wf : Bool} {ds ds2 : List Nat}
    (h : bwStep w out wf ds) (he : ds2 = ds) : bwStep w out wf ds2 :=
  he ▸ h

/-- `refDeclIds` distributes over append. -/
theorem refDeclIds_append (w1 w2 : List Tree) :
    refDeclIds (w1 ++ w2) = refDeclIds w1 ++ refDeclIds w2 :=
  List.filterMap_append w1 w2 _

/-- Appending a whole sliced name as a trigger: the `T_REF` triggers
are untouched and the base signal is covered. -/
theorem bwStep_append_slice {w : List Tree} {v : Tree} {rs : List Tree} {wf : Bool} :
    bwStep w (w ++ [Tree.arraySlice v rs]) wf (baseDeclId v).toList := by
  refine ⟨⟨[Tree.arraySlice v rs], rfl⟩, ?_, fun _ d hd => ?_⟩
  · intro h
    rw [refDeclIds_append]
    simpa [refDeclIds] using h
  · cases hb : baseDeclId v with
    | none => rw [hb] at hd; exact absurd hd (List.not_mem_nil d)
    | some j =>
      rw [hb] at hd
      simp only [Option.toList_some, List.mem_singleton] at hd
      subst hd
      exact ⟨Tree.arraySlice v rs, by simp, by simp [baseDeclId, hb]⟩

/-- Appending a whole indexed name as a trigger: the `T_REF` triggers
are untouched and the base signal is covered. -/
theorem bwStep_append_index {w : List Tree} {v : Tree} {ps : List Tree} {wf : Bool} :
    bwStep w (w ++ [Tree.arrayRef v ps]) wf (baseDeclId v).toList := by
  refine ⟨⟨[Tree.arrayRef v ps], rfl⟩, ?_, fun _ d hd => ?_⟩
  · intro h
    rw [refDeclIds_append]
    simpa [refDeclIds] using h
  · cases hb : baseDeclId v with
    | none => rw [hb] at hd; exact absurd hd (List.not_mem_nil d)
    | some j =>
      rw [hb] at hd
      simp only [Option.toList_some, List.mem_singleton] at hd
      subst hd
      exact ⟨Tree.arrayRef v ps, by simp, by simp [baseDeclId, hb]⟩

/-- Appending a reference trigger that passed the duplicate test keeps
the `T_REF` triggers duplicate-free and covers its declaration. -/
theorem bwStep_append_ref {w : List Tree} {i : Nat} {decl : Tree} {f : TFlags}
    {wf : Bool} (hnd : w.any (isRefToSameDecl decl) = false) :
    bwStep w (w ++ [Tree.ref i decl f]) wf (treeDeclId decl).toList := by
  refine ⟨⟨[Tree.ref i decl f], rfl⟩, ?_, fun _ d hd => ?_⟩
  · intro h
    rw [refDeclIds_append]
    cases hid : treeDeclId decl with
    | none => simpa [refDeclIds, hid] using h
    | some j =>
      have hj : j ∉ refDeclIds w := by
        intro hmem
        rw [refDeclIds, List.mem_filterMap] at hmem
        obtain ⟨t, htw, hmt⟩ := hmem
        have hfalse := (List.any_eq_false.1 hnd) t htw
        cases t <;> simp at hmt
        rename_i i0 d0 f0
        simp only [isRefToSameDecl, hid, hmt, beq_self_eq_true] at hfalse
        exact hfalse trivial
      have hone : refDeclIds [Tree.ref i decl f] = [j] := by
        simp [refDeclIds, hid]
      rw [hone]
      refine List.Nodup.append h (List.nodup_singleton j) ?_
      intro b hb hbj
      rw [List.mem_singleton] at hbj
      subst hbj
      exact hj hb
  · cases hid : treeDeclId decl with
    | none => rw [hid] at hd; exact absurd hd (List.not_mem_nil d)
    | some j =>
      rw [hid] at hd
      simp only [Option.toList_some, List.mem_singleton] at hd
      subst hd
      exact ⟨Tree.ref i decl f, by simp, by simp [baseDeclId, hid]⟩

/-- A reference that failed the duplicate test is already covered by an
existing `T_REF` trigger. -/
theorem bwStep_dup_ref {w : List Tree} {decl : Tree} {wf : Bool}
    (hd : w.any (isRefToSameDecl decl) = true) :
    bwStep w w wf (treeDeclId decl).toList := by
  refine ⟨List.prefix_refl w, id, fun _ d hdm => ?_⟩
  obtain ⟨t, htw, hmt⟩ := List.any_eq_true.1 hd
  cases hid : treeDeclId decl with
  | none => rw [hid] at hdm; exact absurd hdm (List.not_mem_nil d)
  | some j =>
    rw [hid] at hdm
    simp only [Option.toList_some, List.mem_singleton] at hdm
    subst hdm
    cases t <;> simp [isRefToSameDecl, hid] at hmt
    rename_i i0 d0 f0
    exact ⟨Tree.ref i0 d0 f0, htw, by simp [baseDeclId, hmt]⟩

set_option maxHeartbeats 2000000 in
/-- Joint induction over the mutual recursion of `simp_build_wait`:
every successful walk extends its trigger list, preserves freedom from
duplicate `T_REF` triggers, and covers the statically visible signal
reads of well-formed input. -/
theorem bw_main (all : Bool) : ∀ w e, BwP all w e := by
  apply Nvc.simp_build_wait.induct all (BwP all) (BwPList all) (BwPParams all)
    (BwPAssocs all) (BwPPorts all) (BwPTarget all)
  -- T_REF, signal class, already a trigger
  · intro w i decl f hc hdup out h
    simp only [simp_build_wait, hc, eq_self_iff_true, if_true, hdup,
      Option.some.injEq] at h
    subst h
    refine bwStep_ds_eq (bwStep_dup_ref hdup) ?_
    simp [specSignalReads, hc]
  -- T_REF, signal class, appended
  · intro w i decl f hc hnd out h
    simp only [simp_build_wait, hc, eq_self_iff_true, if_true, hnd,
      Bool.false_eq_true, if_false, Option.some.injEq] at h
    subst h
    refine bwStep_ds_eq (bwStep_append_ref (Bool.eq_false_iff.mpr hnd)) ?_
    simp [specSignalReads, hc]
  -- T_REF, not a signal
  · intro w i decl f hc out h
    simp only [simp_build_wait, hc, if_false, Option.some.injEq] at h
    subst h
    refine bwStep_self ?_
    intro _
    simp [specSignalReads, hc]
  -- T_ARRAY_SLICE, signal class, static prefix is the whole name
  · intro w v rs hc hl out h
    simp only [simp_build_wait, hc, eq_self_iff_true, if_true, hl,
      Option.some.injEq] at h
    subst h
    refine bwStep_ds_eq bwStep_append_slice ?_
    simp [specSignalReads, hl, hc]
  -- T_ARRAY_SLICE, signal class, dynamic: value then first range
  · intro w v rs hc hnl ihv iht out h
    simp only [simp_build_wait, hc, eq_self_iff_true, if_true, hnl,
      Bool.false_eq_true, if_false, Option.bind_eq_bind] at h
    rw [Option.bind_eq_some] at h
    obtain ⟨w1, h1, h2⟩ := h
    have H1 := ihv w1 h1
    have H2 := iht w1 out h2
    simp only [bwWf, specSignalReads, hc, eq_self_iff_true, if_true, hnl,
      Bool.false_eq_true, if_false]
    refine bwStep_seq (bwStep_weaken H1 ?_) (bwStep_weaken H2 ?_)
    · intro hw
      simp only [Bool.and_eq_true] at hw
      tauto
    · intro hw
      simp only [Bool.and_eq_true] at hw
      tauto
  -- T_ARRAY_SLICE, not a signal
  · intro w v rs hc out h
    simp only [simp_build_wait, hc, if_false, Option.some.injEq] at h
    subst h
    refine bwStep_self ?_
    intro hw
    by_cases hl : lspSelf (Tree.arraySlice v rs) = true
    · simp [specSignalReads, hl, hc]
    · simp [bwWf, hl, hc] at hw
  -- T_WAVEFORM with a value
  · intro w delay vv ih out h
    simp only [simp_build_wait] at h
    have H := ih out h
    cases delay with
    | none =>
      refine bwStep_sub (bwStep_weaken H ?_) ?_
      · intro hw
        simp only [bwWf, Bool.and_true] at hw
        exact hw
      · intro hw
        simp [specSignalReads]
    | some dl =>
      refine bwStep_sub (bwStep_weaken H ?_) ?_
      · intro hw
        simp only [bwWf, Bool.and_eq_true] at hw
        exact hw.1
      · intro hw
        simp only [bwWf, Bool.and_eq_true, List.isEmpty_iff] at hw
        simp [specSignalReads, hw.2]
  -- T_WAVEFORM without a value
  · intro w delay out h
    simp only [simp_build_wait, Option.some.injEq] at h
    subst h
    refine bwStep_self ?_
    intro hw
    cases delay with
    | none => simp [specSignalReads]
    | some dl =>
      simp only [bwWf, Bool.true_and, List.isEmpty_iff] at hw
      simp [specSignalReads, hw]
  -- T_RECORD_REF
  · intro w ident v ih out h
    simp only [simp_build_wait] at h
    simpa [bwWf, specSignalReads] using ih out h
  -- T_QUALIFIED
  · intro w ty v ih out h
    simp only [simp_build_wait] at h
    simpa [bwWf, specSignalReads] using ih out h
  -- T_TYPE_CONV
  · intro w ty v ih out h
    simp only [simp_build_wait] at h
    simpa [bwWf, specSignalReads] using ih out h
  -- T_ASSERT with a value
  · intro w ident severity message vv ih out h
    simp only [simp_build_wait] at h
    have H := ih out h
    cases message with
    | none =>
      refine bwStep_sub (bwStep_weaken H ?_) ?_
      · intro hw
        simp only [bwWf, Bool.and_true, Bool.and_eq_true] at hw
        exact hw.1
      · intro hw
        simp only [bwWf, Bool.and_true, Bool.and_eq_true, List.isEmpty_iff] at hw
        simp [specSignalReads, hw.2]
    | some m =>
      refine bwStep_sub (bwStep_weaken H ?_) ?_
      · intro hw
        simp only [bwWf, Bool.and_eq_true, List.isEmpty_iff] at hw
        exact hw.1.1
      · intro hw
        simp only [bwWf, Bool.and_eq_true, List.isEmpty_iff] at hw
        simp [specSignalReads, hw.1.2, hw.2]
  -- T_ASSERT without a value
  · intro w ident severity message out h
    simp only [simp_build_wait, Option.some.injEq] at h
    subst h
    refine bwStep_self ?_
    intro hw
    cases message with
    | none =>
      simp only [bwWf, Bool.true_and, Bool.and_true, List.isEmpty_iff] at hw
      simp [specSignalReads, hw]
    | some m =>
      simp only [bwWf, Bool.true_and, Bool.and_eq_true, List.isEmpty_iff] at hw
      simp [specSignalReads, hw.1, hw.2]
  -- T_ARRAY_REF, signal class, static prefix is the whole name
  · intro w v ps hc hl out h
    simp only [simp_build_wait, hc, eq_self_iff_true, if_true, hl,
      Option.some.injEq] at h
    subst h
    refine bwStep_ds_eq bwStep_append_index ?_
    simp [specSignalReads, hl, hc]
  -- T_ARRAY_REF, signal class, dynamic: value then indices
  · intro w v ps hc hnl ihv iht out h
    simp only [simp_build_wait, hc, eq_self_iff_true, if_true, hnl,
      Bool.false_eq_true, if_false, Option.bind_eq_bind] at h
    rw [Option.bind_eq_some] at h
    obtain ⟨w1, h1, h2⟩ := h
    have H1 := ihv w1 h1
    have H2 := iht w1 out h2
    simp only [bwWf, specSignalReads, hc, eq_self_iff_true, if_true, hnl,
      Bool.false_eq_true, if_false]
    refine bwStep_seq (bwStep_weaken H1 ?_) (bwStep_weaken H2 ?_)
    · intro hw
      simp only [Bool.and_eq_true] at hw
      tauto
    · intro hw
      simp only [Bool.and_eq_true] at hw
      tauto
  -- T_ARRAY_REF, not a signal
  · intro w v ps hc out h
    simp only [simp_build_wait, hc, if_false, Option.some.injEq] at h
    subst h
    refine bwStep_self ?_
    intro hw
    by_cases hl : lspSelf (Tree.arrayRef v ps) = true
    · simp [specSignalReads, hl, hc]
    · simp [bwWf, hl, hc] at hw
  -- T_FCALL of a subprogram declaration
  · intro w ident ty flags ps di i i2 tk sk fl ports stmts ih5 ihb out h
    simp only [simp_build_wait, Option.bind_eq_bind] at h
    rw [Option.bind_eq_some] at h
    obtain ⟨w1, h1, h2⟩ := h
    have H1 := ih5 w1 h1
    split at h2
    · have h2a : simp_build_wait all w1
          (Tree.subprogDecl di i i2 tk sk fl ports stmts) = some out := by
        simp only [simp_build_wait]
        exact h2
      have H2 := ihb w1 out h2a
      have HH := bwStep_seq H1 (bwStep_forget H2)
      refine bwStep_ds_eq (bwStep_weaken HH ?_) ?_
      · intro hw
        simpa [bwWf] using hw
      · simp [specSignalReads]
    · rw [Option.some.injEq] at h2
      subst h2
      refine bwStep_ds_eq (bwStep_weaken H1 ?_) ?_
      · intro hw
        simpa [bwWf] using hw
      · simp [specSignalReads]
  -- T_FCALL of anything else: assertion failure
  · intro w ident decl ty flags ps hx out h
    exfalso
    cases decl <;>
      first
        | exact hx _ _ _ _ _ _ _ _ rfl
        | simp [simp_build_wait] at h
  -- T_PCALL of a subprogram declaration
  · intro w ident ident2 ps di i i2 tk sk fl ports stmts ih5 ihb out h
    simp only [simp_build_wait, Option.bind_eq_bind] at h
    rw [Option.bind_eq_some] at h
    obtain ⟨w1, h1, h2⟩ := h
    have H1 := ih5 w1 h1
    split at h2
    · have h2a : simp_build_wait all w1
          (Tree.subprogDecl di i i2 tk sk fl ports stmts) = some out := by
        simp only [simp_build_wait]
        exact h2
      have H2 := ihb w1 out h2a
      have HH := bwStep_seq H1 (bwStep_forget H2)
      refine bwStep_ds_eq (bwStep_weaken HH ?_) ?_
      · intro hw
        simpa [bwWf] using hw
      · simp [specSignalReads]
    · rw [Option.some.injEq] at h2
      subst h2
      refine bwStep_ds_eq (bwStep_weaken H1 ?_) ?_
      · intro hw
        simpa [bwWf] using hw
      · simp [specSignalReads]
  -- T_PCALL of anything else: assertion failure
  · intro w ident ident2 decl ps hx out h
    exfalso
    cases decl <;>
      first
        | exact hx _ _ _ _ _ _ _ _ rfl
        | simp [simp_build_wait] at h
  -- T_AGGREGATE
  · intro w ty asl ih4 out h
    simp only [simp_build_wait] at h
    simpa [bwWf, specSignalReads] using ih4 out h
  -- T_ATTR_REF, 'EVENT or 'ACTIVE
  · intro w ident predef ty nm ps value hor ih3 ihnm out h
    simp only [simp_build_wait, Option.bind_eq_bind] at h
    rw [if_pos hor] at h
    rw [Option.bind_eq_some] at h
    obtain ⟨w1, h1, h2⟩ := h
    have H1 := ihnm w1 h1
    have H2 := ih3 w1 out h2
    cases value with
    | none =>
      refine bwStep_sub (bwStep_seq (bwStep_weaken H1 ?_) (bwStep_weaken H2 ?_)) ?_
      · intro hw
        simp only [bwWf, Bool.and_true, Bool.and_eq_true] at hw
        rw [if_pos hor] at hw
        exact hw.1
      · intro hw
        simp only [bwWf, Bool.and_true, Bool.and_eq_true] at hw
        exact hw.2
      · intro hw
        simp [specSignalReads, if_pos hor]
    | some x =>
      refine bwStep_sub (bwStep_seq (bwStep_weaken H1 ?_) (bwStep_weaken H2 ?_)) ?_
      · intro hw
        simp only [bwWf, Bool.and_eq_true] at hw
        rw [if_pos hor] at hw
        exact hw.1.1
      · intro hw
        simp only [bwWf, Bool.and_eq_true] at hw
        exact hw.1.2
      · intro hw
        simp only [bwWf, Bool.and_eq_true, List.isEmpty_iff] at hw
        simp [specSignalReads, if_pos hor, hw.2]
  -- T_ATTR_REF, other predefined attribute
  · intro w ident predef ty nm ps value hnor ih3 out h
    simp only [simp_build_wait, Option.bind_eq_bind] at h
    rw [if_neg hnor] at h
    simp only [Option.some_bind] at h
    have H := ih3 w out h
    cases value with
    | none =>
      refine bwStep_sub (bwStep_weaken H ?_) ?_
      · intro hw
        simp only [bwWf, Bool.and_true, Bool.and_eq_true] at hw
        exact hw.2
      · intro hw
        simp only [bwWf, Bool.and_true, Bool.and_eq_true, List.isEmpty_iff] at hw
        rw [if_neg hnor] at hw
        simp [specSignalReads, if_neg hnor, hw.1]
    | some x =>
      refine bwStep_sub (bwStep_weaken H ?_) ?_
      · intro hw
        simp only [bwWf, Bool.and_eq_true] at hw
        exact hw.1.2
      · intro hw
        simp only [bwWf, Bool.and_eq_true, List.isEmpty_iff] at hw
        rw [if_neg hnor] at hw
        simp [specSignalReads, if_neg hnor, hw.1.1, hw.2]
  -- T_LITERAL (integer)
  · intro w ty v out h
    simp only [simp_build_wait, Option.some.injEq] at h
    subst h
    exact bwStep_self fun _ => by simp [specSignalReads]
  -- T_STRING
  · intro w ty chars out h
    simp only [simp_build_wait, Option.some.injEq] at h
    subst h
    exact bwStep_self fun _ => by simp [specSignalReads]
  -- T_IF
  · intro w ident c ss es ihc ihss ihes out h
    simp only [simp_build_wait, Option.bind_eq_bind] at h
    rw [Option.bind_eq_some] at h
    obtain ⟨w1, h1, h⟩ := h
    rw [Option.bind_eq_some] at h
    obtain ⟨w2, h2, h3⟩ := h
    have H1 := ihc w1 h1
    have H2 := ihss w1 w2 h2
    have H3 := ihes w2 out h3
    refine bwStep_ds_eq (bwStep_seq (bwStep_weaken H1 ?_)
      (bwStep_seq (bwStep_weaken H2 ?_) (bwStep_weaken H3 ?_))) ?_
    · intro hw
      simp only [bwWf, Bool.and_eq_true] at hw
      tauto
    · intro hw
      simp only [bwWf, Bool.and_eq_true] at hw
      tauto
    · intro hw
      simp only [bwWf, Bool.and_eq_true] at hw
      tauto
    · simp [specSignalReads, List.append_assoc]
  -- T_PROCESS
  · intro w ident flags triggers decls ss ih2 out h
    simp only [simp_build_wait] at h
    simpa [bwWf, specSignalReads] using ih2 out h
  -- T_BLOCK
  · intro w ident generics genmaps ports decls ss ih2 out h
    simp only [simp_build_wait] at h
    simpa [bwWf, specSignalReads] using ih2 out h
  -- procedure body scanned from a call
  · intro w id0 ident ident2 sk flags ports ss ih2 out h
    simp only [simp_build_wait, eq_self_iff_true, if_true] at h
    simpa [bwWf, specSignalReads] using ih2 out h
  -- subprogram that is not a procedure body: assertion failure
  · intro w id0 ident ident2 tk sk flags ports ss hne out h
    exfalso
    simp [simp_build_wait, hne] at h
  -- T_SIGNAL_ASSIGN
  · intro w ident target reject waves ih6 ihw out h
    simp only [simp_build_wait, Option.bind_eq_bind] at h
    rw [Option.bind_eq_some] at h
    obtain ⟨w1, h1, h2⟩ := h
    have H1 := ih6 w1 h1
    have H2 := ihw w1 out h2
    cases reject with
    | none =>
      refine bwStep_sub (bwStep_seq (bwStep_weaken H1 ?_) (bwStep_weaken H2 ?_)) ?_
      · intro hw
        simp only [bwWf, Bool.and_true, Bool.and_eq_true] at hw
        tauto
      · intro hw
        simp only [bwWf, Bool.and_true, Bool.and_eq_true] at hw
        tauto
      · intro hw
        simp [specSignalReads, List.append_assoc]
    | some r =>
      refine bwStep_sub (bwStep_seq (bwStep_weaken H1 ?_) (bwStep_weaken H2 ?_)) ?_
      · intro hw
        simp only [bwWf, Bool.and_eq_true] at hw
        tauto
      · intro hw
        simp only [bwWf, Bool.and_eq_true] at hw
        tauto
      · intro hw
        simp only [bwWf, Bool.and_eq_true, List.isEmpty_iff] at hw
        simp [specSignalReads, hw.1.2, List.append_assoc]
  -- T_VAR_ASSIGN
  · intro w ident target v ih6 ihv out h
    simp only [simp_build_wait, Option.bind_eq_bind] at h
    rw [Option.bind_eq_some] at h
    obtain ⟨w1, h1, h2⟩ := h
    have H1 := ih6 w1 h1
    have H2 := ihv w1 out h2
    refine bwStep_ds_eq (bwStep_seq (bwStep_weaken H1 ?_) (bwStep_weaken H2 ?_)) ?_
    · intro hw
      simp only [bwWf, Bool.and_eq_true] at hw
      tauto
    · intro hw
      simp only [bwWf, Bool.and_eq_true] at hw
      tauto
    · simp [specSignalReads]
  -- T_CASE
  · intro w ident v asl ihv ih4 out h
    simp only [simp_build_wait, Option.bind_eq_bind] at h
    rw [Option.bind_eq_some] at h
    obtain ⟨w1, h1, h2⟩ := h
    have H1 := ihv w1 h1
    have H2 := ih4 w1 out h2
    refine bwStep_ds_eq (bwStep_seq (bwStep_weaken H1 ?_) (bwStep_weaken H2 ?_)) ?_
    · intro hw
      simp only [bwWf, Bool.and_eq_true] at hw
      tauto
    · intro hw
      simp only [bwWf, Bool.and_eq_true] at hw
      tauto
    · simp [specSignalReads]
  -- T_FOR with a range
  · intro w ident ss r tail ihr ihss out h
    simp only [simp_build_wait, Option.bind_eq_bind] at h
    rw [Option.bind_eq_some] at h
    obtain ⟨w1, h1, h2⟩ := h
    have H1 := ihr w1 h1
    have H2 := ihss w1 out h2
    refine bwStep_ds_eq (bwStep_seq (bwStep_weaken H1 ?_) (bwStep_weaken H2 ?_)) ?_
    · intro hw
      simp only [bwWf, Bool.and_eq_true] at hw
      tauto
    · intro hw
      simp only [bwWf, Bool.and_eq_true] at hw
      tauto
    · simp [specSignalReads]
  -- T_FOR without a range: assertion failure
  · intro w ident ss out h
    exfalso
    simp [simp_build_wait] at h
  -- T_WHILE with a condition
  · intro w ident ss vv ihv ihss out h
    simp only [simp_build_wait, Option.bind_eq_bind] at h
    rw [Option.bind_eq_some] at h
    obtain ⟨w1, h1, h2⟩ := h
    have H1 := ihv w1 h1
    have H2 := ihss w1 out h2
    refine bwStep_ds_eq (bwStep_seq (bwStep_weaken H1 ?_) (bwStep_weaken H2 ?_)) ?_
    · intro hw
      simp only [bwWf, Bool.and_eq_true] at hw
      tauto
    · intro hw
      simp only [bwWf, Bool.and_eq_true] at hw
      tauto
    · simp [specSignalReads]
  -- T_WHILE without a condition: assertion failure
  · intro w ident ss out h
    exfalso
    simp [simp_build_wait] at h
  -- T_RANGE with bounds
  · intro w sub le ri ihle ihri out h
    simp only [simp_build_wait, Option.bind_eq_bind] at h
    rw [Option.bind_eq_some] at h
    obtain ⟨w1, h1, h2⟩ := h
    have H1 := ihle w1 h1
    have H2 := ihri w1 out h2
    refine bwStep_ds_eq (bwStep_seq (bwStep_weaken H1 ?_) (bwStep_weaken H2 ?_)) ?_
    · intro hw
      simp only [bwWf, Bool.and_eq_true] at hw
      tauto
    · intro hw
      simp only [bwWf, Bool.and_eq_true] at hw
      tauto
    · simp [specSignalReads]
  -- expression range
  · intro w v ih out h
    simp only [simp_build_wait] at h
    simpa [bwWf, specSignalReads] using ih out h
  -- default arm: fatal_trace
  · intro w expr hx1 hx2 hx3 hx4 hx5 hx6 hx7 hx8 hx9 hx10 hx11 hx12 hx13 hx14
      hx15 hx16 hx17 hx18 hx19 hx20 hx21 hx22 hx23 hx24 hx25 out h
    exfalso
    cases expr <;>
      first
        | exact hx1 _ _ _ rfl
        | exact hx2 _ _ rfl
        | exact hx3 _ _ rfl
        | exact hx4 _ _ rfl
        | exact hx5 _ _ rfl
        | exact hx6 _ _ rfl
        | exact hx7 _ _ _ _ rfl
        | exact hx8 _ _ rfl
        | exact hx9 _ _ _ _ _ rfl
        | exact hx10 _ _ _ _ rfl
        | exact hx11 _ _ rfl
        | exact hx12 _ _ _ _ _ _ rfl
        | exact hx13 _ _ rfl
        | exact hx14 _ _ rfl
        | exact hx15 _ _ _ _ rfl
        | exact hx16 _ _ _ _ _ rfl
        | exact hx17 _ _ _ _ _ _ rfl
        | exact hx18 _ _ _ _ _ _ _ _ rfl
        | exact hx19 _ _ _ _ rfl
        | exact hx20 _ _ _ rfl
        | exact hx21 _ _ _ rfl
        | exact hx22 _ _ _ rfl
        | exact hx23 _ _ _ rfl
        | exact hx24 _ _ _ rfl
        | exact hx25 _ rfl
        | simp [simp_build_wait] at h
  -- statement list: nil
  · intro w out h
    simp only [sbwList, Option.some.injEq] at h
    subst h
    exact bwStep_self fun _ => by simp [ssrList]
  -- statement list: cons
  · intro w e rest ih1 ih2 out h
    simp only [sbwList, Option.bind_eq_bind] at h
    rw [Option.bind_eq_some] at h
    obtain ⟨w1, h1, h2⟩ := h
    refine bwStep_ds_eq (bwStep_seq (bwStep_weaken (ih1 w1 h1) ?_)
      (bwStep_weaken (ih2 w1 out h2) ?_)) ?_
    · intro hw
      simp only [bwWfList, Bool.and_eq_true] at hw
      tauto
    · intro hw
      simp only [bwWfList, Bool.and_eq_true] at hw
      tauto
    · simp [ssrList]
  -- parameter values: nil
  · intro w out h
    simp only [sbwParamValues, Option.some.injEq] at h
    subst h
    exact bwStep_self fun _ => by simp [ssrParamValues]
  -- parameter values: cons
  · intro w sub name v rest ih1 ih2 out h
    simp only [sbwParamValues, Option.bind_eq_bind] at h
    rw [Option.bind_eq_some] at h
    obtain ⟨w1, h1, h2⟩ := h
    refine bwStep_ds_eq (bwStep_seq (bwStep_weaken (ih1 w1 h1) ?_)
      (bwStep_weaken (ih2 w1 out h2) ?_)) ?_
    · intro hw
      simp only [bwWfParamValues, Bool.and_eq_true] at hw
      tauto
    · intro hw
      simp only [bwWfParamValues, Bool.and_eq_true] at hw
      tauto
    · simp [ssrParamValues]
  -- parameter values: malformed association
  · intro w ps hx1 hx2 out h
    exfalso
    cases ps with
    | nil => exact hx1 rfl
    | cons head rest =>
      cases head <;>
        first
          | exact hx2 _ _ _ _ rfl
          | simp [sbwParamValues] at h
  -- association values: nil
  · intro w out h
    simp only [sbwAssocValues, Option.some.injEq] at h
    subst h
    exact bwStep_self fun _ => by simp [ssrAssocValues]
  -- association values: cons
  · intro w sub name v rest ih1 ih2 out h
    simp only [sbwAssocValues, Option.bind_eq_bind] at h
    rw [Option.bind_eq_some] at h
    obtain ⟨w1, h1, h2⟩ := h
    refine bwStep_ds_eq (bwStep_seq (bwStep_weaken (ih1 w1 h1) ?_)
      (bwStep_weaken (ih2 w1 out h2) ?_)) ?_
    · intro hw
      simp only [bwWfAssocValues, Bool.and_eq_true] at hw
      tauto
    · intro hw
      simp only [bwWfAssocValues, Bool.and_eq_true] at hw
      tauto
    · simp [ssrAssocValues]
  -- association values: malformed association
  · intro w asl hx1 hx2 out h
    exfalso
    cases asl with
    | nil => exact hx1 rfl
    | cons head rest =>
      cases head
      case assocT sub name value =>
        cases value with
        | none => simp [sbwAssocValues] at h
        | some v => exact hx2 _ _ _ _ rfl
      all_goals simp [sbwAssocValues] at h
  -- parameters against ports: nil
  · intro w ports out h
    rw [sbwParamsPorts.eq_def] at h
    simp only [Option.some.injEq] at h
    subst h
    refine bwStep_self fun _ => ?_
    rw [ssrParamsPorts.eq_def]
  -- parameters against ports: in or inout actual
  · intro w ports sub name v rest mode hm ihrest ihv out h
    rw [sbwParamsPorts.eq_def] at h
    simp only [Option.bind_eq_bind] at h
    rw [if_pos hm] at h
    rw [Option.bind_eq_some] at h
    obtain ⟨w1, h1, h2⟩ := h
    have H1 := ihv w1 h1
    have H2 := ihrest w1 out h2
    refine bwStep_ds_eq (bwStep_seq (bwStep_weaken H1 ?_) (bwStep_weaken H2 ?_)) ?_
    · intro hw
      rw [bwWfParamsPorts.eq_def] at hw
      simp only [Bool.and_eq_true] at hw
      rw [if_pos hm] at hw
      exact hw.1
    · intro hw
      rw [bwWfParamsPorts.eq_def] at hw
      simp only [Bool.and_eq_true] at hw
      exact hw.2
    · rw [ssrParamsPorts.eq_def]
      simp [if_pos hm]
  -- parameters against ports: other modes are skipped
  · intro w ports sub name v rest mode hm ihrest out h
    rw [sbwParamsPorts.eq_def] at h
    simp only [Option.bind_eq_bind] at h
    rw [if_neg hm] at h
    simp only [Option.some_bind] at h
    have H := ihrest w out h
    refine bwStep_ds_eq (bwStep_weaken H ?_) ?_
    · intro hw
      rw [bwWfParamsPorts.eq_def] at hw
      simp only [Bool.and_eq_true] at hw
      exact hw.2
    · rw [ssrParamsPorts.eq_def]
      simp [if_neg hm]
  -- parameters against ports: malformed association
  · intro w ports ps hx1 hx2 out h
    exfalso
    cases ps with
    | nil => exact hx1 rfl
    | cons head rest =>
      cases head <;>
        first
          | exact hx2 _ _ _ _ rfl
          | simp [sbwParamsPorts] at h
  -- target: slice with a range
  · intro w value r tail ih out h
    simp only [simp_build_wait_for_target] at h
    simpa [bwWfTarget, ssrTarget] using ih out h
  -- target: slice without a range: assertion failure
  · intro w value out h
    exfalso
    simp [simp_build_wait_for_target] at h
  -- target: indexed name
  · intro w value ps ih3 out h
    simp only [simp_build_wait_for_target] at h
    simpa [bwWfTarget, ssrTarget] using ih3 out h
  -- target: anything else is left alone
  · intro w expr hx1 hx2 out h
    cases expr <;>
      first
        | exact (hx1 _ _ rfl).elim
        | exact (hx2 _ _ rfl).elim
        | (simp only [simp_build_wait_for_target, Option.some.injEq] at h
           subst h
           exact bwStep_self fun _ => by simp [ssrTarget])

/-- Counterexample to the no-duplicates half of C3: scanning an
aggregate that reads the statically indexed signal name `sCE(0)` twice
produces a trigger list whose two triggers both refer to the signal
declaration with identity 7 — the duplicate test of `simp_build_wait`
inspects only plain `T_REF` triggers, so whole indexed names are
appended unconditionally. -/
theorem simp_build_wait_dup_triggers_ce :
    simp_build_wait true [] eCE = some [tCE, tCE] ∧
    baseDeclId tCE = some 7 := by
  constructor
  · simp [eCE, tCE, sCE, simp_build_wait, sbwAssocValues, lspSelf,
      paramValueStatic, simp_is_static, class_of]
  · rfl

/-- **C3** (corrected).  For every expression or process body, a
successful `simp_build_wait` walk only appends to the incoming trigger
list; it never introduces two plain `T_REF` triggers referring to the
same signal declaration (the duplicate test covers only plain
references, so indexed or sliced trigger expressions can repeat a
declaration); and on well-formed input every statically visible signal
read is covered by some trigger referring to its declaration. -/
theorem simp_build_wait_triggers (all : Bool) (w : List Tree) (e : Tree)
    (out : List Tree) (h : simp_build_wait all w e = some out) :
    w <+: out ∧
    ((refDeclIds w).Nodup → (refDeclIds out).Nodup) ∧
    (bwWf e = true → ∀ d ∈ specSignalReads e,
      ∃ t ∈ out, baseDeclId t = some d) :=
  bw_main all w e out h

/-- Concrete instantiation of the corrected C3 theorem on the process
`eW`: its trigger list is the single reference to `sWb`, is free of
duplicate references, and covers the read of `sWb`. -/
theorem simp_build_wait_triggers_witness :
    ((refDeclIds ([] : List Tree)).Nodup →
      (refDeclIds [Tree.ref 202 sWb noFlags]).Nodup) ∧
    (bwWf eW = true → ∀ d ∈ specSignalReads eW,
      ∃ t ∈ [Tree.ref 202 sWb noFlags], baseDeclId t = some d) := by
  have h : simp_build_wait true [] eW = some [Tree.ref 202 sWb noFlags] := by
    simp [eW, sWa, sWb, simp_build_wait, sbwList, simp_build_wait_for_target,
      class_of]
  have H := simp_build_wait_triggers true [] eW [Tree.ref 202 sWb noFlags] h
  exact ⟨H.2.1, H.2.2⟩

/-- **C2** (confirmed).  An `if` whose condition folds to true is
replaced by its then-branch (the single statement directly, the
statements wrapped in a block otherwise); one whose condition folds to
false is replaced by its else-branch the same way, or deleted when
there is no else-part; one whose condition does not fold is returned
unchanged. -/
theorem simp_if_behaviour (i : Nat) (c : Tree) (ss es : List Tree) :
    (folded_bool c = some true → ss.length = 1 →
      simp_if (Tree.ifT i c ss es) = some ss.headI) ∧
    (folded_bool c = some true → ss.length ≠ 1 →
      simp_if (Tree.ifT i c ss es) = some (Tree.blockT i [] [] [] [] ss)) ∧
    (folded_bool c = some false → es.length = 0 →
      simp_if (Tree.ifT i c ss es) = none) ∧
    (folded_bool c = some false → es.length = 1 →
      simp_if (Tree.ifT i c ss es) = some es.headI) ∧
    (folded_bool c = some false → es.length ≠ 0 → es.length ≠ 1 →
      simp_if (Tree.ifT i c ss es) = some (Tree.blockT i [] [] [] [] es)) ∧
    (folded_bool c = none →
      simp_if (Tree.ifT i c ss es) = some (Tree.ifT i c ss es)) := by
  refine ⟨?_, ?_, ?_, ?_, ?_, ?_⟩ <;> intro hb
  · intro hl
    simp [simp_if, hb, hl]
  · intro hl
    simp [simp_if, hb, hl]
  · intro hl
    have h1 : es.length ≠ 1 := by omega
    simp [simp_if, hb, hl, h1]
  · intro hl
    simp [simp_if, hb, hl]
  · intro h0 h1
    simp [simp_if, hb, h0, h1]
  · simp [simp_if, hb]

/-- Concrete instantiation of the C2 theorem: a folded-true condition
keeps the single then-statement, a folded-false condition with no
else-part deletes the statement. -/
theorem simp_if_behaviour_witness :
    simp_if (Tree.ifT 0 cbTrue [Tree.nullT 1] []) = some (Tree.nullT 1) ∧
    simp_if (Tree.ifT 0 cbFalse [Tree.nullT 1] []) = none :=
  ⟨(simp_if_behaviour 0 cbTrue [Tree.nullT 1] []).1 rfl rfl,
   (simp_if_behaviour 0 cbFalse [Tree.nullT 1] []).2.2.1 rfl rfl⟩

/-- **C9** (confirmed).  A reference carrying the formal-name flag is
returned unchanged by `simp_ref` in every context: the early return
fires before the constant-initializer and generic-map substitutions are
reached, so in particular a generic substitution mapping its
declaration to a plain reference is not applied. -/
theorem simp_ref_formal_name (i : Nat) (decl : Tree) (fl : TFlags)
    (ctx : SimpCtx) (hf : fl.formalName = true) :
    simp_ref (Tree.ref i decl fl) ctx = some (Tree.ref i decl fl) := by
  simp [simp_ref, hf]

/-- Concrete instantiation of the C9 theorem: a formal-name reference
to a scalar constant with a literal initializer, in a context whose
generic substitution maps that declaration, is left unchanged. -/
theorem simp_ref_formal_name_witness :
    simp_ref (Tree.ref 5 cD { noFlags with formalName := true }) ctx0 =
      some (Tree.ref 5 cD { noFlags with formalName := true }) :=
  simp_ref_formal_name 5 cD { noFlags with formalName := true } ctx0 rfl

/-- **C10** (confirmed).  `simp_process` deletes a process with a
non-empty sensitivity list whose statement list has become empty, and a
process without a sensitivity list whose statement list is exactly one
wait statement. -/
theorem simp_process_deletes (i : Nat) (f : TFlags)
    (trigs decls stmts : List Tree) :
    (0 < trigs.length → stmts = [] →
      simp_process (Tree.processT i f trigs decls stmts) = some none) ∧
    (trigs = [] → ∀ wi wf wv wt, stmts = [Tree.waitT wi wf wv wt] →
      simp_process (Tree.processT i f trigs decls stmts) = some none) := by
  constructor
  · intro ht hs
    subst hs
    simp [simp_process, ht]
  · intro ht wi wf wv wt hs
    subst ht hs
    simp [simp_process]

/-- Concrete instantiation of the C10 theorem on both deletion
shapes. -/
theorem simp_process_deletes_witness :
    simp_process (Tree.processT 0 noFlags [Tree.ref 90 sWb noFlags] [] []) =
      some none ∧
    simp_process
      (Tree.processT 0 noFlags [] [] [Tree.waitT 1 noFlags none []]) =
      some none :=
  ⟨(simp_process_deletes 0 noFlags [Tree.ref 90 sWb noFlags] [] []).1
      (by simp) rfl,
   (simp_process_deletes 0 noFlags [] [] [Tree.waitT 1 noFlags none []]).2
      rfl 1 noFlags none [] rfl⟩

/-- `resolveOpen` keeps a non-`open` actual and replaces `open` by the
port's default. -/
theorem resolveOpen_sound (port v v2 : Tree) (h : resolveOpen port v = some v2) :
    (¬v = Tree.openK ∧ v2 = v) ∨
    (v = Tree.openK ∧ portDefault port = some v2) := by
  cases v <;>
    first
      | exact Or.inr ⟨rfl, h⟩
      | exact Or.inl ⟨by simp, by simpa [resolveOpen] using h.symm⟩

/-- A successful named-argument search returns the value of a named
argument whose formal references the port, with `open` replaced by the
port's default. -/
theorem findNamedArg_sound (pid : Nat) (port : Tree) :
    ∀ (named : List Tree) (v2 : Tree), findNamedArg pid port named = some v2 →
    ∃ nd nf val,
      Tree.paramT PSub.named (some (Tree.ref pid nd nf)) val ∈ named ∧
      ((¬val = Tree.openK ∧ v2 = val) ∨
       (val = Tree.openK ∧ portDefault port = some v2)) := by
  intro named
  induction named with
  | nil => intro v2 h; simp [findNamedArg] at h
  | cons head rest ih =>
    intro v2 h
    cases head <;> try (rw [findNamedArg.eq_def] at h; simp at h; done)
    case paramT sub nm v =>
      cases sub <;> try (rw [findNamedArg.eq_def] at h; simp at h; done)
      case named =>
        cases nm with
        | none => rw [findNamedArg.eq_def] at h; simp at h
        | some nmt =>
          cases nmt <;> try (rw [findNamedArg.eq_def] at h; simp at h; done)
          case ref nid nd nf =>
            by_cases hpid : pid = nid
            · subst hpid
              simp only [findNamedArg, if_pos rfl] at h
              exact ⟨nd, nf, v, List.mem_cons_self _ _,
                resolveOpen_sound port v v2 h⟩
            · simp only [findNamedArg, if_neg hpid] at h
              obtain ⟨nd2, nf2, val, hmem, hor⟩ := ih v2 h
              exact ⟨nd2, nf2, val, List.mem_cons_of_mem _ hmem, hor⟩

/-- Soundness of the positional-prefix resolution: the output keeps
each original value at its index (`open` replaced by the port's
default) as a positional parameter. -/
theorem resolvePosArgs_sound :
    ∀ (n : Nat) (ports ps out : List Tree),
      resolvePosArgs ports ps n = some out →
      out.length = n ∧ n ≤ ports.length ∧
      (∀ p ∈ out, ∃ v, p = Tree.paramT PSub.pos none v) ∧
      (∀ k, k < n →
        ∃ sub nm v v2, ps[k]? = some (Tree.paramT sub nm v) ∧
          out[k]? = some (Tree.paramT PSub.pos none v2) ∧
          ((¬v = Tree.openK ∧ v2 = v) ∨
           (v = Tree.openK ∧ ∃ pd, ports[k]? = some pd ∧
              portDefault pd = some v2))) := by
  intro n
  induction n with
  | zero =>
    intro ports ps out h
    rw [resolvePosArgs.eq_def] at h
    simp only [Option.some.injEq] at h
    subst h
    exact ⟨rfl, Nat.zero_le _, by simp, fun k hk => absurd hk (Nat.not_lt_zero k)⟩
  | succ n ih =>
    intro ports ps out h
    cases ports with
    | nil => rw [resolvePosArgs.eq_def] at h; simp at h
    | cons port qs =>
      cases ps with
      | nil => rw [resolvePosArgs.eq_def] at h; simp at h
      | cons p rs =>
        cases p <;> try (rw [resolvePosArgs.eq_def] at h; simp at h; done)
        case paramT sub nm v =>
          rw [resolvePosArgs.eq_def] at h
          simp only [Option.bind_eq_bind] at h
          rw [Option.bind_eq_some] at h
          obtain ⟨v2, hv2, h⟩ := h
          rw [Option.bind_eq_some] at h
          obtain ⟨rest, hrest, h⟩ := h
          simp only [Option.some.injEq] at h
          subst h
          obtain ⟨hlen, hple, hpos, hk⟩ := ih qs rs rest hrest
          refine ⟨by simp [hlen], by simp; omega, ?_, ?_⟩
          · intro p hp
            rcases List.mem_cons.1 hp with hp | hp
            · exact ⟨v2, hp⟩
            · exact hpos p hp
          · intro k hkn
            cases k with
            | zero =>
              refine ⟨sub, nm, v, v2, by simp, by simp, ?_⟩
              rcases resolveOpen_sound port v v2 hv2 with h3 | ⟨hv, hd⟩
              · exact Or.inl h3
              · exact Or.inr ⟨hv, port, by simp, hd⟩
            | succ k =>
              obtain ⟨sub2, nm2, v3, v4, h1, h2, h3⟩ := hk k (by omega)
              refine ⟨sub2, nm2, v3, v4, by simpa using h1, by simpa using h2, ?_⟩
              rcases h3 with h3 | ⟨hv, pd, hpd, hd⟩
              · exact Or.inl h3
              · exact Or.inr ⟨hv, pd, by simpa using hpd, hd⟩

/-- Soundness of the named-argument resolution: the output has one
positional parameter per remaining port, in port order, whose value the
named-argument search found for that port. -/
theorem resolveNamedArgs_sound (named : List Tree) :
    ∀ (ports out : List Tree), resolveNamedArgs named ports = some out →
      out.length = ports.length ∧
      (∀ p ∈ out, ∃ v, p = Tree.paramT PSub.pos none v) ∧
      (∀ (k : Nat) (pd : Tree), ports[k]? = some pd →
        ∃ pid v2, portIdentOf pd = some pid ∧
          out[k]? = some (Tree.paramT PSub.pos none v2) ∧
          findNamedArg pid pd named = some v2) := by
  intro ports
  induction ports with
  | nil =>
    intro out h
    rw [resolveNamedArgs.eq_def] at h
    simp only [Option.some.injEq] at h
    subst h
    refine ⟨rfl, by simp, ?_⟩
    intro k pd hpd
    rw [List.getElem?_nil] at hpd
    exact absurd hpd (by simp)
  | cons port qs ih =>
    intro out h
    simp only [resolveNamedArgs, Option.bind_eq_bind] at h
    rw [Option.bind_eq_some] at h
    obtain ⟨pid, hpid, h⟩ := h
    rw [Option.bind_eq_some] at h
    obtain ⟨v, hv, h⟩ := h
    rw [Option.bind_eq_some] at h
    obtain ⟨rest, hrest, h⟩ := h
    simp only [Option.some.injEq] at h
    subst h
    obtain ⟨hlen, hpos, hk⟩ := ih rest hrest
    refine ⟨by simp [hlen], ?_, ?_⟩
    · intro p hp
      rcases List.mem_cons.1 hp with hp | hp
      · exact ⟨v, hp⟩
      · exact hpos p hp
    · intro k pd hpd
      cases k with
      | zero =>
        simp only [List.getElem?_cons_zero, Option.some.injEq] at hpd
        subst hpd
        exact ⟨pid, v, hpid, by simp, hv⟩
      | succ k =>
        obtain ⟨pid2, v4, ha, hb, hc⟩ := hk k pd (by simpa using hpd)
        exact ⟨pid2, v4, ha, by simpa using hb, hc⟩

/-- Soundness of the rewrite path of `simp_call_args`: a produced
parameter list is the normalization of the arguments against the
callee's ports. -/
theorem simp_call_args_core_sound (di ii ii2 : Nat) (tk : SubprogTK)
    (sk : SubprogKind) (fl : TFlags) (ports stmts ps ps2 : List Tree)
    (hn : lastPos ps < (ps.length : Int) - 1)
    (h : simp_call_args_core
        (Tree.subprogDecl di ii ii2 tk sk fl ports stmts) ps =
      some (some ps2)) :
    CallNormalized ports ps ps2 := by
  simp only [simp_call_args_core, Option.bind_eq_bind] at h
  rw [if_pos hn] at h
  simp only [Option.some_bind] at h
  rw [Option.bind_eq_some] at h
  obtain ⟨posPart, hpos, h⟩ := h
  rw [Option.bind_eq_some] at h
  obtain ⟨namedPart, hnamed, h⟩ := h
  simp only [Option.some.injEq] at h
  subst h
  obtain ⟨hl1, hle, hm1, hk1⟩ := resolvePosArgs_sound _ _ _ _ hpos
  obtain ⟨hl2, hm2, hk2⟩ := resolveNamedArgs_sound _ _ _ hnamed
  refine ⟨?_, ?_, ?_, ?_⟩
  · rw [List.length_append, hl1, hl2, List.length_drop]
    omega
  · intro p hp
    rcases List.mem_append.1 hp with hp | hp
    · exact hm1 p hp
    · exact hm2 p hp
  · intro k hk
    obtain ⟨sub, nm, v, v2, h1, h2, h3⟩ := hk1 k hk
    refine ⟨sub, nm, v, v2, h1, ?_, h3⟩
    rw [List.getElem?_append_left (by omega)]
    exact h2
  · intro k pd hge hpd
    have hdk : (ports.drop (lastPos ps + 1).toNat)[k - (lastPos ps + 1).toNat]? =
        some pd := by
      rw [List.getElem?_drop]
      have : (lastPos ps + 1).toNat + (k - (lastPos ps + 1).toNat) = k := by
        omega
      rw [this]
      exact hpd
    obtain ⟨pid, v2, ha, hb, hc⟩ := hk2 _ pd hdk
    refine ⟨pid, v2, ha, ?_, ?_⟩
    · rw [List.getElem?_append_right (by omega), hl1]
      exact hb
    · exact findNamedArg_sound pid pd _ v2 hc

/-- Counterexample to the unsupplied-port half of C6: normalizing a
call that leaves port `pce2` unsupplied aborts (`assert(found)` in the
C code) instead of inserting the port's default value, although `pce2`
has one. -/
theorem simp_call_args_unsupplied_ce :
    simp_call_args callCE = none ∧
    portDefault pce2 = some (Tree.litInt boolTy 9) := by
  constructor
  · simp [callCE, dCE, pce1, pce2, simp_call_args, simp_call_args_core,
      lastPos, resolvePosArgs, resolveNamedArgs, findNamedArg, portIdentOf,
      resolveOpen, portDefault, List.enum]
  · rfl

/-- **C6** (corrected).  For a function or procedure call whose
arguments have a named argument after the last positional one, a
successful run of `simp_call_args` returns the same call with every
parameter positional and in the callee's port declaration order: the
positional prefix keeps its values, each later port takes the value of
a named argument referencing it, and `open` actuals are replaced by the
port's default value.  A port not supplied by the caller does not take
its default value: the normalization aborts (see the
counterexample). -/
theorem simp_call_args_behaviour (i i2 di ii ii2 : Nat) (tk : SubprogTK)
    (sk : SubprogKind) (fl : TFlags) (ty : Ty) (tfl : TFlags)
    (ports stmts ps : List Tree)
    (hnamed : lastPos ps < (ps.length : Int) - 1) :
    (∀ out, simp_call_args
        (Tree.fcall i (Tree.subprogDecl di ii ii2 tk sk fl ports stmts)
          ty tfl ps) = some out →
      ∃ ps2,
        out = Tree.fcall i (Tree.subprogDecl di ii ii2 tk sk fl ports stmts)
          ty tfl ps2 ∧
        CallNormalized ports ps ps2) ∧
    (∀ out, simp_call_args
        (Tree.pcall i i2 (Tree.subprogDecl di ii ii2 tk sk fl ports stmts)
          ps) = some out →
      ∃ ps2,
        out = Tree.pcall i i2
          (Tree.subprogDecl di ii ii2 tk sk fl ports stmts) ps2 ∧
        CallNormalized ports ps ps2) := by
  have hcore : ∀ r, simp_call_args_core
      (Tree.subprogDecl di ii ii2 tk sk fl ports stmts) ps = some r →
      ∀ hr : r = none, False := by
    intro r hr he
    subst he
    simp only [simp_call_args_core, Option.bind_eq_bind] at hr
    rw [if_pos hnamed] at hr
    simp only [Option.some_bind] at hr
    rw [Option.bind_eq_some] at hr
    obtain ⟨a, _, hr⟩ := hr
    rw [Option.bind_eq_some] at hr
    obtain ⟨b, _, hr⟩ := hr
    simp at hr
  constructor
  · intro out h
    simp only [simp_call_args, Option.bind_eq_bind] at h
    rw [Option.bind_eq_some] at h
    obtain ⟨r, hr, h⟩ := h
    cases r with
    | none => exact absurd rfl (fun he => hcore none hr he)
    | some ps2 =>
      simp only [Option.some.injEq] at h
      subst h
      exact ⟨ps2, rfl,
        simp_call_args_core_sound di ii ii2 tk sk fl ports stmts ps ps2
          hnamed hr⟩
  · intro out h
    simp only [simp_call_args, Option.bind_eq_bind] at h
    rw [Option.bind_eq_some] at h
    obtain ⟨r, hr, h⟩ := h
    cases r with
    | none => exact absurd rfl (fun he => hcore none hr he)
    | some ps2 =>
      simp only [Option.some.injEq] at h
      subst h
      exact ⟨ps2, rfl,
        simp_call_args_core_sound di ii ii2 tk sk fl ports stmts ps ps2
          hnamed hr⟩

/-- Concrete instantiation of the corrected C6 theorem: the call
`callW` normalizes to two positional parameters in port order, with the
named `open` replaced by `pce2`'s default value. -/
theorem simp_call_args_behaviour_witness :
    ∃ ps2, Tree.pcall 3 4 dCE psW = Tree.pcall 3 4 dCE ps2 ∧
      CallNormalized [pce1, pce2]
        [Tree.paramT PSub.pos none (Tree.litInt boolTy 1),
         Tree.paramT PSub.named (some (Tree.ref 302 pce2 noFlags)) Tree.openK]
        ps2 := by
  have h : simp_call_args callW = some (Tree.pcall 3 4 dCE psW) := by
    simp [callW, dCE, pce1, pce2, psW, simp_call_args, simp_call_args_core,
      lastPos, resolvePosArgs, resolveNamedArgs, findNamedArg, portIdentOf,
      resolveOpen, portDefault, List.enum]
  exact (simp_call_args_behaviour 3 4 40 400 400 SubprogTK.procBody
      SubprogKind.user noFlags boolTy noFlags [pce1, pce2] []
      [Tree.paramT PSub.pos none (Tree.litInt boolTy 1),
       Tree.paramT PSub.named (some (Tree.ref 302 pce2 noFlags)) Tree.openK]
      (by decide)).2 (Tree.pcall 3 4 dCE psW) h

/-- `simp_call_args` keeps the node kind of a concurrent procedure
call: it only ever replaces the parameter list. -/
theorem simp_call_args_cpcall (i i2 : Nat) (decl : Tree) (ps : List Tree)
    (t2 : Tree) (h : simp_call_args (Tree.cpcall i i2 decl ps) = some t2) :
    ∃ ps2, t2 = Tree.cpcall i i2 decl ps2 := by
  simp only [simp_call_args, Option.bind_eq_bind] at h
  rw [Option.bind_eq_some] at h
  obtain ⟨r, hr, h⟩ := h
  cases r with
  | none =>
    simp only [Option.some.injEq] at h
    exact ⟨ps, h.symm⟩
  | some ps2 =>
    simp only [Option.some.injEq] at h
    exact ⟨ps2, h.symm⟩

/-- **C5** (corrected).  A concurrent signal assignment, a selected
signal assignment and a concurrent assertion that is not deleted as
constant-true are each rewritten into a process whose final statement
is a synthesized wait statement carrying the `static_wait` flag; a
concurrent procedure call is rewritten into a process whose final
statement is a synthesized wait statement, but that wait carries no
flags — `static_wait` is not set on it (see the counterexample). -/
theorem simp_concurrent_to_process :
    (∀ (i : Nat) (target : Tree) (guard : Option Tree) (conds : List Tree)
        (out : Tree),
      simp_cassign (Tree.cassign i target guard conds) = some out →
      ∃ stmts trigs, out = Tree.processT i noFlags [] [] stmts ∧
        stmts.getLast? = some (Tree.waitT identCassign
          { noFlags with staticWait := true } none trigs)) ∧
    (∀ (i : Nat) (v : Tree) (guard : Option Tree) (asl : List Tree)
        (out : Tree),
      simp_select (Tree.selectT i v guard asl) = some out →
      ∃ stmts trigs, out = Tree.processT i noFlags [] [] stmts ∧
        stmts.getLast? = some (Tree.waitT identSelectWait
          { noFlags with staticWait := true } none trigs)) ∧
    (∀ (i : Nat) (fl : TFlags) (v sev : Tree) (msg : Option Tree)
        (out : Tree),
      simp_cassert (Tree.cassert i fl v sev msg) = some (some out) →
      ∃ pf trigs, out = Tree.processT i pf [] []
        [Tree.assertT identAssertWrap (some v) sev msg,
         Tree.waitT identAssertWait { noFlags with staticWait := true }
           none trigs]) ∧
    (∀ (i i2 : Nat) (decl : Tree) (ps : List Tree) (out : Tree),
      simp_cpcall (Tree.cpcall i i2 decl ps) = some out →
      ∃ ps2 trigs, out = Tree.processT i noFlags [] []
        [Tree.pcall identPcall i2 decl ps2,
         Tree.waitT identPcallWait noFlags none trigs]) := by
  refine ⟨?_, ?_, ?_, ?_⟩
  · intro i target guard conds out h
    cases guard with
    | some g =>
      simp only [simp_cassign, Option.bind_eq_bind] at h
      rw [Option.bind_eq_some] at h
      obtain ⟨⟨cs, tr⟩, h1, h2⟩ := h
      simp only [Option.some.injEq] at h2
      subst h2
      exact ⟨_, tr, rfl, by simp⟩
    | none =>
      simp only [simp_cassign, Option.bind_eq_bind] at h
      rw [Option.bind_eq_some] at h
      obtain ⟨⟨cs, tr⟩, h1, h2⟩ := h
      simp only [Option.some.injEq] at h2
      subst h2
      exact ⟨_, tr, rfl, by simp⟩
  · intro i v guard asl out h
    cases guard with
    | some g =>
      simp only [simp_select, Option.bind_eq_bind] at h
      rw [Option.bind_eq_some] at h
      obtain ⟨w1, h1, h⟩ := h
      rw [Option.bind_eq_some] at h
      obtain ⟨trigs, h2, h⟩ := h
      simp only [Option.some.injEq] at h
      subst h
      exact ⟨_, trigs, rfl, by simp⟩
    | none =>
      simp only [simp_select, Option.bind_eq_bind] at h
      rw [Option.bind_eq_some] at h
      obtain ⟨w1, h1, h⟩ := h
      rw [Option.bind_eq_some] at h
      obtain ⟨trigs, h2, h⟩ := h
      simp only [Option.some.injEq] at h
      subst h
      exact ⟨_, trigs, rfl, by simp⟩
  · intro i fl v sev msg out h
    cases hfb : folded_bool v with
    | some b =>
      cases b with
      | true =>
        rw [simp_cassert.eq_def] at h
        simp only [hfb] at h
        simp at h
      | false =>
        rw [simp_cassert.eq_def] at h
        simp only [hfb, Option.bind_eq_bind] at h
        rw [Option.bind_eq_some] at h
        obtain ⟨trigs, h1, h⟩ := h
        simp only [Option.some.injEq] at h
        subst h
        exact ⟨_, trigs, rfl⟩
    | none =>
      rw [simp_cassert.eq_def] at h
      simp only [hfb, Option.bind_eq_bind] at h
      rw [Option.bind_eq_some] at h
      obtain ⟨trigs, h1, h⟩ := h
      simp only [Option.some.injEq] at h
      subst h
      exact ⟨_, trigs, rfl⟩
  · intro i i2 decl ps out h
    simp only [simp_cpcall, Option.bind_eq_bind] at h
    rw [Option.bind_eq_some] at h
    obtain ⟨t2, ht2, h⟩ := h
    obtain ⟨ps2, rfl⟩ := simp_call_args_cpcall i i2 decl ps t2 ht2
    cases decl <;> try (simp at h; done)
    case subprogDecl di ii ii2 tk sk fl ports stmts =>
      simp only [Option.some_bind] at h
      rw [Option.bind_eq_some] at h
      obtain ⟨trigs, htr, h⟩ := h
      simp only [Option.some.injEq] at h
      subst h
      exact ⟨ps2, trigs, rfl⟩

/-- Counterexample to the `static_wait` half of C5 for concurrent
procedure calls: the wait statement of the process built by
`simp_cpcall` carries `noFlags`, whose `static_wait` bit is clear. -/
theorem simp_cpcall_no_static_wait_ce :
    simp_cpcall (Tree.cpcall 5 6 dCE []) =
      some (Tree.processT 5 noFlags [] []
        [Tree.pcall identPcall 6 dCE [],
         Tree.waitT identPcallWait noFlags none []]) ∧
    noFlags.staticWait = false := by
  constructor
  · simp +decide [simp_cpcall, simp_call_args, simp_call_args_core, lastPos,
      dCE, pce1, pce2, cpcallTrigs, List.enum]
  · rfl

/-- Concrete instantiation of the corrected C5 theorem: the concurrent
assignment `caW` becomes a process ending in a `static_wait` wait; the
concurrent call `cpW` becomes a process ending in an unflagged wait. -/
theorem simp_concurrent_to_process_witness :
    (∃ stmts trigs, outA = Tree.processT 21 noFlags [] [] stmts ∧
      stmts.getLast? = some (Tree.waitT identCassign
        { noFlags with staticWait := true } none trigs)) ∧
    (∃ ps2 trigs, outD = Tree.processT 7 noFlags [] []
      [Tree.pcall identPcall 8 dCE ps2,
       Tree.waitT identPcallWait noFlags none trigs]) := by
  have ha : simp_cassign caW = some outA := by
    simp [caW, outA, sWa, sWb, simp_cassign, cassignConds, sbwList,
      simp_build_wait, class_of]
  have hd : simp_cpcall cpW = some outD := by
    simp +decide [cpW, outD, simp_cpcall, simp_call_args, simp_call_args_core,
      lastPos, dCE, pce1, pce2, cpcallTrigs, List.enum]
  exact ⟨simp_concurrent_to_process.1 21 (Tree.ref 201 sWa noFlags) none
      [Tree.condT none none
        [Tree.waveform (some (Tree.ref 202 sWb noFlags)) none]] outA ha,
    simp_concurrent_to_process.2.2.2 7 8 dCE [] outD hd⟩

/-- The drain loop appends each pending implicit signal to the top
unit's declarations and each driver process to its statements, in list
order. -/
theorem drainImpSignals_sound :
    ∀ (pending : List (Tree × Tree)) (u out : Tree) (ds ss : List Tree),
      drainImpSignals u pending = some out →
      topDecls u = some ds → topStmts u = some ss →
      topDecls out = some (ds ++ pending.map Prod.fst) ∧
      topStmts out = some (ss ++ pending.map Prod.snd) := by
  intro pending
  induction pending with
  | nil =>
    intro u out ds ss h hd hs
    rw [drainImpSignals.eq_def] at h
    simp only [Option.some.injEq] at h
    subst h
    simp [hd, hs]
  | cons sp rest ih =>
    obtain ⟨s, p⟩ := sp
    intro u out ds ss h hd hs
    cases u <;> try (rw [topDecls.eq_def] at hd; simp at hd; done)
    case archT i ds0 ss0 =>
      simp only [topDecls, Option.some.injEq] at hd
      simp only [topStmts, Option.some.injEq] at hs
      subst hd hs
      rw [drainImpSignals.eq_def] at h
      simp only [tree_add_decl, tree_add_stmt, Option.bind_eq_bind,
        Option.some_bind] at h
      obtain ⟨h1, h2⟩ := ih _ _ _ _ h rfl rfl
      rw [h1, h2]
      simp
    case blockT i g gm pp ds0 ss0 =>
      simp only [topDecls, Option.some.injEq] at hd
      simp only [topStmts, Option.some.injEq] at hs
      subst hd hs
      rw [drainImpSignals.eq_def] at h
      simp only [tree_add_decl, tree_add_stmt, Option.bind_eq_bind,
        Option.some_bind] at h
      obtain ⟨h1, h2⟩ := ih _ _ _ _ h rfl rfl
      rw [h1, h2]
      simp

/-- **C4** (corrected).  After the rewrite completes, `simplify_local`
appends every pending implicit signal synthesized for a `'DELAYED` or
`'TRANSACTION` attribute to the top unit's declaration list and its
driver process to the top unit's statement list.  `simplify_global`
does not: it asserts that no implicit signals were synthesized, and
aborts when any were (see the counterexample). -/
theorem simplify_imp_signals (top : Tree) (fold : Tree → Option Tree)
    (vh : Nat → Bool) (u0 : Nat) (generics : Option (List (Nat × Tree))) :
    (∀ ctx2 t2 out ds ss,
      simp_rw ⟨[], ⟨false, false⟩, fold, vh,
        { noFlags with locallyStatic := true }, none, none, u0⟩ top =
        some (ctx2, some t2) →
      simplify_local top fold vh u0 = some out →
      topDecls t2 = some ds → topStmts t2 = some ss →
      topDecls out = some (ds ++ ctx2.imp_signals.map Prod.fst) ∧
      topStmts out = some (ss ++ ctx2.imp_signals.map Prod.snd)) ∧
    (∀ ctx2 t2,
      simp_rw ⟨[], ⟨true, false⟩, fold, vh,
        { noFlags with locallyStatic := true, globallyStatic := true },
        generics, some [], u0⟩ top = some (ctx2, some t2) →
      (ctx2.imp_signals = [] →
        simplify_global top generics fold vh u0 = some t2) ∧
      (ctx2.imp_signals ≠ [] →
        simplify_global top generics fold vh u0 = none)) := by
  constructor
  · intro ctx2 t2 out ds ss hsimp hloc hd hs
    simp only [simplify_local, hsimp, Option.bind_eq_bind, Option.some_bind]
      at hloc
    exact drainImpSignals_sound ctx2.imp_signals t2 out ds ss hloc hd hs
  · intro ctx2 t2 hsimp
    constructor
    · intro hnil
      simp [simplify_global, hsimp, hnil]
    · intro hne
      have : ctx2.imp_signals.isEmpty = false := by
        cases himp : ctx2.imp_signals with
        | nil => exact absurd himp hne
        | cons a l => simp
      simp [simplify_global, hsimp, this]

set_option maxHeartbeats 2000000 in
/-- Counterexample to the `simplify_global` half of C4: on an
architecture reading `sWb'DELAYED(0)`, `simplify_local` appends the
synthesized implicit signal and driver process to the architecture,
while `simplify_global` aborts on its assertion that no implicit
signals were synthesized instead of appending them. -/
theorem simplify_global_imp_signals_ce :
    simplify_local archCE (fun _ => none) (fun _ => false) 1000 =
      some archOut ∧
    simplify_global archCE none (fun _ => none) (fun _ => false) 1000 =
      none := by
  have hs1 : simp_rw ⟨[], ⟨false, false⟩, (fun _ => none), (fun _ => false),
      { noFlags with locallyStatic := true }, none, none, 1000⟩ archCE =
      some (⟨[(sImp, pImp)], ⟨false, false⟩, (fun _ => none),
        (fun _ => false), { noFlags with locallyStatic := true }, none, none,
        1001⟩, some (Tree.archT 50 [] [saOut])) := by
    simp [archCE, saCE, attrCE, saOut, sImp, pImp, sWa, sWb, simp_rw,
      simp_rw_list, simp_rw_opt, simp_rw_single, simp_rw_params, simp_tree,
      simp_pre_cb, simp_ref, simp_attr_ref, simp_attr_delayed_transaction,
      simp_signal_assign, simp_literal, make_ref, make_default_value,
      treeIdent, identDelayed, identProcSuffix, identAssign, identWait]
  have hs2 : simp_rw ⟨[], ⟨true, false⟩, (fun _ => none), (fun _ => false),
      { noFlags with locallyStatic := true, globallyStatic := true }, none,
      some [], 1000⟩ archCE =
      some (⟨[(sImp, pImp)], ⟨true, false⟩, (fun _ => none),
        (fun _ => false),
        { noFlags with locallyStatic := true, globallyStatic := true }, none,
        some [], 1001⟩, some (Tree.archT 50 [] [saOut])) := by
    simp [archCE, saCE, attrCE, saOut, sImp, pImp, sWa, sWb, simp_rw,
      simp_rw_list, simp_rw_opt, simp_rw_single, simp_rw_params, simp_tree,
      simp_pre_cb, simp_ref, simp_attr_ref, simp_attr_delayed_transaction,
      simp_signal_assign, simp_literal, make_ref, make_default_value,
      treeIdent, identDelayed, identProcSuffix, identAssign, identWait]
  constructor
  · simp [simplify_local, hs1, archOut, drainImpSignals, tree_add_decl,
      tree_add_stmt]
  · simp [simplify_global, hs2]

/-- Concrete instantiation of the corrected C4 theorem: on `archCE` the
rewrite synthesizes the pair `(sImp, pImp)` and `simplify_local`
appends it to the architecture's declarations and statements. -/
theorem simplify_imp_signals_witness :
    topDecls archOut = some ([] ++ [((sImp : Tree), (pImp : Tree))].map Prod.fst) ∧
    topStmts archOut = some ([saOut] ++ [((sImp : Tree), (pImp : Tree))].map Prod.snd) := by
  have hsimp : simp_rw ⟨[], ⟨false, false⟩, (fun _ => none), (fun _ => false),
      { noFlags with locallyStatic := true }, none, none, 1000⟩ archCE =
      some (⟨[(sImp, pImp)], ⟨false, false⟩, (fun _ => none),
        (fun _ => false), { noFlags with locallyStatic := true }, none, none,
        1001⟩, some (Tree.archT 50 [] [saOut])) := by
    simp [archCE, saCE, attrCE, saOut, sImp, pImp, sWa, sWb, simp_rw,
      simp_rw_list, simp_rw_opt, simp_rw_single, simp_rw_params, simp_tree,
      simp_pre_cb, simp_ref, simp_attr_ref, simp_attr_delayed_transaction,
      simp_signal_assign, simp_literal, make_ref, make_default_value,
      treeIdent, identDelayed, identProcSuffix, identAssign, identWait]
  have hloc : simplify_local archCE (fun _ => none) (fun _ => false) 1000 =
      some archOut := by
    simp [simplify_local, hsimp, archOut, drainImpSignals, tree_add_decl,
      tree_add_stmt, saOut]
  exact (simplify_imp_signals archCE (fun _ => none) (fun _ => false) 1000
      none).1
    ⟨[(sImp, pImp)], ⟨false, false⟩, (fun _ => none), (fun _ => false),
      { noFlags with locallyStatic := true }, none, none, 1001⟩
    (Tree.archT 50 [] [saOut]) archOut [] [saOut] hsimp hloc rfl rfl

end Nvc
